import Mathlib

/-!
# Shreem Shell: tokeniser, parser, executors, job control, history and built-ins

A shallow embedding of the C sources under `src/shell` and the properties
proved about them.  Global C state (`tokens`, `token_count`,
`parser_state`, `background_jobs`, `next_job_number`, `command_log`,
`previous_cwd`, `current_foreground_pgid`) is passed explicitly.
The live part of the token buffer, `tokens[0 .. token_count)`, is a
`List Token`; `token_count` is its length.  Loops whose trip count is not
fixed in advance carry a fuel argument and return `none` when it runs out.
-/

namespace Shell

/-! ## Data model (`include/shell.h`) -/

/-- The `TokenType` enum of `shell.h`. -/
inductive TokenType where
  | TOKEN_NAME
  | TOKEN_PIPE
  | TOKEN_AMPERSAND
  | TOKEN_SEMICOLON
  | TOKEN_INPUT
  | TOKEN_OUTPUT
  | TOKEN_DOUBLE_OUTPUT
  | TOKEN_END
  | TOKEN_INVALID
  deriving DecidableEq, Repr

open TokenType

/-- The `Token` struct: a kind and the text of the lexeme. -/
structure Token where
  type : TokenType
  value : List Char
  deriving DecidableEq, Repr

/-- The `ParserState` struct. -/
structure ParserState where
  current_token_index : Nat
  deriving DecidableEq, Repr

/-- The sentinel written at `tokens[token_count]` and returned by
`current_token` past the end: kind `TOKEN_END`, empty text. -/
def end_token : Token := ⟨TOKEN_END, []⟩

/-! ## Parser (`src/parser.c`) -/

/-- The state set by `init_parser`: the index starts at 0. -/
def init_parser_state : ParserState := ⟨0⟩

/-- Function `current_token`: the token under the index, or the end token once the
index has reached `token_count`. -/
def current_token (tokens : List Token) (st : ParserState) : Token :=
  if st.current_token_index < tokens.length then
    tokens.getD st.current_token_index end_token
  else
    end_token

/-- Function `consume_token`: advance the index unless it is already at
`token_count`. -/
def consume_token (tokens : List Token) (st : ParserState) : ParserState :=
  if st.current_token_index < tokens.length then
    ⟨st.current_token_index + 1⟩
  else
    st

/-- Function `match_token`: compare the kind of the current token, consuming nothing. -/
def match_token (tokens : List Token) (st : ParserState) (type : TokenType) : Bool :=
  (current_token tokens st).type == type

/-- Function `parse_name`: consume one `TOKEN_NAME` and return 1, or return 0. -/
def parse_name (tokens : List Token) (st : ParserState) : Int × ParserState :=
  if match_token tokens st TOKEN_NAME then
    (1, consume_token tokens st)
  else
    (0, st)

/-- Function `parse_input`: on `<` the operator is consumed and then a name is
required; the operator stays consumed when the name is missing. -/
def parse_input (tokens : List Token) (st : ParserState) : Int × ParserState :=
  if match_token tokens st TOKEN_INPUT then
    let st1 := consume_token tokens st
    let r := parse_name tokens st1
    if r.1 ≠ 0 then (1, r.2) else (0, r.2)
  else
    (0, st)

/-- Function `parse_output`: as `parse_input`, for `>` and `>>`. -/
def parse_output (tokens : List Token) (st : ParserState) : Int × ParserState :=
  if match_token tokens st TOKEN_OUTPUT || match_token tokens st TOKEN_DOUBLE_OUTPUT then
    let st1 := consume_token tokens st
    let r := parse_name tokens st1
    if r.1 ≠ 0 then (1, r.2) else (0, r.2)
  else
    (0, st)

/-- The `while (1)` loop of `parse_atomic`: try a name, then an input
redirection, then an output redirection, each on the state the previous
attempt left behind; stop when all three fail. -/
def parse_atomic_loop (tokens : List Token) : Nat → ParserState → Option ParserState
  | 0, _ => none
  | fuel + 1, st =>
    let r1 := parse_name tokens st
    if r1.1 ≠ 0 then parse_atomic_loop tokens fuel r1.2
    else
      let r2 := parse_input tokens r1.2
      if r2.1 ≠ 0 then parse_atomic_loop tokens fuel r2.2
      else
        let r3 := parse_output tokens r2.2
        if r3.1 ≠ 0 then parse_atomic_loop tokens fuel r3.2
        else some r3.2

/-- Function `parse_atomic`: a command name, then the argument loop; the loop never
fails, so the result is 1 whenever the first name is present. -/
def parse_atomic (tokens : List Token) (st : ParserState) : Option (Int × ParserState) :=
  let r := parse_name tokens st
  if r.1 = 0 then some (0, r.2)
  else
    match parse_atomic_loop tokens (tokens.length + 1) r.2 with
    | none => none
    | some st1 => some (1, st1)

/-- The `while (match_token(TOKEN_PIPE))` loop of `parse_cmd_group`. -/
def parse_cmd_group_loop (tokens : List Token) : Nat → ParserState → Option (Int × ParserState)
  | 0, _ => none
  | fuel + 1, st =>
    if match_token tokens st TOKEN_PIPE then
      let st1 := consume_token tokens st
      match parse_atomic tokens st1 with
      | none => none
      | some (r, st2) =>
        if r = 0 then some (0, st2)
        else parse_cmd_group_loop tokens fuel st2
    else
      some (1, st)

/-- Function `parse_cmd_group`: an atomic command, then the pipe loop. -/
def parse_cmd_group (tokens : List Token) (st : ParserState) : Option (Int × ParserState) :=
  match parse_atomic tokens st with
  | none => none
  | some (r, st1) =>
    if r = 0 then some (0, st1)
    else parse_cmd_group_loop tokens (tokens.length + 1) st1

/-- How the separator loop of `parse_shell_cmd` ends: by `return 0` from
inside the loop, or by leaving the loop (condition false or `break`). -/
inductive LoopExit where
  | returned (value : Int) (st : ParserState)
  | left (st : ParserState)
  deriving DecidableEq, Repr

/-- The `while (match_token(TOKEN_AMPERSAND) || match_token(TOKEN_SEMICOLON))`
loop of `parse_shell_cmd`. -/
def parse_shell_cmd_loop (tokens : List Token) : Nat → ParserState → Option LoopExit
  | 0, _ => none
  | fuel + 1, st =>
    if match_token tokens st TOKEN_AMPERSAND || match_token tokens st TOKEN_SEMICOLON then
      let separator := (current_token tokens st).type
      let st1 := consume_token tokens st
      if !match_token tokens st1 TOKEN_END then
        match parse_cmd_group tokens st1 with
        | none => none
        | some (r, st2) =>
          if r = 0 then
            if separator = TOKEN_AMPERSAND ∧ match_token tokens st2 TOKEN_END = true then
              some (LoopExit.left st2)
            else
              some (LoopExit.returned 0 st2)
          else
            parse_shell_cmd_loop tokens fuel st2
      else
        some (LoopExit.left st1)
    else
      some (LoopExit.left st)

/-- Function `parse_shell_cmd`: a command group, the separator loop, and the check
for one more `&`. -/
def parse_shell_cmd (tokens : List Token) (st : ParserState) : Option (Int × ParserState) :=
  match parse_cmd_group tokens st with
  | none => none
  | some (r, st1) =>
    if r = 0 then some (0, st1)
    else
      match parse_shell_cmd_loop tokens (tokens.length + 1) st1 with
      | none => none
      | some (LoopExit.returned v st2) => some (v, st2)
      | some (LoopExit.left st2) =>
        if match_token tokens st2 TOKEN_AMPERSAND then
          some (1, consume_token tokens st2)
        else
          some (1, st2)

/-- The loop of `parse` that prints and consumes the tokens left over after
`parse_shell_cmd` has succeeded. -/
def parse_remaining_loop (tokens : List Token) : Nat → ParserState → Option ParserState
  | 0, _ => none
  | fuel + 1, st =>
    if !match_token tokens st TOKEN_END then
      parse_remaining_loop tokens fuel (consume_token tokens st)
    else
      some st

/-- Function `parse`: 1 for an empty buffer, otherwise the result of
`parse_shell_cmd`; left-over tokens are reported and skipped but do not
change the result. -/
def parse (tokens : List Token) : Option Int :=
  let st := init_parser_state
  if tokens.length = 0 ∨ match_token tokens st TOKEN_END = true then some 1
  else
    match parse_shell_cmd tokens st with
    | none => none
    | some (result, st1) =>
      if result ≠ 0 ∧ (!match_token tokens st1 TOKEN_END) = true then
        match parse_remaining_loop tokens (tokens.length + 1) st1 with
        | none => none
        | some _ => some result
      else
        some result

/-! ## The grammar of the specification -/

/-- The starred part of `atomic`: `(NAME | '<' NAME | '>' NAME | '>>' NAME)*`. -/
inductive AtomicArgs : List TokenType → Prop where
  | done : AtomicArgs []
  | name {r : List TokenType} : AtomicArgs r → AtomicArgs (TOKEN_NAME :: r)
  | input {r : List TokenType} : AtomicArgs r → AtomicArgs (TOKEN_INPUT :: TOKEN_NAME :: r)
  | output {r : List TokenType} : AtomicArgs r → AtomicArgs (TOKEN_OUTPUT :: TOKEN_NAME :: r)
  | append {r : List TokenType} :
      AtomicArgs r → AtomicArgs (TOKEN_DOUBLE_OUTPUT :: TOKEN_NAME :: r)

/-- The production `atomic := NAME (NAME | '<' NAME | '>' NAME | '>>' NAME)*`. -/
inductive Atomic : List TokenType → Prop where
  | mk {r : List TokenType} : AtomicArgs r → Atomic (TOKEN_NAME :: r)

/-- The production `cmd_group := atomic ('|' atomic)*`. -/
inductive CmdGroup : List TokenType → Prop where
  | one {a : List TokenType} : Atomic a → CmdGroup a
  | pipe {a g : List TokenType} : Atomic a → CmdGroup g → CmdGroup (a ++ TOKEN_PIPE :: g)

/-- The tail of `shell_cmd`: `((';' | '&') cmd_group)* ('&')?`. -/
inductive ShellTail : List TokenType → Prop where
  | done : ShellTail []
  | amp : ShellTail [TOKEN_AMPERSAND]
  | semi_group {g r : List TokenType} :
      CmdGroup g → ShellTail r → ShellTail (TOKEN_SEMICOLON :: (g ++ r))
  | amp_group {g r : List TokenType} :
      CmdGroup g → ShellTail r → ShellTail (TOKEN_AMPERSAND :: (g ++ r))

/-- The production `shell_cmd := cmd_group ((';' | '&') cmd_group)* ('&')?`. -/
inductive ShellCmd : List TokenType → Prop where
  | mk {g r : List TokenType} : CmdGroup g → ShellTail r → ShellCmd (g ++ r)

/-! ## Reading the token kinds -/

/-- The kinds of the tokens of the buffer, in order. -/
def kinds (tokens : List Token) : List TokenType := tokens.map Token.type

/-- The kind the parser sees at the head of a list of pending kinds:
`TOKEN_END` when nothing is pending. -/
def next_kind (pending : List TokenType) : TokenType := pending.head?.getD TOKEN_END

/-- Kinds that end an atomic command: anything but a name or a redirection
operator. -/
def ends_atomic (t : TokenType) : Prop :=
  t ≠ TOKEN_NAME ∧ t ≠ TOKEN_INPUT ∧ t ≠ TOKEN_OUTPUT ∧ t ≠ TOKEN_DOUBLE_OUTPUT

/-- Kinds that end a command group: those that end an atomic command, except
the pipe. -/
def ends_group (t : TokenType) : Prop := ends_atomic t ∧ t ≠ TOKEN_PIPE


/-- A redirection operator kind: `<`, `>` or `>>`. -/
def is_redirection (t : TokenType) : Bool :=
  t == TOKEN_INPUT || t == TOKEN_OUTPUT || t == TOKEN_DOUBLE_OUTPUT

/-- Every redirection operator of the sequence is immediately followed by a
name. -/
def redirections_followed_by_name : List TokenType → Bool
  | [] => true
  | t :: rest =>
    (!is_redirection t || rest.head? == some TOKEN_NAME) && redirections_followed_by_name rest

/-- Some pipe of the sequence is immediately followed by something that is
not a name (the end of the sequence included): the pipe has no right
operand. -/
def pipe_without_operand : List TokenType → Bool
  | [] => false
  | t :: rest =>
    (t == TOKEN_PIPE && next_kind rest != TOKEN_NAME) || pipe_without_operand rest

/-- The tokens of the line `cat <`. -/
def line_cat_in : List Token :=
  [⟨TOKEN_NAME, ['c', 'a', 't']⟩, ⟨TOKEN_INPUT, ['<']⟩]

/-- The tokens of the line `cat < | wc`. -/
def line_cat_in_pipe_wc : List Token :=
  [⟨TOKEN_NAME, ['c', 'a', 't']⟩, ⟨TOKEN_INPUT, ['<']⟩, ⟨TOKEN_PIPE, ['|']⟩,
    ⟨TOKEN_NAME, ['w', 'c']⟩]

/-- The tokens of the line `a & b |`. -/
def line_a_amp_b_pipe : List Token :=
  [⟨TOKEN_NAME, ['a']⟩, ⟨TOKEN_AMPERSAND, ['&']⟩, ⟨TOKEN_NAME, ['b']⟩, ⟨TOKEN_PIPE, ['|']⟩]

/-- The tokens of the line `sleep 5 &`. -/
def line_sleep_amp : List Token :=
  [⟨TOKEN_NAME, ['s', 'l', 'e', 'e', 'p']⟩, ⟨TOKEN_NAME, ['5']⟩, ⟨TOKEN_AMPERSAND, ['&']⟩]

/-- The number of tokens the parser has not consumed yet. -/
def tokens_left (tokens : List Token) (st : ParserState) : Nat :=
  tokens.length - st.current_token_index
/-! ## Tokeniser (`src/tokeniser.c`) -/

/-- The terminating NUL of a C string. -/
def NUL : Char := Char.ofNat 0

/-- The read `*p` for a C string held as the list of its characters: past the last
character the terminating NUL is read. -/
def deref (p : List Char) : Char := p.headD NUL

/-- The test `isspace` in the C locale: space, `\t`, `\n`, `\v`, `\f`, `\r`. -/
def isspace (c : Char) : Bool :=
  c == ' ' || c == '\t' || c == '\n' || c == Char.ofNat 11 || c == Char.ofNat 12 || c == '\r'

/-- The test `strchr(s, c) != NULL`: the character occurs in `s`, the terminating NUL
of `s` included. -/
def strchr (s : List Char) (c : Char) : Bool := s.contains c || c == NUL

/-- The inner `while` of `tokenise` that copies a name: characters are taken
until NUL, whitespace or one of `<|>&;`.  Returns the copied text and the
new `p`. -/
def name_loop : List Char → List Char × List Char
  | [] => ([], [])
  | c :: rest =>
    if c ≠ NUL ∧ !isspace c ∧ !strchr ['<', '|', '>', '&', ';'] c then
      let r := name_loop rest
      (c :: r.1, r.2)
    else
      ([], c :: rest)

/-- The outer `while (*p != 0 && token_count < 1023)` of `tokenise`, from
position `p` with `token_count` tokens already stored; returns the tokens
stored from here on. -/
def tokenise_loop : Nat → List Char → Nat → Option (List Token)
  | 0, _, _ => none
  | fuel + 1, p, token_count =>
    if deref p ≠ NUL ∧ token_count < 1023 then
      if isspace (deref p) then
        tokenise_loop fuel p.tail token_count
      else if deref p = '|' then
        (tokenise_loop fuel p.tail (token_count + 1)).map (fun ts => ⟨TOKEN_PIPE, p.take 1⟩ :: ts)
      else if deref p = '<' then
        (tokenise_loop fuel p.tail (token_count + 1)).map (fun ts => ⟨TOKEN_INPUT, p.take 1⟩ :: ts)
      else if deref p = '>' then
        if deref p.tail = '>' then
          (tokenise_loop fuel p.tail.tail (token_count + 1)).map
            (fun ts => ⟨TOKEN_DOUBLE_OUTPUT, p.take 2⟩ :: ts)
        else
          (tokenise_loop fuel p.tail (token_count + 1)).map
            (fun ts => ⟨TOKEN_OUTPUT, p.take 1⟩ :: ts)
      else if deref p = '&' then
        (tokenise_loop fuel p.tail (token_count + 1)).map
          (fun ts => ⟨TOKEN_AMPERSAND, p.take 1⟩ :: ts)
      else if deref p = ';' then
        (tokenise_loop fuel p.tail (token_count + 1)).map
          (fun ts => ⟨TOKEN_SEMICOLON, p.take 1⟩ :: ts)
      else
        let r := name_loop p
        (tokenise_loop fuel r.2 (token_count + 1)).map (fun ts => ⟨TOKEN_NAME, r.1⟩ :: ts)
    else
      some []

/-- Function `tokenise`: the live tokens `tokens[0 .. token_count)` for the line
`current_input`.  Every turn of the loop moves `p` forward, so one unit of
fuel per character (and one to see the end) is enough. -/
def tokenise (current_input : List Char) : Option (List Token) :=
  tokenise_loop (current_input.length + 1) current_input 0

/-- The buffer after `tokenise`, with the `TOKEN_END` sentinel that the
last two statements write at `tokens[token_count]`. -/
def token_buffer (current_input : List Char) : Option (List Token) :=
  (tokenise current_input).map (fun ts => ts ++ [end_token])

/-! ## Reference tokenisation (the rules of the specification) -/

/-- One of the operator characters `| < > & ;`. -/
def is_operator_char (c : Char) : Bool :=
  c == '|' || c == '<' || c == '>' || c == '&' || c == ';'

/-- A character of a name: neither whitespace nor an operator character. -/
def is_name_char (c : Char) : Bool := !isspace c && !is_operator_char c

/-- The reference tokenisation: whitespace is dropped; `|`, `<`, `&`, `;`
are tokens of their own; `>` followed by `>` is one `APPEND` token and
otherwise an `OUT` token; a maximal run of name characters is one `NAME`
token whose text is the run. -/
def reference_tokens : List Char → List Token
  | [] => []
  | c :: rest =>
    if isspace c then reference_tokens rest
    else if c = '|' then ⟨TOKEN_PIPE, ['|']⟩ :: reference_tokens rest
    else if c = '<' then ⟨TOKEN_INPUT, ['<']⟩ :: reference_tokens rest
    else if c = '&' then ⟨TOKEN_AMPERSAND, ['&']⟩ :: reference_tokens rest
    else if c = ';' then ⟨TOKEN_SEMICOLON, [';']⟩ :: reference_tokens rest
    else if c = '>' then
      if rest.head? = some '>' then
        ⟨TOKEN_DOUBLE_OUTPUT, ['>', '>']⟩ :: reference_tokens (rest.drop 1)
      else
        ⟨TOKEN_OUTPUT, ['>']⟩ :: reference_tokens rest
    else
      ⟨TOKEN_NAME, c :: rest.takeWhile is_name_char⟩ ::
        reference_tokens (rest.dropWhile is_name_char)
termination_by line => line.length
decreasing_by
  all_goals simp_wf
  all_goals first
    | omega
    | exact Nat.lt_succ_of_le (List.Sublist.length_le (List.dropWhile_sublist _))

/-! ## Rebuilding a command line from tokens (`src/seq.c`, `src/log.c`) -/

/-- The second `for` loop of `reconstruct_command_from_segment` and of
`reconstruct_command_from_tokens`: `strcat` a space before every token but
the first, then the token text.  The first argument counts the turns left,
`end_index - i`. -/
def reconstruct_loop (tokens : List Token) (start_index : Nat) :
    Nat → Nat → List Char → List Char
  | 0, _, command => command
  | turns + 1, i, command =>
    let spaced := if i > start_index then command ++ [' '] else command
    reconstruct_loop tokens start_index turns (i + 1)
      (spaced ++ (tokens.getD i end_token).value)

/-- Function `reconstruct_command_from_segment` (`seq.c`): `NULL` for an empty
range, else the texts of `tokens[start_index .. end_index)` joined by single
spaces (the allocation is taken to succeed). -/
def reconstruct_command_from_segment (tokens : List Token) (start_index end_index : Nat) :
    Option (List Char) :=
  if start_index ≥ end_index then none
  else some (reconstruct_loop tokens start_index (end_index - start_index) start_index [])

/-- Function `reconstruct_command_from_tokens` (`log.c`): `NULL` when there is no
token, else the texts of all tokens joined by single spaces (the allocation
is taken to succeed). -/
def reconstruct_command_from_tokens (tokens : List Token) : Option (List Char) :=
  if tokens.length = 0 then none
  else some (reconstruct_loop tokens 0 tokens.length 0 [])

/-- The token texts, each preceded by one space. -/
def spaced_values : List Token → List Char
  | [] => []
  | t :: ts => ' ' :: (t.value ++ spaced_values ts)

/-- The token texts joined by single spaces. -/
def joined_values : List Token → List Char
  | [] => []
  | t :: ts => t.value ++ spaced_values ts

/-- What the lexer can emit: an operator with its symbol as text, or a name
whose text is a non-empty run of name characters. -/
def is_lexeme (t : Token) : Prop :=
  t = ⟨TOKEN_PIPE, ['|']⟩ ∨ t = ⟨TOKEN_INPUT, ['<']⟩ ∨ t = ⟨TOKEN_OUTPUT, ['>']⟩ ∨
  t = ⟨TOKEN_DOUBLE_OUTPUT, ['>', '>']⟩ ∨ t = ⟨TOKEN_AMPERSAND, ['&']⟩ ∨
  t = ⟨TOKEN_SEMICOLON, [';']⟩ ∨
  (t.type = TOKEN_NAME ∧ t.value ≠ [] ∧ ∀ c ∈ t.value, is_name_char c = true)

/-- The line `ls >>out | wc`. -/
def line_ls_append : List Char := "ls >>out | wc".toList
/-! ## Argument vectors (`src/cat.c`, `src/pipe.c`) -/

/-- The array access `tokens[i]`.  The executors only index below
`token_count`; the entry at `token_count` is the end sentinel. -/
def token_at (tokens : List Token) (i : Nat) : Token := tokens.getD i end_token


/-- The first loop of `execute_command`: the index of the first `|`, `;` or
`&`, or `token_count` when there is none.  The first argument counts the
turns left. -/
def command_end_loop (tokens : List Token) : Nat → Nat → Nat
  | 0, _ => tokens.length
  | turns + 1, i =>
    if (token_at tokens i).type = TOKEN_PIPE ∨
        (token_at tokens i).type = TOKEN_SEMICOLON ∨
        (token_at tokens i).type = TOKEN_AMPERSAND then
      i
    else
      command_end_loop tokens turns (i + 1)

/-- The `cmd_end` computed by `execute_command`. -/
def command_end (tokens : List Token) : Nat := command_end_loop tokens tokens.length 0

/-- The argument loop of `execute_command` over `i < cmd_end`: a name goes
into `args` unless `i > 0` and the token before it is a redirection
operator; the loop breaks once 255 arguments are stored. -/
def execute_command_args_loop (tokens : List Token) :
    Nat → Nat → List (List Char) → List (List Char)
  | 0, _, args => args
  | turns + 1, i, args =>
    if (token_at tokens i).type = TOKEN_NAME then
      let is_redirect_file :=
        decide (i > 0) && is_redirection (token_at tokens (i - 1)).type
      if !is_redirect_file then
        let args1 := args ++ [(token_at tokens i).value]
        if args1.length ≥ 255 then args1
        else execute_command_args_loop tokens turns (i + 1) args1
      else
        execute_command_args_loop tokens turns (i + 1) args
    else
      execute_command_args_loop tokens turns (i + 1) args

/-- The `args` array that `execute_command` passes to `execvp`. -/
def execute_command_args (tokens : List Token) : List (List Char) :=
  execute_command_args_loop tokens (command_end tokens) 0 []

/-- The argument loop of `execute_command_in_pipeline` over
`cmd_start ≤ i < cmd_end`: a name is skipped when `i > cmd_start` and the
token before it is a redirection operator. -/
def execute_command_in_pipeline_args_loop (tokens : List Token) (cmd_start : Nat) :
    Nat → Nat → List (List Char) → List (List Char)
  | 0, _, args => args
  | turns + 1, i, args =>
    if (token_at tokens i).type = TOKEN_NAME then
      if i > cmd_start ∧ is_redirection (token_at tokens (i - 1)).type = true then
        execute_command_in_pipeline_args_loop tokens cmd_start turns (i + 1) args
      else
        execute_command_in_pipeline_args_loop tokens cmd_start turns (i + 1)
          (args ++ [(token_at tokens i).value])
    else
      execute_command_in_pipeline_args_loop tokens cmd_start turns (i + 1) args

/-- The `args` array that `execute_command_in_pipeline` builds. -/
def execute_command_in_pipeline_args (tokens : List Token) (cmd_start cmd_end : Nat) :
    List (List Char) :=
  execute_command_in_pipeline_args_loop tokens cmd_start (cmd_end - cmd_start) cmd_start []

/-- Token `i` of a range that starts at `start_index` is a command word: a
name that is not immediately preceded in the range by a redirection
operator. -/
def is_command_word (tokens : List Token) (start_index i : Nat) : Bool :=
  decide ((token_at tokens i).type = TOKEN_NAME) &&
    !(decide (start_index < i) && is_redirection (token_at tokens (i - 1)).type)

/-- The words of the command in `tokens[start_index .. end_index)`: the
texts of the names of the range, in order, that are not immediately preceded
in the range by a redirection operator. -/
def command_words (tokens : List Token) (start_index end_index : Nat) : List (List Char) :=
  ((List.range' start_index (end_index - start_index)).filter
      (is_command_word tokens start_index)).map
    (fun i => (token_at tokens i).value)

/-- The tokens of the line `sort -r < in > out`. -/
def line_sort : List Token :=
  [⟨TOKEN_NAME, ['s', 'o', 'r', 't']⟩, ⟨TOKEN_NAME, ['-', 'r']⟩, ⟨TOKEN_INPUT, ['<']⟩,
    ⟨TOKEN_NAME, ['i', 'n']⟩, ⟨TOKEN_OUTPUT, ['>']⟩, ⟨TOKEN_NAME, ['o', 'u', 't']⟩]

/-! ## Redirections (`src/input.c`, `src/output.c`) -/

/-- The flag words passed to `open`: `O_RDONLY`, `O_WRONLY | O_CREAT |
O_TRUNC` and `O_WRONLY | O_CREAT | O_APPEND`. -/
inductive OpenFlags where
  | O_RDONLY
  | O_WRONLY_O_CREAT_O_TRUNC
  | O_WRONLY_O_CREAT_O_APPEND
  deriving DecidableEq, Repr

/-- A system call made by a child, with its result where the code looks at
it.  Messages written with `printf` and `perror` are not recorded. -/
inductive SysCall where
  | setpgid (pid pgid : Int)
  | open_call (pathname : List Char) (flags : OpenFlags) (result : Int)
  | close (fd : Int)
  | dup2 (oldfd newfd : Int) (result : Int)
  deriving DecidableEq, Repr

/-- The operating system as the child sees it: what `open` and `dup2`
return, given the calls made so far. -/
structure OS where
  open_result : List SysCall → List Char → OpenFlags → Int
  dup2_result : List SysCall → Int → Int → Int

/-- The constant `STDIN_FILENO`. -/
def STDIN_FILENO : Int := 0

/-- The constant `STDOUT_FILENO`. -/
def STDOUT_FILENO : Int := 1

/-- The `for` loop of `setup_input_redirection`, from index `i` with the
descriptor `input_fd` open (`-1` for none).  Returns the value of an early
`return` if there is one, the descriptor, and the calls made. -/
def setup_input_redirection_loop (os : OS) (tokens : List Token) (end_index : Nat) :
    Nat → Nat → Int → List SysCall → Option (Option Int × Int × List SysCall)
  | 0, _, _, _ => none
  | fuel + 1, i, input_fd, trace =>
    if i < end_index then
      if (token_at tokens i).type = TOKEN_INPUT then
        if i + 1 < end_index ∧ (token_at tokens (i + 1)).type = TOKEN_NAME then
          let trace1 := if input_fd ≠ -1 then trace ++ [SysCall.close input_fd] else trace
          let input_filename := (token_at tokens (i + 1)).value
          let fd := os.open_result trace1 input_filename OpenFlags.O_RDONLY
          let trace2 := trace1 ++ [SysCall.open_call input_filename OpenFlags.O_RDONLY fd]
          if fd = -1 then some (some (-1), fd, trace2)
          else setup_input_redirection_loop os tokens end_index fuel (i + 2) fd trace2
        else
          some (some (-1), input_fd,
            if input_fd ≠ -1 then trace ++ [SysCall.close input_fd] else trace)
      else
        setup_input_redirection_loop os tokens end_index fuel (i + 1) input_fd trace
    else
      some (none, input_fd, trace)

/-- Function `setup_input_redirection`: the loop, then `dup2` of the surviving
descriptor onto standard input and its `close`.  Returns 0 or -1 and the
calls made, appended to `trace`. -/
def setup_input_redirection (os : OS) (tokens : List Token) (start_index end_index : Nat)
    (trace : List SysCall) : Option (Int × List SysCall) :=
  match setup_input_redirection_loop os tokens end_index (end_index - start_index + 1)
      start_index (-1) trace with
  | none => none
  | some (some r, _, trace1) => some (r, trace1)
  | some (none, input_fd, trace1) =>
    if input_fd ≠ -1 then
      let r := os.dup2_result trace1 input_fd STDIN_FILENO
      some (if r = -1 then -1 else 0,
        trace1 ++ [SysCall.dup2 input_fd STDIN_FILENO r, SysCall.close input_fd])
    else
      some (0, trace1)

/-- The `for` loop of `setup_output_redirection`; the flags are chosen from
the operator at index `i`. -/
def setup_output_redirection_loop (os : OS) (tokens : List Token) (end_index : Nat) :
    Nat → Nat → Int → List SysCall → Option (Option Int × Int × List SysCall)
  | 0, _, _, _ => none
  | fuel + 1, i, output_fd, trace =>
    if i < end_index then
      if (token_at tokens i).type = TOKEN_OUTPUT ∨
          (token_at tokens i).type = TOKEN_DOUBLE_OUTPUT then
        if i + 1 < end_index ∧ (token_at tokens (i + 1)).type = TOKEN_NAME then
          let trace1 := if output_fd ≠ -1 then trace ++ [SysCall.close output_fd] else trace
          let output_filename := (token_at tokens (i + 1)).value
          let output_flags :=
            if (token_at tokens i).type = TOKEN_OUTPUT then OpenFlags.O_WRONLY_O_CREAT_O_TRUNC
            else OpenFlags.O_WRONLY_O_CREAT_O_APPEND
          let fd := os.open_result trace1 output_filename output_flags
          let trace2 := trace1 ++ [SysCall.open_call output_filename output_flags fd]
          if fd = -1 then some (some (-1), fd, trace2)
          else setup_output_redirection_loop os tokens end_index fuel (i + 2) fd trace2
        else
          some (some (-1), output_fd,
            if output_fd ≠ -1 then trace ++ [SysCall.close output_fd] else trace)
      else
        setup_output_redirection_loop os tokens end_index fuel (i + 1) output_fd trace
    else
      some (none, output_fd, trace)

/-- Function `setup_output_redirection`: the loop, then `dup2` of the surviving
descriptor onto standard output and its `close`. -/
def setup_output_redirection (os : OS) (tokens : List Token) (start_index end_index : Nat)
    (trace : List SysCall) : Option (Int × List SysCall) :=
  match setup_output_redirection_loop os tokens end_index (end_index - start_index + 1)
      start_index (-1) trace with
  | none => none
  | some (some r, _, trace1) => some (r, trace1)
  | some (none, output_fd, trace1) =>
    if output_fd ≠ -1 then
      let r := os.dup2_result trace1 output_fd STDOUT_FILENO
      some (if r = -1 then -1 else 0,
        trace1 ++ [SysCall.dup2 output_fd STDOUT_FILENO r, SysCall.close output_fd])
    else
      some (0, trace1)

/-! ## Redirections: the targets of a command and the expected calls -/

/-- The input redirections of `tokens[start_index .. end_index)`, left to
right: for each `<`, the text of the token after it, opened read-only. -/
def input_targets (tokens : List Token) (start_index end_index : Nat) :
    List (List Char × OpenFlags) :=
  ((List.range' start_index (end_index - start_index)).filter
      (fun i => decide ((token_at tokens i).type = TOKEN_INPUT))).map
    (fun i => ((token_at tokens (i + 1)).value, OpenFlags.O_RDONLY))

/-- The flags for an output operator: truncate for `>`, append for `>>`. -/
def output_flags_of (t : TokenType) : OpenFlags :=
  if t = TOKEN_OUTPUT then OpenFlags.O_WRONLY_O_CREAT_O_TRUNC
  else OpenFlags.O_WRONLY_O_CREAT_O_APPEND

/-- The output redirections of `tokens[start_index .. end_index)`, left to
right: for each `>` or `>>`, the text of the token after it and the flags of
that operator. -/
def output_targets (tokens : List Token) (start_index end_index : Nat) :
    List (List Char × OpenFlags) :=
  ((List.range' start_index (end_index - start_index)).filter
      (fun i => decide ((token_at tokens i).type = TOKEN_OUTPUT ∨
        (token_at tokens i).type = TOKEN_DOUBLE_OUTPUT))).map
    (fun i => ((token_at tokens (i + 1)).value, output_flags_of (token_at tokens i).type))

/-- The calls for a list of targets of one kind, given the descriptor `fd`
left open by the targets before them (`-1` for none): before each `open` the
previous descriptor is closed; a failed `open` ends the run with -1; after
the last target the surviving descriptor is installed on `std_fd` with
`dup2` and closed. -/
def redirect_script (os : OS) (std_fd : Int) :
    List (List Char × OpenFlags) → Int → List SysCall → Int × List SysCall
  | [], fd, trace =>
    if fd ≠ -1 then
      let r := os.dup2_result trace fd std_fd
      (if r = -1 then -1 else 0, trace ++ [SysCall.dup2 fd std_fd r, SysCall.close fd])
    else
      (0, trace)
  | (pathname, flags) :: rest, fd, trace =>
    let trace1 := if fd ≠ -1 then trace ++ [SysCall.close fd] else trace
    let d := os.open_result trace1 pathname flags
    if d = -1 then (-1, trace1 ++ [SysCall.open_call pathname flags d])
    else redirect_script os std_fd rest d (trace1 ++ [SysCall.open_call pathname flags d])

/-- The calls of a run in which targets `t1 … tk` were opened with
descriptors `d1 … dk`: `open t1`, `close d1`, `open t2`, …, `close d(k-1)`,
`open tk`. -/
def open_chain : List ((List Char × OpenFlags) × Int) → List SysCall
  | [] => []
  | [(t, d)] => [SysCall.open_call t.1 t.2 d]
  | (t, d) :: rest => SysCall.open_call t.1 t.2 d :: SysCall.close d :: open_chain rest

/-- The path names of the `open` calls of a trace, in order. -/
def opened_paths (trace : List SysCall) : List (List Char) :=
  trace.filterMap (fun c =>
    match c with
    | SysCall.open_call pathname _ _ => some pathname
    | _ => none)

/-- The end of `setup_input_redirection` and `setup_output_redirection`
after the loop: pass an early `return` on, else install the surviving
descriptor on `std_fd`. -/
def redirection_finish (os : OS) (std_fd : Int) :
    Option (Option Int × Int × List SysCall) → Option (Int × List SysCall)
  | none => none
  | some (some r, _, trace1) => some (r, trace1)
  | some (none, fd, trace1) =>
    if fd ≠ -1 then
      let r := os.dup2_result trace1 fd std_fd
      some (if r = -1 then -1 else 0, trace1 ++ [SysCall.dup2 fd std_fd r, SysCall.close fd])
    else
      some (0, trace1)

/-- The kinds of `tokens[start_index .. end_index)`. -/
def segment_kinds (tokens : List Token) (start_index end_index : Nat) : List TokenType :=
  ((kinds tokens).drop start_index).take (end_index - start_index)

/-! ## The forked children (`src/cat.c`, `src/pipe.c`, `src/bg.c`) -/

/-- How the code of a forked child ends: `exit(status)`, a built-in run in
the child followed by `exit(0)`, or `execvp(args[0], args)` (which replaces
the process, or fails and is followed by `exit`). -/
inductive ChildStep where
  | exits (status : Int)
  | builtin (name : List Char)
  | execvp (args : List (List Char))
  deriving DecidableEq, Repr

/-- The path `/dev/null`. -/
def dev_null : List Char := "/dev/null".toList

/-- The steps `fd = open("/dev/null", O_RDONLY); if (fd != -1) { dup2(fd,
STDIN_FILENO); close(fd); }` that `execute_command_in_pipeline` and
`execute_background_command` both contain. -/
def stdin_from_dev_null (os : OS) (trace : List SysCall) : List SysCall :=
  let null_fd := os.open_result trace dev_null OpenFlags.O_RDONLY
  let opened := trace ++ [SysCall.open_call dev_null OpenFlags.O_RDONLY null_fd]
  if null_fd ≠ -1 then
    opened ++ [SysCall.dup2 null_fd STDIN_FILENO (os.dup2_result opened null_fd STDIN_FILENO),
      SysCall.close null_fd]
  else opened

/-- The child branch of `execute_command` (`pid == 0`): `setpgid(0, 0)`, the
input redirections of `tokens[0 .. cmd_end)`, then its output redirections,
then `execvp`; a redirection that returns -1 ends the child with
`exit(1)`. -/
def execute_command_child (os : OS) (tokens : List Token) (trace : List SysCall) :
    Option (ChildStep × List SysCall) :=
  let cmd_end := command_end tokens
  let args := execute_command_args tokens
  let trace0 := trace ++ [SysCall.setpgid 0 0]
  match setup_input_redirection os tokens 0 cmd_end trace0 with
  | none => none
  | some (r1, trace1) =>
    if r1 = -1 then some (ChildStep.exits 1, trace1)
    else
      match setup_output_redirection os tokens 0 cmd_end trace1 with
      | none => none
      | some (r2, trace2) =>
        if r2 = -1 then some (ChildStep.exits 1, trace2)
        else some (ChildStep.execvp args, trace2)

/-- The test of `execute_command_in_pipeline` for a command that reads
standard input: `wc`, `grep`, or `cat` with no argument. -/
def expects_input (args : List (List Char)) : Bool :=
  args.head? == some "wc".toList || args.head? == some "grep".toList ||
    (args.head? == some "cat".toList && args.length == 1)

/-- The end of `execute_command_in_pipeline` after the redirections:
`exit(0)` for `exit`; `pwd`, `reveal` and `activities` run in the child;
anything else goes to `execvp`. -/
def pipeline_final (args : List (List Char)) : ChildStep :=
  if args.head? = some "exit".toList then ChildStep.exits 0
  else if args.head? = some "pwd".toList ∨ args.head? = some "reveal".toList ∨
      args.head? = some "activities".toList then
    ChildStep.builtin (args.headD [])
  else ChildStep.execvp args

/-- Function `execute_command_in_pipeline`, run in the child of a pipeline stage:
the argument vector, the pipe ends (or `/dev/null` for a first stage that
reads standard input), the input redirections, the output redirections, and
then a built-in or `execvp`. -/
def execute_command_in_pipeline (os : OS) (tokens : List Token) (cmd_start cmd_end : Nat)
    (pipe_in pipe_out : Int) (trace : List SysCall) : Option (ChildStep × List SysCall) :=
  let args := execute_command_in_pipeline_args tokens cmd_start cmd_end
  if args.length = 0 then some (ChildStep.exits 1, trace)
  else
    let rin := os.dup2_result trace pipe_in STDIN_FILENO
    if pipe_in ≠ -1 ∧ rin = -1 then
      some (ChildStep.exits 1, trace ++ [SysCall.dup2 pipe_in STDIN_FILENO rin])
    else
      let trace1 :=
        if pipe_in ≠ -1 then
          trace ++ [SysCall.dup2 pipe_in STDIN_FILENO rin, SysCall.close pipe_in]
        else if expects_input args then stdin_from_dev_null os trace
        else trace
      let rout := os.dup2_result trace1 pipe_out STDOUT_FILENO
      if pipe_out ≠ -1 ∧ rout = -1 then
        some (ChildStep.exits 1, trace1 ++ [SysCall.dup2 pipe_out STDOUT_FILENO rout])
      else
        let trace2 :=
          if pipe_out ≠ -1 then
            trace1 ++ [SysCall.dup2 pipe_out STDOUT_FILENO rout, SysCall.close pipe_out]
          else trace1
        match setup_input_redirection os tokens cmd_start cmd_end trace2 with
        | none => none
        | some (r1, trace3) =>
          if r1 = -1 then some (ChildStep.exits 1, trace3)
          else
            match setup_output_redirection os tokens cmd_start cmd_end trace3 with
            | none => none
            | some (r2, trace4) =>
              if r2 = -1 then some (ChildStep.exits 1, trace4)
              else some (pipeline_final args, trace4)

/-- The argument vector of `execute_background_command`: the same loop body
as in `execute_command`, over `start_index ≤ i < end_index`. -/
def execute_background_command_args (tokens : List Token) (start_index end_index : Nat) :
    List (List Char) :=
  execute_command_args_loop tokens (end_index - start_index) start_index []

/-- The child branch of `execute_background_command` (`pid == 0`): standard
input from `/dev/null`, the output redirections of the segment, then its
input redirections, then `execvp`. -/
def execute_background_command_child (os : OS) (tokens : List Token)
    (start_index end_index : Nat) (trace : List SysCall) :
    Option (ChildStep × List SysCall) :=
  let args := execute_background_command_args tokens start_index end_index
  let trace0 := stdin_from_dev_null os trace
  match setup_output_redirection os tokens start_index end_index trace0 with
  | none => none
  | some (r1, trace1) =>
    if r1 = -1 then some (ChildStep.exits 1, trace1)
    else
      match setup_input_redirection os tokens start_index end_index trace1 with
      | none => none
      | some (r2, trace2) =>
        if r2 = -1 then some (ChildStep.exits 1, trace2)
        else some (ChildStep.execvp args, trace2)

/-- The path names of a list of targets. -/
def target_paths (targets : List (List Char × OpenFlags)) : List (List Char) :=
  targets.map Prod.fst

/-- All redirection targets of `tokens[start_index .. end_index)` in the
left-to-right order of their operators. -/
def redirection_paths (tokens : List Token) (start_index end_index : Nat) :
    List (List Char) :=
  ((List.range' start_index (end_index - start_index)).filter
      (fun i => is_redirection (token_at tokens i).type)).map
    (fun i => (token_at tokens (i + 1)).value)

/-- The `/dev/null` that a first pipeline stage opens before its
redirections when it reads standard input. -/
def pipeline_dev_null (tokens : List Token) (cmd_start cmd_end : Nat) (pipe_in : Int) :
    List (List Char) :=
  if pipe_in = -1 ∧
      expects_input (execute_command_in_pipeline_args tokens cmd_start cmd_end) = true then
    [dev_null]
  else []

/-- An operating system in which every `open` returns descriptor 3 and every
`dup2` succeeds. -/
def os_all_succeed : OS := ⟨fun _ _ _ => 3, fun _ _ newfd => newfd⟩

/-- The tokens of the line `cmd > out < in`. -/
def line_out_then_in : List Token :=
  [⟨TOKEN_NAME, ['c', 'm', 'd']⟩, ⟨TOKEN_OUTPUT, ['>']⟩, ⟨TOKEN_NAME, ['o', 'u', 't']⟩,
    ⟨TOKEN_INPUT, ['<']⟩, ⟨TOKEN_NAME, ['i', 'n']⟩]

/-- The tokens of the line `cat < a < b > c >> d`. -/
def line_two_each : List Token :=
  [⟨TOKEN_NAME, ['c', 'a', 't']⟩, ⟨TOKEN_INPUT, ['<']⟩, ⟨TOKEN_NAME, ['a']⟩,
    ⟨TOKEN_INPUT, ['<']⟩, ⟨TOKEN_NAME, ['b']⟩, ⟨TOKEN_OUTPUT, ['>']⟩, ⟨TOKEN_NAME, ['c']⟩,
    ⟨TOKEN_DOUBLE_OUTPUT, ['>', '>']⟩, ⟨TOKEN_NAME, ['d']⟩]

/-- Two redirection scripts run one after the other, as every child does:
the second runs only if the first did not return -1, and the child goes on
to `final` only if neither did; otherwise it ends with `exit(1)`. -/
def run_two_scripts (os : OS) (std_a : Int) (targets_a : List (List Char × OpenFlags))
    (std_b : Int) (targets_b : List (List Char × OpenFlags)) (trace : List SysCall)
    (final : ChildStep) : ChildStep × List SysCall :=
  let ra := redirect_script os std_a targets_a (-1) trace
  if ra.1 = -1 then (ChildStep.exits 1, ra.2)
  else
    let rb := redirect_script os std_b targets_b (-1) ra.2
    if rb.1 = -1 then (ChildStep.exits 1, rb.2)
    else (final, rb.2)

/-! ## Job table (`src/bg.c`, `src/fg.c`, `src/ctrl.c`) -/

/-- The constant `MAX_BACKGROUND_JOBS`. -/
def MAX_BACKGROUND_JOBS : Nat := 100

/-- The constant `MAX_PATH_LEN`. -/
def MAX_PATH_LEN : Nat := 1024

/-- The `ProcessState` enum. -/
inductive ProcessState where
  | PROCESS_RUNNING
  | PROCESS_STOPPED
  deriving DecidableEq, Repr

/-- The `BackgroundJob` struct. -/
structure BackgroundJob where
  pid : Int
  job_number : Int
  command : List Char
  command_name : List Char
  is_active : Int
  state : ProcessState
  deriving DecidableEq, Repr

/-- The globals `background_jobs` (indexed by slot; only slots below
`MAX_BACKGROUND_JOBS` are ever touched) and `next_job_number`. -/
structure JobTable where
  background_jobs : Nat → BackgroundJob
  next_job_number : Int

/-- An `int` after an arithmetic step: the value as a 32-bit two's
complement number.  (Overflow of an `int` is undefined in C; the properties
below are stated for runs that stay inside the range.) -/
def int32 (x : Int) : Int := (x + 2147483648) % 4294967296 - 2147483648

/-- The slot contents written by `init_background_jobs` and by
`cleanup_background_job`. -/
def empty_job : BackgroundJob :=
  ⟨0, 0, [], [], 0, ProcessState.PROCESS_RUNNING⟩

/-- Function `init_background_jobs`: every slot empty, the counter at 1. -/
def init_background_jobs : JobTable := ⟨fun _ => empty_job, 1⟩

/-- The slot written by `add_background_job` and `add_stopped_job`: the
command is copied with `strncpy` (at most `MAX_PATH_LEN - 1` characters) and
`command_name` is the copy cut at its first space. -/
def new_job (pid : Int) (job_number : Int) (command : List Char) (state : ProcessState) :
    BackgroundJob :=
  ⟨pid, job_number, command.take (MAX_PATH_LEN - 1),
    (command.take (MAX_PATH_LEN - 1)).takeWhile (fun c => c != ' '), 1, state⟩

/-- The slot search shared by `add_background_job` and `add_stopped_job`:
the first inactive slot at or after `i` takes the job, its number is
`next_job_number`, and the counter is incremented; -1 when the `turns` slots
left are all active. -/
def add_job_loop (pid : Int) (command : List Char) (state : ProcessState) (t : JobTable) :
    Nat → Nat → Int × JobTable
  | 0, _ => (-1, t)
  | turns + 1, i =>
    if (t.background_jobs i).is_active = 0 then
      (t.next_job_number,
        ⟨Function.update t.background_jobs i (new_job pid t.next_job_number command state),
          int32 (t.next_job_number + 1)⟩)
    else
      add_job_loop pid command state t turns (i + 1)

/-- Function `add_background_job`: the new job is `PROCESS_RUNNING`. -/
def add_background_job (pid : Int) (command : List Char) (t : JobTable) : Int × JobTable :=
  add_job_loop pid command ProcessState.PROCESS_RUNNING t MAX_BACKGROUND_JOBS 0

/-- Function `add_stopped_job`: the new job is `PROCESS_STOPPED`. -/
def add_stopped_job (pid : Int) (command : List Char) (t : JobTable) : Int × JobTable :=
  add_job_loop pid command ProcessState.PROCESS_STOPPED t MAX_BACKGROUND_JOBS 0

/-- Function `cleanup_background_job`: reset the slot when the index is in range. -/
def cleanup_background_job (job_index : Int) (t : JobTable) : JobTable :=
  if job_index ≥ 0 ∧ job_index < MAX_BACKGROUND_JOBS then
    ⟨Function.update t.background_jobs job_index.toNat empty_job, t.next_job_number⟩
  else t

/-- What `waitpid` reports for a job: an error (-1), no change (0, only with
`WNOHANG`), or the child's pid with a status that says exited, killed by a
signal, or stopped. -/
inductive WaitStatus where
  | error
  | no_change
  | exited (status : Int)
  | signaled (signal : Int)
  | stopped
  deriving DecidableEq, Repr

/-- The loop of `check_background_jobs` over the slots `i, i+1, …`: an
active slot whose wait reports a stop becomes `PROCESS_STOPPED`, one whose
wait reports termination or an error is cleaned up.  `wait i` is what
`waitpid` answers for slot `i`.  (The lines printed are in
`check_background_jobs_report_loop`.) -/
def check_background_jobs_loop (wait : Nat → WaitStatus) : Nat → Nat → JobTable → JobTable
  | 0, _, t => t
  | turns + 1, i, t =>
    let t1 :=
      if (t.background_jobs i).is_active ≠ 0 then
        match wait i with
        | WaitStatus.stopped =>
          ⟨Function.update t.background_jobs i
            { t.background_jobs i with state := ProcessState.PROCESS_STOPPED },
            t.next_job_number⟩
        | WaitStatus.exited _ => cleanup_background_job i t
        | WaitStatus.signaled _ => cleanup_background_job i t
        | WaitStatus.error => cleanup_background_job i t
        | WaitStatus.no_change => t
      else t
    check_background_jobs_loop wait turns (i + 1) t1

/-- Function `check_background_jobs`: one pass over all slots. -/
def check_background_jobs (wait : Nat → WaitStatus) (t : JobTable) : JobTable :=
  check_background_jobs_loop wait MAX_BACKGROUND_JOBS 0 t

/-- Function `is_valid_job_number`: non-empty and all digits. -/
def is_valid_job_number (str : List Char) : Bool :=
  !str.isEmpty && str.all Char.isDigit

/-- The digits read by `strtol` in base 10: the value of the leading decimal
digits of the string; the first character that is not a digit ends the
number. -/
def strtol_digits : List Char → Nat → Nat
  | [], acc => acc
  | c :: rest, acc =>
    if c.isDigit then strtol_digits rest (acc * 10 + (c.toNat - 48)) else acc

/-- The constant `LONG_MAX` of a 64-bit `long`. -/
def LONG_MAX : Int := 9223372036854775807

/-- The constant `LONG_MIN` of a 64-bit `long`. -/
def LONG_MIN : Int := -9223372036854775808

/-- The value of `strtol(str, NULL, 10)`: leading white space is skipped,
one sign is read, then the leading decimal digits; a value outside the
range of `long` is replaced by `LONG_MAX` or `LONG_MIN`. -/
def strtol (str : List Char) : Int :=
  let s := str.dropWhile isspace
  if s.head? = some '-' then max (-(strtol_digits s.tail 0 : Int)) LONG_MIN
  else if s.head? = some '+' then min (strtol_digits s.tail 0 : Int) LONG_MAX
  else min (strtol_digits s 0 : Int) LONG_MAX

/-- The value of `atoi` as the C library in use computes it,
`(int) strtol(str, NULL, 10)`: the `long` is converted to `int` by reduction
modulo 2^32. (The C standard leaves the value of `atoi` undefined for a
numeral outside the range of `int`.) -/
def atoi (str : List Char) : Int := int32 (strtol str)

/-- The loop of `find_most_recent_job`: the active slot with the greatest
job number above `highest_job_number`, or the `most_recent` found so far. -/
def find_most_recent_job_loop (t : JobTable) : Nat → Nat → Int → Int → Int
  | 0, _, most_recent, _ => most_recent
  | turns + 1, i, most_recent, highest_job_number =>
    if (t.background_jobs i).is_active ≠ 0 ∧
        (t.background_jobs i).job_number > highest_job_number then
      find_most_recent_job_loop t turns (i + 1) i (t.background_jobs i).job_number
    else
      find_most_recent_job_loop t turns (i + 1) most_recent highest_job_number

/-- Function `find_most_recent_job`: slot index or -1. -/
def find_most_recent_job (t : JobTable) : Int :=
  find_most_recent_job_loop t MAX_BACKGROUND_JOBS 0 (-1) 0

/-- The loop of `find_job_by_number`. -/
def find_job_by_number_loop (t : JobTable) (job_number : Int) : Nat → Nat → Int
  | 0, _ => -1
  | turns + 1, i =>
    if (t.background_jobs i).is_active ≠ 0 ∧ (t.background_jobs i).job_number = job_number then
      i
    else
      find_job_by_number_loop t job_number turns (i + 1)

/-- Function `find_job_by_number`: slot index or -1. -/
def find_job_by_number (t : JobTable) (job_number : Int) : Int :=
  find_job_by_number_loop t job_number MAX_BACKGROUND_JOBS 0

/-- The job selection at the start of `execute_fg` and `execute_bg`: the
most recent job for a bare command, the job with the given number for one
argument that is a string of digits, and -1 (`No such job`) otherwise. -/
def select_job (tokens : List Token) (t : JobTable) : Int :=
  if tokens.length = 1 then find_most_recent_job t
  else if tokens.length = 2 then
    if (token_at tokens 1).type ≠ TOKEN_NAME ∨
        is_valid_job_number (token_at tokens 1).value = false then -1
    else find_job_by_number t (atoi (token_at tokens 1).value)
  else -1

/-- The table part of `sigtstp_handler` when the foreground marker holds
`(pgid, command)`: with a positive `pgid` the process is entered with
`add_stopped_job`.  Returns the job number given, if any. -/
def sigtstp_handler (pgid : Int) (command : List Char) (t : JobTable) :
    Option Int × JobTable :=
  if pgid > 0 then
    let r := add_stopped_job pgid command t
    (some r.1, r.2)
  else (none, t)

/-- Function `execute_fg`, as far as the job table goes.  `kill_result` is what
`kill(-pid, SIGCONT)` returns, `sigtstp` says whether the stop handler runs
while `waitpid` blocks (the marker then holds the job's pid and command),
and `wait` is what `waitpid` reports.  Returns the job number allocated by
the handler, if any. -/
def execute_fg (tokens : List Token) (kill_result : Int) (sigtstp : Bool) (wait : WaitStatus)
    (t : JobTable) : Option Int × JobTable :=
  let job_index := select_job tokens t
  if job_index = -1 then (none, t)
  else
    let job := t.background_jobs job_index.toNat
    if job.state = ProcessState.PROCESS_STOPPED ∧ kill_result = -1 then (none, t)
    else
      let h :=
        if sigtstp then sigtstp_handler job.pid (job.command.take (MAX_PATH_LEN - 1)) t
        else (none, t)
      match wait with
      | WaitStatus.error => h
      | WaitStatus.no_change => h
      | WaitStatus.exited _ => (h.1, cleanup_background_job job_index h.2)
      | WaitStatus.signaled _ => (h.1, cleanup_background_job job_index h.2)
      | WaitStatus.stopped =>
        (h.1, ⟨Function.update h.2.background_jobs job_index.toNat
          { h.2.background_jobs job_index.toNat with state := ProcessState.PROCESS_STOPPED },
          h.2.next_job_number⟩)

/-- Function `execute_bg`, as far as the job table goes: a stopped job whose
`SIGCONT` is delivered becomes `PROCESS_RUNNING`. -/
def execute_bg (tokens : List Token) (kill_result : Int) (t : JobTable) : JobTable :=
  let job_index := select_job tokens t
  if job_index = -1 then t
  else
    let job := t.background_jobs job_index.toNat
    if job.state = ProcessState.PROCESS_RUNNING then t
    else if kill_result = -1 then t
    else
      ⟨Function.update t.background_jobs job_index.toNat
        { job with state := ProcessState.PROCESS_RUNNING }, t.next_job_number⟩

/-- One job-table operation of the shell. -/
inductive JobOp where
  | add_background (pid : Int) (command : List Char)
  | add_stopped (pid : Int) (command : List Char)
  | cleanup (job_index : Int)
  | reap (wait : Nat → WaitStatus)
  | fg (tokens : List Token) (kill_result : Int) (sigtstp : Bool) (wait : WaitStatus)
  | bg (tokens : List Token) (kill_result : Int)

/-- Run one operation: the value returned by the slot allocation it makes,
if it makes one, and the new table. -/
def JobOp.apply (t : JobTable) : JobOp → Option Int × JobTable
  | JobOp.add_background pid command =>
    let r := add_background_job pid command t
    (some r.1, r.2)
  | JobOp.add_stopped pid command =>
    let r := add_stopped_job pid command t
    (some r.1, r.2)
  | JobOp.cleanup job_index => (none, cleanup_background_job job_index t)
  | JobOp.reap wait => (none, check_background_jobs wait t)
  | JobOp.fg tokens kill_result sigtstp wait => execute_fg tokens kill_result sigtstp wait t
  | JobOp.bg tokens kill_result => (none, execute_bg tokens kill_result t)

/-- Run a sequence of operations from table `t`: the job numbers returned by
the successful allocations, in order, and the final table. -/
def run_job_ops : List JobOp → JobTable → List Int × JobTable
  | [], t => ([], t)
  | op :: ops, t =>
    let r := op.apply t
    let rest := run_job_ops ops r.2
    (match r.1 with
      | some n => if n = -1 then rest.1 else n :: rest.1
      | none => rest.1,
     rest.2)

/-- The invariant of the job table after `n` operations: the counter is
between 1 and `n + 1`, every active slot holds a job number between 1 and
the counter (exclusive), and no two active slots hold the same number. -/
def job_table_inv (t : JobTable) (n : Int) : Prop :=
  1 ≤ t.next_job_number ∧ t.next_job_number ≤ n + 1 ∧
  (∀ i, (t.background_jobs i).is_active ≠ 0 →
    1 ≤ (t.background_jobs i).job_number ∧
      (t.background_jobs i).job_number < t.next_job_number) ∧
  (∀ i j, i ≠ j → (t.background_jobs i).is_active ≠ 0 → (t.background_jobs j).is_active ≠ 0 →
    (t.background_jobs i).job_number ≠ (t.background_jobs j).job_number)

/-- A session: three jobs are started, the first two are cleaned up, a job
is stopped from the foreground, a reap pass finds the third one gone, and
two more jobs are started. -/
def sample_job_ops : List JobOp :=
  [JobOp.add_background 100 "sleep 5".toList, JobOp.add_background 101 "sleep 6".toList,
    JobOp.add_background 102 "sleep 7".toList, JobOp.cleanup 0, JobOp.cleanup 1,
    JobOp.add_stopped 103 "vim".toList,
    JobOp.reap (fun i => if i = 2 then WaitStatus.exited 0 else WaitStatus.no_change),
    JobOp.add_background 104 "make".toList, JobOp.add_background 105 "ls".toList]

/-- What every operation guarantees when run on a table `t` that satisfies
the invariant after `n` operations: the invariant after `n + 1`, a counter
that did not go down, and a returned job number (if any) that lies between
the old and the new counter. -/
def op_result_ok (t : JobTable) (n : Int) (r : Option Int × JobTable) : Prop :=
  job_table_inv r.2 (n + 1) ∧ t.next_job_number ≤ r.2.next_job_number ∧
  (∀ v, r.1 = some v → v ≠ -1 → t.next_job_number ≤ v ∧ v < r.2.next_job_number)


/-! ## History store -/

/-- The constant `MAX_LOG_ENTRIES`. -/
def MAX_LOG_ENTRIES : Nat := 15

/-- The constant `MAX_COMMAND_LEN`. -/
def MAX_COMMAND_LEN : Nat := 1024

/-- The history ring: `command_log` holds the text of each slot (a C string,
without its NUL), `log_count` the number of stored entries and `log_start`
the slot of the oldest one. Both counters are `int`s that only take values
from 0 to 15. -/
structure LogState where
  command_log : Nat → List Char
  log_count : Nat
  log_start : Nat

/-- The ring as `init_log` leaves it before it reads the file: every slot
empty, no entry. -/
def empty_log : LogState :=
  { command_log := fun _ => [], log_count := 0, log_start := 0 }

/-- The stored entries from the oldest to the newest, read the way
`save_log_to_file` and `log` walk the ring: entry `i` is in slot
`(log_start + i) % MAX_LOG_ENTRIES`. -/
def history (st : LogState) : List (List Char) :=
  (List.range st.log_count).map
    (fun i => st.command_log ((st.log_start + i) % MAX_LOG_ENTRIES))

/-- Function `should_log_command`: the command is not empty, is not the verb
`log` (alone or followed by a space), and differs from the most recent
entry. -/
def should_log_command (st : LogState) (command : List Char) : Bool :=
  if command.length = 0 then false
  else if command.take 3 = "log".toList ∧ (deref (command.drop 3) = NUL ∨ deref (command.drop 3) = ' ')
  then false
  else if st.log_count > 0 ∧
      command = st.command_log ((st.log_start + st.log_count - 1) % MAX_LOG_ENTRIES) then false
  else true

/-- The loop of `save_log_to_file`: one line per entry, oldest first. -/
def save_log_loop (st : LogState) : Nat → Nat → List Char → List Char
  | 0, _, file => file
  | turns + 1, i, file =>
    save_log_loop st turns (i + 1)
      (file ++ st.command_log ((st.log_start + i) % MAX_LOG_ENTRIES) ++ ['\n'])

/-- Function `save_log_to_file`: the content written to the history file. -/
def save_log_to_file (st : LogState) : List Char :=
  save_log_loop st st.log_count 0 []

/-- Function `add_command_to_log`: a command that `should_log_command`
accepts is stored, cut to `MAX_COMMAND_LEN - 1` characters, in the next
free slot or over the oldest entry, and the file is rewritten. The result is
the new ring and the content written to the file, if any. -/
def add_command_to_log (st : LogState) (command : List Char) :
    LogState × Option (List Char) :=
  if !should_log_command st command then (st, none)
  else
    let insert_index := if st.log_count < MAX_LOG_ENTRIES then st.log_count else st.log_start
    let st1 : LogState :=
      if st.log_count < MAX_LOG_ENTRIES then { st with log_count := st.log_count + 1 }
      else { st with log_start := (st.log_start + 1) % MAX_LOG_ENTRIES }
    let st2 : LogState :=
      { st1 with command_log :=
          Function.update st1.command_log insert_index (command.take (MAX_COMMAND_LEN - 1)) }
    (st2, some (save_log_to_file st2))

/-- The ring after a sequence of `add_command_to_log` calls. -/
def add_commands (st : LogState) (commands : List (List Char)) : LogState :=
  commands.foldl (fun s c => (add_command_to_log s c).1) st

/-- The read `fgets(line, size, file)` with `n = size - 1`: at most `n`
characters, up to and including the first newline; the result is the line
and the rest of the stream. -/
def fgets_loop : Nat → List Char → List Char × List Char
  | 0, stream => ([], stream)
  | _ + 1, [] => ([], [])
  | n + 1, c :: rest =>
    if c = '\n' then ([c], rest)
    else ((c :: (fgets_loop n rest).1), (fgets_loop n rest).2)

/-- Function `fgets`: nothing at the end of the stream. -/
def fgets (size : Nat) (stream : List Char) : Option (List Char × List Char) :=
  if stream.isEmpty then none else some (fgets_loop (size - 1) stream)

/-- The value of `strcspn(line, "\n")` used as a cut: the line up to its
first newline. -/
def strip_newline (line : List Char) : List Char :=
  line.takeWhile (fun c => c != '\n')

/-- The loop of `load_log_from_file`: lines are read while `fgets` returns
one and fewer than `MAX_LOG_ENTRIES` entries are stored; a line that is not
empty once its newline is cut is stored in slot `log_count`. Every turn
reads at least one character, so `fuel` above the length of the stream is
enough. -/
def load_log_loop : Nat → List Char → LogState → Option LogState
  | 0, _, _ => none
  | fuel + 1, stream, st =>
    match fgets MAX_COMMAND_LEN stream with
    | none => some st
    | some (line, rest) =>
      if st.log_count < MAX_LOG_ENTRIES then
        if (strip_newline line).length > 0 then
          load_log_loop fuel rest
            { st with
              command_log := Function.update st.command_log st.log_count (strip_newline line)
              log_count := st.log_count + 1 }
        else load_log_loop fuel rest st
      else some st

/-- Function `load_log_from_file`: `file` is the content of the history
file, or nothing when it cannot be opened (the ring is then left as it
is). -/
def load_log_from_file (st : LogState) (file : Option (List Char)) : Option LogState :=
  match file with
  | none => some st
  | some content =>
    load_log_loop (content.length + 1) content { st with log_count := 0, log_start := 0 }

/-- What `log` does with its arguments. -/
inductive LogAction where
  | print (lines : List (List Char))
  | purge
  | invalid_index (index : Int)
  | execute (command : List Char)
  | usage
  deriving DecidableEq, Repr

/-- Function `execute_log` up to the choice of the command to run: without
argument the entries are printed oldest first, `purge` empties the ring,
and `execute <index>` takes the entry in slot
`(log_start + log_count - index) % MAX_LOG_ENTRIES` when
`1 ≤ index ≤ log_count`. -/
def execute_log (tokens : List Token) (st : LogState) : LogAction × LogState :=
  if tokens.length = 1 then (LogAction.print (history st), st)
  else if tokens.length = 2 ∧ (token_at tokens 1).value = "purge".toList then
    (LogAction.purge, { st with log_count := 0, log_start := 0 })
  else if tokens.length = 3 ∧ (token_at tokens 1).value = "execute".toList then
    let index := atoi (token_at tokens 2).value
    if index < 1 ∨ index > (st.log_count : Int) then (LogAction.invalid_index index, st)
    else
      let array_index :=
        (((st.log_start : Int) + (st.log_count : Int) - index) % (MAX_LOG_ENTRIES : Int)).toNat
      (LogAction.execute (st.command_log array_index), st)
  else (LogAction.usage, st)

/-- The rings the shell can hold: the empty ring of `init_log`, and what
reading a file, offering a command and `log purge` make of a ring it can
hold. -/
inductive LogReachable : LogState → Prop where
  | init : LogReachable empty_log
  | load (st st1 : LogState) (file : Option (List Char)) :
      LogReachable st → load_log_from_file st file = some st1 → LogReachable st1
  | add (st : LogState) (command : List Char) :
      LogReachable st → LogReachable (add_command_to_log st command).1
  | purge (st : LogState) :
      LogReachable st → LogReachable { st with log_count := 0, log_start := 0 }

/-- The invariant of the ring: at most `MAX_LOG_ENTRIES` entries, the start
inside the ring and at slot 0 until the ring is full, and every slot within
its buffer of `MAX_COMMAND_LEN` bytes. -/
def log_inv (st : LogState) : Prop :=
  st.log_count ≤ MAX_LOG_ENTRIES ∧ st.log_start < MAX_LOG_ENTRIES ∧
  (st.log_count < MAX_LOG_ENTRIES → st.log_start = 0) ∧
  ∀ i, (st.command_log i).length ≤ MAX_COMMAND_LEN - 1

/-- The text rebuilt from the tokens of the command line
`echo>f>f>...>f>` followed by `last` (256 times `>f`, 518 characters in
all): the tokens are joined by single spaces, which makes 1032 characters. -/
def many_outputs_text (last : Char) : List Char :=
  "echo".toList ++ (List.replicate 256 " > f".toList).flatten ++ [' ', '>', ' ', last]

/-- A file of three lines. -/
def sample_log_file : List Char := "ls\ncat a.txt\necho hi\n".toList

/-- A ring that has wrapped: sixteen commands were offered to the empty ring. -/
def wrapped_log : LogState :=
  add_commands empty_log
    ((List.range 16).map (fun i => 'c' :: Nat.toDigits 10 i))

/-- A file with one entry per line: every entry followed by a newline. -/
def file_lines (entries : List (List Char)) : List Char :=
  (entries.map (fun e => e ++ ['\n'])).flatten

/-- One turn of the loop of `load_log_from_file` that stores a line: the
line goes to slot `log_count`, which moves on by one. -/
def store_entry (st : LogState) (entry : List Char) : LogState :=
  { st with
    command_log := Function.update st.command_log st.log_count entry
    log_count := st.log_count + 1 }

/-- The ring after the entries were stored one after the other. -/
def store_entries (st : LogState) (entries : List (List Char)) : LogState :=
  entries.foldl store_entry st

/-- The tokens of `log execute` followed by `index`. -/
def log_execute_tokens (index : List Char) : List Token :=
  [⟨TokenType.TOKEN_NAME, "log".toList⟩, ⟨TokenType.TOKEN_NAME, "execute".toList⟩,
    ⟨TokenType.TOKEN_NAME, index⟩]

/-- A full ring that has not wrapped yet: fifteen commands were offered to
the empty ring. -/
def full_log : LogState :=
  add_commands empty_log
    ((List.range 15).map (fun i => 'c' :: Nat.toDigits 10 i))

/-! ## Built-ins: hop -/

/-- The conversion `%d` of `printf`. -/
def format_int (n : Int) : List Char :=
  if n < 0 then '-' :: Nat.toDigits 10 n.natAbs else Nat.toDigits 10 n.toNat

/-- The file system as `hop` sees it: `chdir cwd path` is the working
directory after `chdir(path)` succeeds in the working directory `cwd`, and
nothing when the call fails. -/
structure FileSystem where
  chdir : List Char → List Char → Option (List Char)

/-- The state `hop` works on: the working directory of the process, the
global `previous_cwd` (empty at start) and the text printed so far. -/
structure HopState where
  cwd : List Char
  previous_cwd : List Char
  output : List Char
  deriving DecidableEq, Repr

/-- Function `getcwd(buf, size)`: the working directory when it fits the
buffer with its NUL, else `NULL`. -/
def getcwd (cwd : List Char) (size : Nat) : Option (List Char) :=
  if cwd.length < size then some cwd else none

/-- The message of `hop` when `chdir` fails. -/
def no_such_directory : List Char := "No such directory!\n".toList

/-- One turn of the loop of `execute_hop` for the argument `arg`. -/
def execute_hop_arg (fs : FileSystem) (home arg : List Char) (st : HopState) : HopState :=
  match getcwd st.cwd MAX_PATH_LEN with
  | none => st
  | some current_cwd_buffer =>
    if arg = "~".toList then
      match fs.chdir st.cwd home with
      | none =>
        { st with previous_cwd := current_cwd_buffer, output := st.output ++ no_such_directory }
      | some dir => { st with previous_cwd := current_cwd_buffer, cwd := dir }
    else if arg = ".".toList then st
    else if arg = "..".toList then
      match fs.chdir st.cwd "..".toList with
      | none =>
        { st with previous_cwd := current_cwd_buffer, output := st.output ++ no_such_directory }
      | some dir => { st with previous_cwd := current_cwd_buffer, cwd := dir }
    else if arg = "-".toList then
      if st.previous_cwd.length = 0 then st
      else
        match fs.chdir st.cwd st.previous_cwd with
        | none => { st with output := st.output ++ no_such_directory }
        | some dir => { st with previous_cwd := current_cwd_buffer, cwd := dir }
    else
      match fs.chdir st.cwd arg with
      | none => { st with output := st.output ++ no_such_directory }
      | some dir => { st with previous_cwd := current_cwd_buffer, cwd := dir }

/-- The loop of `execute_hop` over the arguments `tokens[i]`, `tokens[i+1]`, …. -/
def execute_hop_loop (fs : FileSystem) (home : List Char) (tokens : List Token) :
    Nat → Nat → HopState → HopState
  | 0, _, st => st
  | turns + 1, i, st =>
    execute_hop_loop fs home tokens turns (i + 1)
      (execute_hop_arg fs home (token_at tokens i).value st)

/-- Function `execute_hop`: a bare `hop` records the working directory and
goes to the home directory; otherwise every argument is handled in turn. -/
def execute_hop (fs : FileSystem) (home : List Char) (tokens : List Token) (st : HopState) :
    HopState :=
  if tokens.length ≤ 1 then
    let st1 :=
      match getcwd st.cwd MAX_PATH_LEN with
      | none => st
      | some dir => { st with previous_cwd := dir }
    match fs.chdir st1.cwd home with
    | none => st1
    | some dir => { st1 with cwd := dir }
  else execute_hop_loop fs home tokens (tokens.length - 1) 1 st

/-- The tokens of `hop` followed by one argument. -/
def hop_tokens (arg : List Char) : List Token :=
  [⟨TokenType.TOKEN_NAME, "hop".toList⟩, ⟨TokenType.TOKEN_NAME, arg⟩]

/-- The three commands `hop X`, `hop -`, `hop -` run one after the other. -/
def hop_there_back_back (fs : FileSystem) (home X : List Char) (st : HopState) : HopState :=
  execute_hop fs home (hop_tokens "-".toList)
    (execute_hop fs home (hop_tokens "-".toList) (execute_hop fs home (hop_tokens X) st))

/-- A file system in which every path is absolute and names a directory. -/
def absolute_fs : FileSystem := { chdir := fun _ path => some path }

/-! ## Built-ins: ping -/

/-- Function `is_valid_number`: an optional minus sign followed by at least
one character, all of them digits. -/
def is_valid_number (str : List Char) : Bool :=
  if deref str = NUL then false
  else if deref str = '-' ∧ deref (str.drop 1) = NUL then false
  else (if deref str = '-' then str.drop 1 else str).all Char.isDigit

/-- The remainder of C's `%` on `int`s: the quotient is rounded towards
zero, so the remainder has the sign of the dividend. -/
def c_rem (a b : Int) : Int := Int.tmod a b

/-- What `ping` did: the `kill` call it made, if any, and the text printed. -/
structure PingResult where
  kill_call : Option (Int × Int)
  output : List Char
  deriving DecidableEq, Repr

/-- Function `execute_ping`; `kill_result pid sig` is what `kill(pid, sig)`
returns. -/
def execute_ping (tokens : List Token) (kill_result : Int → Int → Int) : PingResult :=
  if tokens.length < 3 then ⟨none, "Invalid syntax!\n".toList⟩
  else if tokens.length > 3 then ⟨none, "Invalid syntax!\n".toList⟩
  else if (token_at tokens 1).type ≠ TokenType.TOKEN_NAME ∨
      (token_at tokens 2).type ≠ TokenType.TOKEN_NAME then ⟨none, "Invalid syntax!\n".toList⟩
  else if is_valid_number (token_at tokens 1).value = false then
    ⟨none, "Invalid syntax!\n".toList⟩
  else
    let target_pid := atoi (token_at tokens 1).value
    if is_valid_number (token_at tokens 2).value = false then
      ⟨none, "Invalid syntax!\n".toList⟩
    else
      let signal_number := atoi (token_at tokens 2).value
      let actual_signal := c_rem signal_number 32
      if kill_result target_pid actual_signal = -1 then
        ⟨some (target_pid, actual_signal), "No such process found\n".toList⟩
      else
        ⟨some (target_pid, actual_signal),
          "Sent signal ".toList ++ format_int signal_number ++ " to process with pid ".toList
            ++ format_int target_pid ++ "\n".toList⟩

/-- The tokens of `ping` followed by two arguments. -/
def ping_tokens (pid signum : List Char) : List Token :=
  [⟨TokenType.TOKEN_NAME, "ping".toList⟩, ⟨TokenType.TOKEN_NAME, pid⟩,
    ⟨TokenType.TOKEN_NAME, signum⟩]

/-- The answer of `kill` on a system where process 1234 exists: a signal
number from 0 to 31 is delivered to it, every other call fails. -/
def kill_1234 (pid sig : Int) : Int :=
  if pid = 1234 ∧ 0 ≤ sig ∧ sig ≤ 31 then 0 else -1

/-! ## Job control: what is printed -/

/-- The text printed by `sigtstp_handler` when the foreground marker holds
`(pgid, command)`: the line of the stopped job when `add_stopped_job` gave
it a number, a bare newline when no process is in the foreground. -/
def sigtstp_handler_output (pgid : Int) (command : List Char) (t : JobTable) : List Char :=
  if pgid > 0 then
    let job_number := (add_stopped_job pgid command t).1
    if job_number > 0 then
      "\n[".toList ++ format_int job_number ++ "] Stopped ".toList
        ++ (command.take (MAX_PATH_LEN - 1)).takeWhile (fun c => c != ' ') ++ "\n".toList
    else []
  else "\n".toList

/-- The text printed on standard output by `execute_fg`, with the
arguments of `execute_fg`: `No such job` when no job is selected, else the
command of the job, followed by the lines of a stop. -/
def execute_fg_output (tokens : List Token) (kill_result : Int) (sigtstp : Bool)
    (wait : WaitStatus) (t : JobTable) : List Char :=
  let job_index := select_job tokens t
  if job_index = -1 then "No such job\n".toList
  else
    let job := t.background_jobs job_index.toNat
    if job.state = ProcessState.PROCESS_STOPPED ∧ kill_result = -1 then
      job.command ++ "\n".toList
    else
      let handler :=
        if sigtstp then
          sigtstp_handler_output job.pid (job.command.take (MAX_PATH_LEN - 1)) t
        else []
      match wait with
      | WaitStatus.stopped =>
        job.command ++ "\n".toList ++ handler ++ "\n[".toList ++ format_int job.job_number
          ++ "] Stopped ".toList ++ job.command_name ++ "\n".toList
      | _ => job.command ++ "\n".toList ++ handler

/-- The text printed on standard output by `execute_bg`. -/
def execute_bg_output (tokens : List Token) (kill_result : Int) (t : JobTable) : List Char :=
  let job_index := select_job tokens t
  if job_index = -1 then "No such job\n".toList
  else
    let job := t.background_jobs job_index.toNat
    if job.state = ProcessState.PROCESS_RUNNING then "Job already running\n".toList
    else if kill_result = -1 then []
    else
      "[".toList ++ format_int job.job_number ++ "] ".toList ++ job.command_name
        ++ " &\n".toList

/-- The tokens of a job-control command followed by one argument. -/
def job_command_tokens (verb arg : List Char) : List Token :=
  [⟨TokenType.TOKEN_NAME, verb⟩, ⟨TokenType.TOKEN_NAME, arg⟩]

/-- A job table with one running job: `sleep 50`, pid 500, job number 1. -/
def one_job_table : JobTable :=
  (add_background_job 500 "sleep 50".toList init_background_jobs).2

/-- The line printed by `check_background_jobs` for a job that has ended:
the field `command` of the slot, ` & with pid `, the pid, and how it
ended. -/
def exit_line (job : BackgroundJob) (normally : Bool) : List Char :=
  job.command ++ " & with pid ".toList ++ format_int job.pid
    ++ (if normally then " exited normally\n".toList else " exited abnormally\n".toList)

/-- The loop of `check_background_jobs` with the lines it prints: an active
slot whose wait reports the end of the process is reported, normally for
exit status 0 and abnormally otherwise, and cleaned up. -/
def check_background_jobs_report_loop (wait : Nat → WaitStatus) :
    Nat → Nat → JobTable → List (List Char) → JobTable × List (List Char)
  | 0, _, t, lines => (t, lines)
  | turns + 1, i, t, lines =>
    let r : JobTable × List (List Char) :=
      if (t.background_jobs i).is_active ≠ 0 then
        match wait i with
        | WaitStatus.stopped =>
          (⟨Function.update t.background_jobs i
            { t.background_jobs i with state := ProcessState.PROCESS_STOPPED },
            t.next_job_number⟩, lines)
        | WaitStatus.exited status =>
          (cleanup_background_job i t,
            lines ++ [exit_line (t.background_jobs i) (decide (status = 0))])
        | WaitStatus.signaled _ =>
          (cleanup_background_job i t, lines ++ [exit_line (t.background_jobs i) false])
        | WaitStatus.error => (cleanup_background_job i t, lines)
        | WaitStatus.no_change => (t, lines)
      else (t, lines)
    check_background_jobs_report_loop wait turns (i + 1) r.1 r.2

/-- The lines printed by one pass of `check_background_jobs`. -/
def check_background_jobs_report (wait : Nat → WaitStatus) (t : JobTable) :
    List (List Char) :=
  (check_background_jobs_report_loop wait MAX_BACKGROUND_JOBS 0 t []).2

/-- The wait results of a pass in which the job of slot `i` has exited with
status 0 and nothing else has changed. -/
def only_exited (i : Nat) : Nat → WaitStatus :=
  fun j => if j = i then WaitStatus.exited 0 else WaitStatus.no_change

/-- What `execute_background_command` did in the parent: its return value,
whether `fork` was called, the text printed, and the job table. -/
structure BackgroundLaunch where
  result : Int
  forked : Bool
  output : List Char
  table : JobTable

/-- Function `execute_background_command` in the parent. `fork_result` is
what `fork` returns there: the pid of the child, or -1. A segment without
command word is reported; the built-ins `hop`, `reveal`, `log`,
`activities`, `ping` and `exit` return -1 before the fork; every other
command word is forked and entered in the job table. -/
def execute_background_command (tokens : List Token) (start_index end_index : Nat)
    (command_str : List Char) (fork_result : Int) (t : JobTable) : BackgroundLaunch :=
  let args := execute_background_command_args tokens start_index end_index
  if args.length = 0 then
    ⟨-1, false, "Error: No command found for background execution\n".toList, t⟩
  else
    let arg0 := args.headD []
    if arg0 = "hop".toList ∨ arg0 = "reveal".toList ∨ arg0 = "log".toList ∨
        arg0 = "activities".toList ∨ arg0 = "ping".toList then ⟨-1, false, [], t⟩
    else if arg0 = "exit".toList then ⟨-1, false, [], t⟩
    else if fork_result > 0 then
      let r := add_background_job fork_result command_str t
      ⟨0, true,
        if r.1 = -1 then "Error: Maximum number of background jobs reached\n".toList else [],
        r.2⟩
    else ⟨-1, true, [], t⟩

/-- The tokens of a line made of one word followed by `&`. -/
def background_word (word : List Char) : List Token :=
  [⟨TokenType.TOKEN_NAME, word⟩, ⟨TokenType.TOKEN_AMPERSAND, "&".toList⟩]

/-! ## Built-ins: activities -/

/-- The record `ActivityInfo`. -/
structure ActivityInfo where
  pid : Int
  command_name : List Char
  state : ProcessState
  deriving DecidableEq, Repr

/-- Function `strcmp` on C strings: the difference of the first two bytes
that differ, 0 when both strings end together. The end of the list, like a
NUL in it, ends the string. -/
def strcmp : List Char → List Char → Int
  | [], [] => 0
  | [], b :: _ => 0 - (b.toNat : Int)
  | a :: _, [] => (a.toNat : Int) - 0
  | a :: s1, b :: s2 =>
    if a.toNat ≠ b.toNat then (a.toNat : Int) - (b.toNat : Int)
    else if a.toNat = 0 then 0
    else strcmp s1 s2

/-- Function `compare_activities`. -/
def compare_activities (a b : ActivityInfo) : Int :=
  strcmp a.command_name b.command_name

/-- The first loop of `execute_activities`: the active slots, in slot
order. -/
def collect_activities_loop (t : JobTable) : Nat → Nat → List ActivityInfo → List ActivityInfo
  | 0, _, activities => activities
  | turns + 1, i, activities =>
    collect_activities_loop t turns (i + 1)
      (if (t.background_jobs i).is_active ≠ 0 then
        activities ++ [⟨(t.background_jobs i).pid,
          (t.background_jobs i).command_name.take (MAX_PATH_LEN - 1),
          (t.background_jobs i).state⟩]
      else activities)

/-- The line printed for one activity. -/
def activity_line (a : ActivityInfo) : List Char :=
  "[".toList ++ format_int a.pid ++ "] : ".toList ++ a.command_name ++ " - ".toList
    ++ (if a.state = ProcessState.PROCESS_RUNNING then "Running".toList else "Stopped".toList)
    ++ "\n".toList

/-- Function `execute_activities`: the lines printed. The library function
is a parameter: `qsort compar base` is the array after the call
`qsort(base, n, size, compar)`. -/
def execute_activities
    (qsort : (ActivityInfo → ActivityInfo → Int) → List ActivityInfo → List ActivityInfo)
    (t : JobTable) : List (List Char) :=
  let activities := collect_activities_loop t MAX_BACKGROUND_JOBS 0 []
  if activities.length > 0 then (qsort compare_activities activities).map activity_line
  else []

/-- The merge loop of `msort_with_tmp` in the C library in use (glibc,
`stdlib/msort.c`): while both runs hold elements, the head of the first run
is taken when `compar` returns at most 0 for the two heads, and the head of
the second run otherwise; what is left of a run follows. `turns` counts the
turns left; the sum of the two lengths is enough. -/
def msort_merge {α : Type} (compar : α → α → Int) : Nat → List α → List α → List α
  | 0, b1, b2 => b1 ++ b2
  | _ + 1, [], b2 => b2
  | _ + 1, x :: b1, [] => x :: b1
  | turns + 1, x :: b1, y :: b2 =>
    if compar x y ≤ 0 then x :: msort_merge compar turns b1 (y :: b2)
    else y :: msort_merge compar turns (x :: b1) b2

/-- Function `msort_with_tmp` of the C library: an array of at most one
element is left alone; otherwise the first `n / 2` elements and the rest are
sorted and merged. `depth` bounds the depth of the recursion; the length of
the array is enough. -/
def msort_with_tmp {α : Type} (compar : α → α → Int) : Nat → List α → List α
  | 0, b => b
  | depth + 1, b =>
    if b.length ≤ 1 then b
    else
      msort_merge compar b.length (msort_with_tmp compar depth (b.take (b.length / 2)))
        (msort_with_tmp compar depth (b.drop (b.length / 2)))

/-- Function `qsort` of the C library in use: `qsort(base, n, size, compar)`
is the merge sort `msort_with_tmp` on a temporary buffer, whose allocation is
taken to succeed. (The C standard only asks for an ascending order and
leaves the order of elements that compare equal open.) -/
def qsort {α : Type} (compar : α → α → Int) (base : List α) : List α :=
  msort_with_tmp compar base.length base

/-- The record that `execute_activities` makes of slot `i`. -/
def activity_of (t : JobTable) (i : Nat) : ActivityInfo :=
  ⟨(t.background_jobs i).pid, (t.background_jobs i).command_name.take (MAX_PATH_LEN - 1),
    (t.background_jobs i).state⟩

/-- The active slots of the table, in slot order. -/
def active_slots (t : JobTable) : List Nat :=
  (List.range MAX_BACKGROUND_JOBS).filter (fun i => (t.background_jobs i).is_active ≠ 0)

/-- A job table with three running jobs: `sleep 5` (pid 100) in slot 0,
`sleep 6` (pid 101) in slot 1 and `cat` (pid 102) in slot 2. -/
def three_jobs_table : JobTable :=
  (add_background_job 102 "cat".toList
    (add_background_job 101 "sleep 6".toList
      (add_background_job 100 "sleep 5".toList init_background_jobs).2).2).2

/-! ## Foreground marker (`src/ctrl.c`, `src/cat.c`, `src/fg.c`) -/

/-- The foreground marker: the globals `current_foreground_pgid` and
`current_foreground_command`. -/
structure Foreground where
  pgid : Int
  command : List Char
  deriving DecidableEq, Repr

/-- Function `set_foreground_process` for a command that is not `NULL`:
the marker is overwritten. -/
def set_foreground_process (pgid : Int) (command : List Char) (_fg : Foreground) :
    Foreground :=
  ⟨pgid, command.take (MAX_PATH_LEN - 1)⟩

/-- The empty marker: pgid 0 and an empty command. -/
def no_foreground : Foreground := ⟨0, []⟩

/-- Function `clear_foreground_process`: the marker is emptied. -/
def clear_foreground_process (_fg : Foreground) : Foreground := no_foreground

/-- Function `sigtstp_handler` on the marker and the job table: with a
positive `pgid` the process is entered with `add_stopped_job` and the marker
is emptied; otherwise nothing changes. -/
def sigtstp_handler_marker (fg : Foreground) (t : JobTable) : Foreground × JobTable :=
  if fg.pgid > 0 then (no_foreground, (sigtstp_handler fg.pgid fg.command t).2)
  else (fg, t)

/-- What `execute_command` leaves in the parent: its return value, the
system calls it made on the child, the marker and the job table. -/
structure ForegroundRun where
  result : Int
  calls : List SysCall
  marker : Foreground
  table : JobTable

/-- Function `execute_command` in the parent. `fork_result` is what `fork`
returns there (the pid of the child, or -1), `sigtstp` says whether the stop
handler runs while `waitpid` blocks, and `wait` is what `waitpid` reports.
The marker is set before the wait and cleared after it, whatever it
reports; the job table is touched by the handler only. -/
def execute_command (tokens : List Token) (fork_result : Int) (sigtstp : Bool)
    (wait : WaitStatus) (fg : Foreground) (t : JobTable) : ForegroundRun :=
  if tokens.length = 0 then ⟨0, [], fg, t⟩
  else
    let args := execute_command_args tokens
    if args.length = 0 then ⟨-1, [], fg, t⟩
    else if args.headD [] = "hop".toList ∨ args.headD [] = "reveal".toList ∨
        args.headD [] = "exit".toList then ⟨0, [], fg, t⟩
    else if fork_result > 0 then
      let calls := [SysCall.setpgid fork_result fork_result]
      let fg1 := set_foreground_process fork_result (args.headD []) fg
      let h := if sigtstp then sigtstp_handler_marker fg1 t else (fg1, t)
      match wait with
      | WaitStatus.error => ⟨-1, calls, clear_foreground_process h.1, h.2⟩
      | WaitStatus.exited status => ⟨status, calls, clear_foreground_process h.1, h.2⟩
      | WaitStatus.signaled signal =>
        ⟨128 + signal, calls, clear_foreground_process h.1, h.2⟩
      | WaitStatus.stopped => ⟨0, calls, clear_foreground_process h.1, h.2⟩
      | WaitStatus.no_change => ⟨-1, calls, clear_foreground_process h.1, h.2⟩
    else ⟨-1, [], fg, t⟩

/-- The marker that `execute_fg` leaves, with the arguments of
`execute_fg`: it is untouched when no job is selected or `SIGCONT` cannot
be sent, and otherwise set to the job before the wait and cleared after
it. -/
def execute_fg_marker (tokens : List Token) (kill_result : Int) (sigtstp : Bool)
    (wait : WaitStatus) (t : JobTable) (fg : Foreground) : Foreground :=
  let job_index := select_job tokens t
  if job_index = -1 then fg
  else
    let job := t.background_jobs job_index.toNat
    if job.state = ProcessState.PROCESS_STOPPED ∧ kill_result = -1 then fg
    else
      let fg1 := set_foreground_process job.pid job.command fg
      let fg2 := if sigtstp then (sigtstp_handler_marker fg1 t).1 else fg1
      match wait with
      | WaitStatus.error => clear_foreground_process fg2
      | _ => clear_foreground_process fg2

/-- The tokens of the line `sleep 100`. -/
def line_sleep : List Token :=
  [⟨TokenType.TOKEN_NAME, "sleep".toList⟩, ⟨TokenType.TOKEN_NAME, "100".toList⟩]

/-! ## Pipelines in the parent (`src/pipe.c`) -/

/-- Function `count_pipes`, the loop over `start_index ≤ i < end_index`. -/
def count_pipes_loop (tokens : List Token) : Nat → Nat → Nat → Nat
  | 0, _, pipe_count => pipe_count
  | turns + 1, i, pipe_count =>
    count_pipes_loop tokens turns (i + 1)
      (if (token_at tokens i).type = TokenType.TOKEN_PIPE then pipe_count + 1 else pipe_count)

/-- Function `count_pipes`. -/
def count_pipes (tokens : List Token) (start_index end_index : Nat) : Nat :=
  count_pipes_loop tokens (end_index - start_index) start_index 0

/-- The second loop of `find_pipe_segments` over `i ≤ token_count`: a range
is closed at every `|` and at the end of the tokens. -/
def find_pipe_segments_loop (tokens : List Token) :
    Nat → Nat → Nat → List (Nat × Nat) → List (Nat × Nat)
  | 0, _, _, segments => segments
  | turns + 1, i, current_start, segments =>
    if i = tokens.length ∨ (token_at tokens i).type = TokenType.TOKEN_PIPE then
      find_pipe_segments_loop tokens turns (i + 1) (i + 1) (segments ++ [(current_start, i)])
    else find_pipe_segments_loop tokens turns (i + 1) current_start segments

/-- Function `find_pipe_segments` (the allocation is taken to succeed). -/
def find_pipe_segments (tokens : List Token) : List (Nat × Nat) :=
  find_pipe_segments_loop tokens (tokens.length + 1) 0 0 []

/-- The loop `for (i = 0; i < num_segments - 1; i++) pipe(pipes[i])` of
`execute_pipeline`. `pipe_result i` is the pair of descriptors that call `i`
creates, or nothing when it fails. The result is the pipes created and
whether the loop ran to its end. -/
def create_pipes_loop (pipe_result : Nat → Option (Int × Int)) :
    Nat → Nat → List (Int × Int) → List (Int × Int) × Bool
  | 0, _, pipes => (pipes, true)
  | turns + 1, i, pipes =>
    match pipe_result i with
    | none => (pipes, false)
    | some p => create_pipes_loop pipe_result turns (i + 1) (pipes ++ [p])

/-- The loop that forks the stages: the pids returned in the parent. -/
def fork_stages_loop (fork_result : Nat → Int) : Nat → Nat → List Int → List Int
  | 0, _, pids => pids
  | turns + 1, i, pids => fork_stages_loop fork_result turns (i + 1) (pids ++ [fork_result i])

/-- The loop in which the parent closes both ends of every pipe. -/
def close_pipes_loop (pipes : List (Int × Int)) : Nat → Nat → List SysCall → List SysCall
  | 0, _, calls => calls
  | turns + 1, i, calls =>
    close_pipes_loop pipes turns (i + 1)
      (calls ++ [SysCall.close (pipes.getD i (-1, -1)).1,
        SysCall.close (pipes.getD i (-1, -1)).2])

/-- The loop that waits for the stages: the exit status of the last stage
when its wait succeeds, else 0. `wait_result i` is the exit status reported
for stage `i`, or nothing when `waitpid` fails. -/
def wait_stages_loop (pids : List Int) (wait_result : Nat → Option Int) (num_segments : Nat) :
    Nat → Nat → Int → Int
  | 0, _, final_status => final_status
  | turns + 1, i, final_status =>
    wait_stages_loop pids wait_result num_segments turns (i + 1)
      (if pids.getD i (-1) > 0 then
        match wait_result i with
        | none => final_status
        | some status => if i = num_segments - 1 then status else final_status
      else final_status)

/-- What `execute_pipeline` leaves in the parent: its return value, the
pipe descriptors it created, the system calls it made on descriptors, and
the pids of the stages. -/
structure PipelineRun where
  result : Int
  created : List Int
  calls : List SysCall
  pids : List Int
  deriving DecidableEq, Repr

/-- The descriptors of a list of pipes. -/
def pipe_descriptors (pipes : List (Int × Int)) : List Int :=
  pipes.flatMap (fun p => [p.1, p.2])

/-- Function `execute_pipeline` in the parent. Without a `|` it hands over
to `execute_command`, whose return value is `command_result`, and for no
token it returns 0. Otherwise all pipes are created first, and a `pipe` call that fails makes
the function return -1 at once; then every stage is forked, the parent
closes both ends of every pipe and waits for the stages. -/
def execute_pipeline (tokens : List Token) (pipe_result : Nat → Option (Int × Int))
    (fork_result : Nat → Int) (wait_result : Nat → Option Int) (command_result : Int) :
    PipelineRun :=
  if tokens.length = 0 then ⟨0, [], [], []⟩
  else
    let num_segments := count_pipes tokens 0 tokens.length + 1
    if num_segments = 1 then ⟨command_result, [], [], []⟩
    else
      let created := create_pipes_loop pipe_result (num_segments - 1) 0 []
      if created.2 = false then ⟨-1, pipe_descriptors created.1, [], []⟩
      else
        let pids := fork_stages_loop fork_result num_segments 0 []
        let calls := close_pipes_loop created.1 (num_segments - 1) 0 []
        ⟨wait_stages_loop pids wait_result num_segments num_segments 0 0,
          pipe_descriptors created.1, calls, pids⟩

/-- The descriptors closed by a list of system calls. -/
def closed_descriptors (calls : List SysCall) : List Int :=
  calls.filterMap (fun c => match c with
    | SysCall.close fd => some fd
    | _ => none)

/-- The loop in which the child of stage `i` closes the pipe ends it does
not use. -/
def close_unused_loop (pipes : List (Int × Int)) (i : Nat) :
    Nat → Nat → List SysCall → List SysCall
  | 0, _, trace => trace
  | turns + 1, j, trace =>
    close_unused_loop pipes i turns (j + 1)
      (if j + 1 = i then trace ++ [SysCall.close (pipes.getD j (-1, -1)).2]
      else if j = i then trace ++ [SysCall.close (pipes.getD j (-1, -1)).1]
      else trace ++ [SysCall.close (pipes.getD j (-1, -1)).1,
        SysCall.close (pipes.getD j (-1, -1)).2])

/-- The child of stage `i` of `execute_pipeline` (`pids[i] == 0`): it closes
the pipe ends it does not use and runs `execute_command_in_pipeline` on its
range with the pipe ends it keeps. -/
def execute_pipeline_child (os : OS) (tokens : List Token) (pipes : List (Int × Int))
    (i : Nat) : Option (ChildStep × List SysCall) :=
  let segments := find_pipe_segments tokens
  let num_segments := count_pipes tokens 0 tokens.length + 1
  let trace := close_unused_loop pipes i (num_segments - 1) 0 []
  let pipe_in := if i > 0 then (pipes.getD (i - 1) (-1, -1)).1 else -1
  let pipe_out := if i < num_segments - 1 then (pipes.getD i (-1, -1)).2 else -1
  execute_command_in_pipeline os tokens (segments.getD i (0, 0)).1 (segments.getD i (0, 0)).2
    pipe_in pipe_out trace

/-- The test for a `setpgid` call. -/
def is_setpgid (c : SysCall) : Bool :=
  match c with
  | SysCall.setpgid _ _ => true
  | _ => false

/-- The tokens of the line `ls | wc`. -/
def line_ls_wc : List Token :=
  [⟨TokenType.TOKEN_NAME, "ls".toList⟩, ⟨TokenType.TOKEN_PIPE, "|".toList⟩,
    ⟨TokenType.TOKEN_NAME, "wc".toList⟩]

/-- The tokens of the line `a | b | c`. -/
def line_three_stages : List Token :=
  [⟨TokenType.TOKEN_NAME, "a".toList⟩, ⟨TokenType.TOKEN_PIPE, "|".toList⟩,
    ⟨TokenType.TOKEN_NAME, "b".toList⟩, ⟨TokenType.TOKEN_PIPE, "|".toList⟩,
    ⟨TokenType.TOKEN_NAME, "c".toList⟩]

/-- The tokens of the line `sleep 100 &`. -/
def line_sleep_background : List Token :=
  [⟨TokenType.TOKEN_NAME, "sleep".toList⟩, ⟨TokenType.TOKEN_NAME, "100".toList⟩,
    ⟨TokenType.TOKEN_AMPERSAND, "&".toList⟩]

/-- The tokens of the line `cat f | wc &`. -/
def line_cat_wc_background : List Token :=
  [⟨TokenType.TOKEN_NAME, "cat".toList⟩, ⟨TokenType.TOKEN_NAME, "f".toList⟩,
    ⟨TokenType.TOKEN_PIPE, "|".toList⟩, ⟨TokenType.TOKEN_NAME, "wc".toList⟩,
    ⟨TokenType.TOKEN_AMPERSAND, "&".toList⟩]

/-- The tokens of the line `echo x x ... x | wc` with 300 times `x`. -/
def line_many_words : List Token :=
  [⟨TokenType.TOKEN_NAME, "echo".toList⟩]
    ++ List.replicate 300 ⟨TokenType.TOKEN_NAME, "x".toList⟩
    ++ [⟨TokenType.TOKEN_PIPE, "|".toList⟩, ⟨TokenType.TOKEN_NAME, "wc".toList⟩]

/-- A system in which the first `pipe` call creates the descriptors 3 and 4
and every later one fails. -/
def one_pipe_only (i : Nat) : Option (Int × Int) :=
  if i = 0 then some (3, 4) else none

/-- A system in which `pipe` call `i` creates the descriptors `3 + 2 i` and
`4 + 2 i`. -/
def pipes_succeed (i : Nat) : Option (Int × Int) :=
  some (3 + 2 * (i : Int), 4 + 2 * (i : Int))

/-! ## Sequential split (`src/seq.c`) -/

/-- The test for a `;` or `&` token. -/
def is_separator (t : TokenType) : Bool :=
  t == TokenType.TOKEN_SEMICOLON || t == TokenType.TOKEN_AMPERSAND

/-- A range written by `find_command_segments`: `segments[2k]`,
`segments[2k+1]` and `separators[k]`. -/
structure Segment where
  start_index : Nat
  end_index : Nat
  separator : TokenType
  deriving DecidableEq, Repr

/-- The first loop of `find_command_segments`: `num_segments` is
incremented at every `;` and `&`. -/
def count_segments_loop (tokens : List Token) : Nat → Nat → Nat → Nat
  | 0, _, num_segments => num_segments
  | turns + 1, i, num_segments =>
    count_segments_loop tokens turns (i + 1)
      (if (token_at tokens i).type = TokenType.TOKEN_SEMICOLON ∨
          (token_at tokens i).type = TokenType.TOKEN_AMPERSAND then num_segments + 1
        else num_segments)

/-- The second loop of `find_command_segments` over `i ≤ token_count`: a
range is closed at every `;`, at every `&` and at the end of the tokens,
with the kind of the token that closed it, or `TOKEN_END` at the end. -/
def find_command_segments_loop (tokens : List Token) :
    Nat → Nat → Nat → List Segment → List Segment
  | 0, _, _, segments => segments
  | turns + 1, i, current_start, segments =>
    if i = tokens.length ∨ (token_at tokens i).type = TokenType.TOKEN_SEMICOLON ∨
        (token_at tokens i).type = TokenType.TOKEN_AMPERSAND then
      find_command_segments_loop tokens turns (i + 1) (i + 1)
        (segments ++ [⟨current_start, i,
          if i < tokens.length then (token_at tokens i).type else TokenType.TOKEN_END⟩])
    else find_command_segments_loop tokens turns (i + 1) current_start segments

/-- Function `find_command_segments` (the allocations are taken to
succeed): `num_segments` and the ranges written. -/
def find_command_segments (tokens : List Token) : Nat × List Segment :=
  (count_segments_loop tokens tokens.length 0 1,
    find_command_segments_loop tokens (tokens.length + 1) 0 0 [])

/-- What `execute_sequential_commands` does with a range. -/
inductive SegmentAction where
  | skipped
  | background (start_index end_index : Nat)
  | foreground (start_index end_index : Nat)
  deriving DecidableEq, Repr

/-- The body of the loop of `execute_sequential_commands` for one range: an
empty range is skipped, a range closed by `&` goes to
`execute_background_command`, any other to `execute_single_segment`. -/
def dispatch_segment (s : Segment) : SegmentAction :=
  if s.start_index ≥ s.end_index then SegmentAction.skipped
  else if s.separator = TokenType.TOKEN_AMPERSAND then
    SegmentAction.background s.start_index s.end_index
  else SegmentAction.foreground s.start_index s.end_index

/-- The loop of `execute_sequential_commands` over `i < num_segments`. -/
def execute_sequential_loop (segments : List Segment) :
    Nat → Nat → List SegmentAction → List SegmentAction
  | 0, _, actions => actions
  | turns + 1, i, actions =>
    execute_sequential_loop segments turns (i + 1)
      (actions ++ [dispatch_segment (segments.getD i ⟨0, 0, TokenType.TOKEN_END⟩)])

/-- Function `execute_sequential_commands`: what is done with each range,
in order. -/
def execute_sequential_commands (tokens : List Token) : List SegmentAction :=
  if tokens.length = 0 then []
  else
    execute_sequential_loop (find_command_segments tokens).2 (find_command_segments tokens).1
      0 []

/-- The ranges tile the tokens from `start` to `n`: the first one starts
at `start`, each next one starts one past the end of the one before, and
the last one ends at `n`. -/
def tiles : Nat → List Segment → Nat → Bool
  | _, [], _ => false
  | start, [s], n => s.start_index == start && s.end_index == n
  | start, s :: s2 :: rest, n =>
    s.start_index == start && tiles (s.end_index + 1) (s2 :: rest) n

/-- A range of `tokens` is well formed: it lies within the tokens, holds no
`;` and no `&`, and its terminator is the kind of the token at its end
index, which is `TOKEN_END` at the end of the tokens. -/
def segment_ok (tokens : List Token) (s : Segment) : Prop :=
  s.start_index ≤ s.end_index ∧ s.end_index ≤ tokens.length ∧
  (∀ j, s.start_index ≤ j → j < s.end_index →
    is_separator (token_at tokens j).type = false) ∧
  s.separator = (token_at tokens s.end_index).type ∧
  (s.end_index = tokens.length → s.separator = TokenType.TOKEN_END)

/-- The tokens of the line `a ; b | c & d &`. -/
def line_mixed_separators : List Token :=
  [⟨TokenType.TOKEN_NAME, "a".toList⟩, ⟨TokenType.TOKEN_SEMICOLON, ";".toList⟩,
    ⟨TokenType.TOKEN_NAME, "b".toList⟩, ⟨TokenType.TOKEN_PIPE, "|".toList⟩,
    ⟨TokenType.TOKEN_NAME, "c".toList⟩, ⟨TokenType.TOKEN_AMPERSAND, "&".toList⟩,
    ⟨TokenType.TOKEN_NAME, "d".toList⟩, ⟨TokenType.TOKEN_AMPERSAND, "&".toList⟩]

/-! ## Job table: one slot at a time -/

/-- The outcome `r` of `add_background_job` or `add_stopped_job` called on
table `t` with `pid`, `command` and the state `state`: it is -1 exactly when
all slots are active, the table is then unchanged, and otherwise one slot
that was inactive holds the new job and nothing else has changed but the
counter. -/
def allocation_ok (t : JobTable) (pid : Int) (command : List Char) (state : ProcessState)
    (r : Int × JobTable) : Prop :=
  (r.1 = -1 ↔ ∀ i, i < MAX_BACKGROUND_JOBS → (t.background_jobs i).is_active ≠ 0) ∧
  (r.1 = -1 → r.2 = t) ∧
  (r.1 ≠ -1 → ∃ k job, k < MAX_BACKGROUND_JOBS ∧ (t.background_jobs k).is_active = 0 ∧
    r.2.background_jobs = Function.update t.background_jobs k job ∧
    job.is_active ≠ 0 ∧ job.pid = pid ∧ job.command = command.take (MAX_PATH_LEN - 1) ∧
    job.state = state)

/-- A slot after a pass of `check_background_jobs` in which the wait for it
reported `w`, in the words of the specification: an active slot is freed on
termination and on a failed wait, becomes stopped on a stop, and is left
alone otherwise; an inactive slot is left alone. -/
def reaped_slot (w : WaitStatus) (job : BackgroundJob) : BackgroundJob :=
  if job.is_active ≠ 0 then
    match w with
    | WaitStatus.stopped => { job with state := ProcessState.PROCESS_STOPPED }
    | WaitStatus.exited _ => empty_job
    | WaitStatus.signaled _ => empty_job
    | WaitStatus.error => empty_job
    | WaitStatus.no_change => job
  else job

/-- The lines printed for a slot in such a pass: one line for an active
slot whose process has ended, nothing otherwise. -/
def reaped_lines (w : WaitStatus) (job : BackgroundJob) : List (List Char) :=
  if job.is_active ≠ 0 then
    match w with
    | WaitStatus.exited status => [exit_line job (decide (status = 0))]
    | WaitStatus.signaled _ => [exit_line job false]
    | _ => []
  else []

/-- A table with 100 active slots: slot `i` holds process `1000 + i`. -/
def full_job_table : JobTable :=
  ⟨fun i => ⟨1000 + (i : Int), (i : Int) + 1, "sleep 9".toList, "sleep".toList, 1,
    ProcessState.PROCESS_RUNNING⟩, 101⟩

/-- The wait results of a pass in which the job of slot 0 has exited with
status 0, the job of slot 1 was stopped, the wait for slot 2 failed and
nothing else has changed. -/
def mixed_waits : Nat → WaitStatus :=
  fun j => if j = 0 then WaitStatus.exited 0 else if j = 1 then WaitStatus.stopped
    else if j = 2 then WaitStatus.error else WaitStatus.no_change

/-- The tokens of the line `a < < ; &`. -/
def line_amp_after_semicolon : List Token :=
  [⟨TokenType.TOKEN_NAME, "a".toList⟩, ⟨TokenType.TOKEN_INPUT, "<".toList⟩,
    ⟨TokenType.TOKEN_INPUT, "<".toList⟩, ⟨TokenType.TOKEN_SEMICOLON, ";".toList⟩,
    ⟨TokenType.TOKEN_AMPERSAND, "&".toList⟩]
/-! ## Parser: reading the token kinds through the index -/

theorem kinds_drop_cons {tokens : List Token} {i : Nat} {t : TokenType} {r : List TokenType}
    (h : (kinds tokens).drop i = t :: r) :
    i < tokens.length ∧ (tokens.getD i end_token).type = t ∧ (kinds tokens).drop (i + 1) = r := by
  have hi : i < tokens.length := by
    by_contra hc
    have : (kinds tokens).drop i = [] := by
      apply List.drop_eq_nil_of_le
      simp [kinds]; omega
    rw [this] at h; cases h
  have hi2 : i < (kinds tokens).length := by simpa [kinds] using hi
  rw [List.drop_eq_getElem_cons hi2] at h
  injection h with h1 h2
  refine ⟨hi, ?_, h2⟩
  rw [List.getD_eq_getElem _ _ hi]
  simpa [kinds] using h1

theorem match_token_of_drop {tokens : List Token} {i : Nat} {pending : List TokenType}
    (h : (kinds tokens).drop i = pending) (type : TokenType) :
    match_token tokens ⟨i⟩ type = (next_kind pending == type) := by
  cases pending with
  | nil =>
    have hi : ¬ i < tokens.length := by
      intro hc
      have h2 := congrArg List.length h
      simp [kinds] at h2; omega
    simp [match_token, current_token, hi, next_kind, end_token]
  | cons t r =>
    obtain ⟨hi, ht, _⟩ := kinds_drop_cons h
    subst ht
    simp [match_token, current_token, hi, next_kind]

theorem consume_token_of_drop {tokens : List Token} {i : Nat} {t : TokenType}
    {r : List TokenType} (h : (kinds tokens).drop i = t :: r) :
    consume_token tokens ⟨i⟩ = ⟨i + 1⟩ := by
  obtain ⟨hi, _, _⟩ := kinds_drop_cons h
  simp [consume_token, hi]

theorem kinds_drop_append {tokens : List Token} {i : Nat} {a post : List TokenType}
    (h : (kinds tokens).drop i = a ++ post) :
    (kinds tokens).drop (i + a.length) = post := by
  rw [← List.drop_drop, h, List.drop_left]

theorem parse_name_of_name {tokens : List Token} {i : Nat} {r : List TokenType}
    (h : (kinds tokens).drop i = TOKEN_NAME :: r) :
    parse_name tokens ⟨i⟩ = (1, ⟨i + 1⟩) := by
  simp [parse_name, match_token_of_drop h, consume_token_of_drop h, next_kind]

theorem parse_name_of_other {tokens : List Token} {i : Nat} {pending : List TokenType}
    (h : (kinds tokens).drop i = pending) (hn : next_kind pending ≠ TOKEN_NAME) :
    parse_name tokens ⟨i⟩ = (0, ⟨i⟩) := by
  simp [parse_name, match_token_of_drop h, hn]

theorem parse_input_of_redirect {tokens : List Token} {i : Nat} {r : List TokenType}
    (h : (kinds tokens).drop i = TOKEN_INPUT :: TOKEN_NAME :: r) :
    parse_input tokens ⟨i⟩ = (1, ⟨i + 2⟩) := by
  have h1 := (kinds_drop_cons h).2.2
  simp [parse_input, match_token_of_drop h, consume_token_of_drop h, next_kind,
    parse_name_of_name h1]

theorem parse_input_of_other {tokens : List Token} {i : Nat} {pending : List TokenType}
    (h : (kinds tokens).drop i = pending) (hn : next_kind pending ≠ TOKEN_INPUT) :
    parse_input tokens ⟨i⟩ = (0, ⟨i⟩) := by
  simp [parse_input, match_token_of_drop h, hn]

theorem parse_output_of_redirect {tokens : List Token} {i : Nat} {t : TokenType}
    {r : List TokenType} (h : (kinds tokens).drop i = t :: TOKEN_NAME :: r)
    (ht : t = TOKEN_OUTPUT ∨ t = TOKEN_DOUBLE_OUTPUT) :
    parse_output tokens ⟨i⟩ = (1, ⟨i + 2⟩) := by
  have h1 := (kinds_drop_cons h).2.2
  rcases ht with rfl | rfl <;>
    simp [parse_output, match_token_of_drop h, consume_token_of_drop h, next_kind,
      parse_name_of_name h1]

theorem parse_output_of_other {tokens : List Token} {i : Nat} {pending : List TokenType}
    (h : (kinds tokens).drop i = pending) (hn : next_kind pending ≠ TOKEN_OUTPUT)
    (hn2 : next_kind pending ≠ TOKEN_DOUBLE_OUTPUT) :
    parse_output tokens ⟨i⟩ = (0, ⟨i⟩) := by
  simp [parse_output, match_token_of_drop h, hn, hn2]

/-! ## Parser: every sentence of the grammar is accepted -/

theorem parse_atomic_loop_of_args {tokens : List Token} {a : List TokenType}
    (ha : AtomicArgs a) :
    ∀ (i fuel j : Nat) (post : List TokenType), (kinds tokens).drop i = a ++ post →
      ends_atomic (next_kind post) → a.length < fuel → j = i + a.length →
      parse_atomic_loop tokens fuel ⟨i⟩ = some ⟨j⟩ := by
  induction ha with
  | done =>
    intro i fuel j post h hs hf hj
    obtain ⟨f, rfl⟩ : ∃ f, fuel = f + 1 := ⟨fuel - 1, by simp at hf; omega⟩
    simp only [List.nil_append] at h
    simp at hj; subst hj
    simp [parse_atomic_loop, parse_name_of_other h hs.1, parse_input_of_other h hs.2.1,
      parse_output_of_other h hs.2.2.1 hs.2.2.2]
  | name _ ih =>
    intro i fuel j post h hs hf hj
    obtain ⟨f, rfl⟩ : ∃ f, fuel = f + 1 := ⟨fuel - 1, by simp at hf; omega⟩
    simp only [List.cons_append] at h
    have h1 := (kinds_drop_cons h).2.2
    simp only [List.length_cons] at hf hj
    simp [parse_atomic_loop, parse_name_of_name h]
    exact ih (i + 1) f j post h1 hs (by omega) (by omega)
  | input _ ih =>
    intro i fuel j post h hs hf hj
    obtain ⟨f, rfl⟩ : ∃ f, fuel = f + 1 := ⟨fuel - 1, by simp at hf; omega⟩
    simp only [List.cons_append] at h
    have h2 := (kinds_drop_cons (kinds_drop_cons h).2.2).2.2
    simp only [List.length_cons] at hf hj
    simp [parse_atomic_loop, parse_name_of_other h (by simp [next_kind]),
      parse_input_of_redirect h]
    exact ih (i + 2) f j post h2 hs (by omega) (by omega)
  | output _ ih =>
    intro i fuel j post h hs hf hj
    obtain ⟨f, rfl⟩ : ∃ f, fuel = f + 1 := ⟨fuel - 1, by simp at hf; omega⟩
    simp only [List.cons_append] at h
    have h2 := (kinds_drop_cons (kinds_drop_cons h).2.2).2.2
    simp only [List.length_cons] at hf hj
    simp [parse_atomic_loop, parse_name_of_other h (by simp [next_kind]),
      parse_input_of_other h (by simp [next_kind]), parse_output_of_redirect h (Or.inl rfl)]
    exact ih (i + 2) f j post h2 hs (by omega) (by omega)
  | append _ ih =>
    intro i fuel j post h hs hf hj
    obtain ⟨f, rfl⟩ : ∃ f, fuel = f + 1 := ⟨fuel - 1, by simp at hf; omega⟩
    simp only [List.cons_append] at h
    have h2 := (kinds_drop_cons (kinds_drop_cons h).2.2).2.2
    simp only [List.length_cons] at hf hj
    simp [parse_atomic_loop, parse_name_of_other h (by simp [next_kind]),
      parse_input_of_other h (by simp [next_kind]), parse_output_of_redirect h (Or.inr rfl)]
    exact ih (i + 2) f j post h2 hs (by omega) (by omega)

theorem drop_length_le {tokens : List Token} {i : Nat} {a post : List TokenType}
    (h : (kinds tokens).drop i = a ++ post) : a.length ≤ tokens.length := by
  have h2 := congrArg List.length h
  simp [kinds] at h2
  omega

theorem parse_atomic_of_atomic {tokens : List Token} {a : List TokenType} (ha : Atomic a)
    (i j : Nat) (post : List TokenType) (h : (kinds tokens).drop i = a ++ post)
    (hs : ends_atomic (next_kind post)) (hj : j = i + a.length) :
    parse_atomic tokens ⟨i⟩ = some (1, ⟨j⟩) := by
  cases ha with
  | @mk r hr =>
    have hlen := drop_length_le h
    simp only [List.cons_append] at h
    have h1 := (kinds_drop_cons h).2.2
    simp only [List.length_cons] at hlen hj
    have hl := parse_atomic_loop_of_args hr (i + 1) (tokens.length + 1) j post h1 hs
      (by omega) (by omega)
    simp [parse_atomic, parse_name_of_name h, hl]

theorem atomic_starts_with_name {a : List TokenType} (ha : Atomic a) :
    ∃ r, a = TOKEN_NAME :: r := by
  cases ha with
  | mk _ => exact ⟨_, rfl⟩

theorem cmd_group_starts_with_name {g : List TokenType} (hg : CmdGroup g) :
    ∃ r, g = TOKEN_NAME :: r := by
  cases hg with
  | one ha => exact atomic_starts_with_name ha
  | pipe ha _ =>
    obtain ⟨r, rfl⟩ := atomic_starts_with_name ha
    exact ⟨_, rfl⟩

theorem parse_cmd_group_loop_of_end {tokens : List Token} {i fuel : Nat}
    {post : List TokenType} (h : (kinds tokens).drop i = post)
    (hs : next_kind post ≠ TOKEN_PIPE) (hf : 0 < fuel) :
    parse_cmd_group_loop tokens fuel ⟨i⟩ = some (1, ⟨i⟩) := by
  obtain ⟨f, rfl⟩ : ∃ f, fuel = f + 1 := ⟨fuel - 1, by omega⟩
  simp [parse_cmd_group_loop, match_token_of_drop h, hs]

theorem parse_cmd_group_loop_of_pipes {tokens : List Token} {g : List TokenType}
    (hg : CmdGroup g) :
    ∀ (i fuel j : Nat) (post : List TokenType),
      (kinds tokens).drop i = TOKEN_PIPE :: (g ++ post) →
      ends_group (next_kind post) → g.length + 1 < fuel → j = i + 1 + g.length →
      parse_cmd_group_loop tokens fuel ⟨i⟩ = some (1, ⟨j⟩) := by
  induction hg with
  | @one a ha =>
    intro i fuel j post h hs hf hj
    obtain ⟨f, rfl⟩ : ∃ f, fuel = f + 1 := ⟨fuel - 1, by omega⟩
    have h1 := (kinds_drop_cons h).2.2
    have hp := parse_atomic_of_atomic ha (i + 1) j post h1 hs.1 (by omega)
    have h2 := kinds_drop_append h1
    have hj2 : i + 1 + a.length = j := by omega
    rw [hj2] at h2
    simp [parse_cmd_group_loop, match_token_of_drop h, consume_token_of_drop h, next_kind, hp]
    exact parse_cmd_group_loop_of_end h2 hs.2 (by omega)
  | @pipe a g2 ha _ ih =>
    intro i fuel j post h hs hf hj
    obtain ⟨f, rfl⟩ : ∃ f, fuel = f + 1 := ⟨fuel - 1, by omega⟩
    have h1 := (kinds_drop_cons h).2.2
    simp only [List.append_assoc, List.cons_append] at h1
    have hp := parse_atomic_of_atomic ha (i + 1) (i + 1 + a.length) (TOKEN_PIPE :: (g2 ++ post))
      h1 (by simp [next_kind, ends_atomic]) rfl
    have h2 := kinds_drop_append h1
    simp only [List.length_append, List.length_cons] at hf hj
    simp [parse_cmd_group_loop, match_token_of_drop h, consume_token_of_drop h, next_kind, hp]
    exact ih (i + 1 + a.length) f j post h2 hs (by omega) (by omega)

theorem parse_cmd_group_of_group {tokens : List Token} {g : List TokenType} (hg : CmdGroup g)
    (i j : Nat) (post : List TokenType) (h : (kinds tokens).drop i = g ++ post)
    (hs : ends_group (next_kind post)) (hj : j = i + g.length) :
    parse_cmd_group tokens ⟨i⟩ = some (1, ⟨j⟩) := by
  have hlen := drop_length_le h
  cases hg with
  | one ha =>
    have hp := parse_atomic_of_atomic ha i j post h hs.1 hj
    have h2 := kinds_drop_append h
    rw [← hj] at h2
    simp [parse_cmd_group, hp]
    exact parse_cmd_group_loop_of_end h2 hs.2 (by omega)
  | @pipe a g2 ha hg2 =>
    simp only [List.append_assoc, List.cons_append] at h
    have hp := parse_atomic_of_atomic ha i (i + a.length) (TOKEN_PIPE :: (g2 ++ post))
      h (by simp [next_kind, ends_atomic]) rfl
    have h2 := kinds_drop_append h
    simp only [List.length_append, List.length_cons] at hlen hj
    simp [parse_cmd_group, hp]
    exact parse_cmd_group_loop_of_pipes hg2 (i + a.length) (tokens.length + 1) j post h2 hs
      (by omega) (by omega)

theorem shell_tail_ends_group {r : List TokenType} (hr : ShellTail r) :
    ends_group (next_kind r) := by
  cases hr <;> simp [next_kind, ends_group, ends_atomic]

theorem parse_shell_cmd_loop_of_tail {tokens : List Token} {r : List TokenType}
    (hr : ShellTail r) :
    ∀ (i fuel j : Nat), (kinds tokens).drop i = r → r.length < fuel → j = i + r.length →
      parse_shell_cmd_loop tokens fuel ⟨i⟩ = some (LoopExit.left ⟨j⟩) := by
  induction hr with
  | done =>
    intro i fuel j h hf hj
    obtain ⟨f, rfl⟩ : ∃ f, fuel = f + 1 := ⟨fuel - 1, by simp at hf; omega⟩
    simp at hj; subst hj
    simp [parse_shell_cmd_loop, match_token_of_drop h, next_kind]
  | amp =>
    intro i fuel j h hf hj
    obtain ⟨f, rfl⟩ : ∃ f, fuel = f + 1 := ⟨fuel - 1, by simp at hf; omega⟩
    have h1 := (kinds_drop_cons h).2.2
    simp at hj; subst hj
    simp [parse_shell_cmd_loop, match_token_of_drop h, consume_token_of_drop h,
      match_token_of_drop h1, next_kind]
  | @semi_group g r2 hg hr2 ih =>
    intro i fuel j h hf hj
    obtain ⟨f, rfl⟩ : ∃ f, fuel = f + 1 := ⟨fuel - 1, by simp at hf; omega⟩
    have h1 := (kinds_drop_cons h).2.2
    have hp := parse_cmd_group_of_group hg (i + 1) (i + 1 + g.length) r2 h1
      (shell_tail_ends_group hr2) rfl
    have h2 := kinds_drop_append h1
    obtain ⟨g1, rfl⟩ := cmd_group_starts_with_name hg
    simp only [List.length_append, List.length_cons] at hf hj h2 hp
    simp [parse_shell_cmd_loop, match_token_of_drop h, consume_token_of_drop h,
      match_token_of_drop h1, next_kind, hp]
    exact ih (i + 1 + (g1.length + 1)) f j h2 (by omega) (by omega)
  | @amp_group g r2 hg hr2 ih =>
    intro i fuel j h hf hj
    obtain ⟨f, rfl⟩ : ∃ f, fuel = f + 1 := ⟨fuel - 1, by simp at hf; omega⟩
    have h1 := (kinds_drop_cons h).2.2
    have hp := parse_cmd_group_of_group hg (i + 1) (i + 1 + g.length) r2 h1
      (shell_tail_ends_group hr2) rfl
    have h2 := kinds_drop_append h1
    obtain ⟨g1, rfl⟩ := cmd_group_starts_with_name hg
    simp only [List.length_append, List.length_cons] at hf hj h2 hp
    simp [parse_shell_cmd_loop, match_token_of_drop h, consume_token_of_drop h,
      match_token_of_drop h1, next_kind, hp]
    exact ih (i + 1 + (g1.length + 1)) f j h2 (by omega) (by omega)

theorem parse_of_shell_cmd {tokens : List Token} (h : ShellCmd (kinds tokens)) :
    parse tokens = some 1 := by
  generalize hk : kinds tokens = ks at h
  cases h with
  | @mk g r hg hr =>
    have h0 : (kinds tokens).drop 0 = g ++ r := by simpa using hk
    have hlen : (g ++ r).length = tokens.length := by rw [← hk]; simp [kinds]
    have hp := parse_cmd_group_of_group hg 0 g.length r h0 (shell_tail_ends_group hr)
      (by omega)
    have h2 := kinds_drop_append h0
    simp only [Nat.zero_add] at h2
    have hl := parse_shell_cmd_loop_of_tail hr g.length (tokens.length + 1) tokens.length h2
      (by simp at hlen; omega) (by simp at hlen; omega)
    have h3 : (kinds tokens).drop tokens.length = [] := by
      apply List.drop_eq_nil_of_le; simp [kinds]
    obtain ⟨g1, rfl⟩ := cmd_group_starts_with_name hg
    have hne : tokens.length ≠ 0 := by simp at hlen; omega
    simp only [List.length_cons] at hp hl
    simp [parse, init_parser_state, hne, match_token_of_drop h0, next_kind, parse_shell_cmd,
      hp, hl, match_token_of_drop h3]

/-! ## Parser: what a sentence of the grammar ends with -/

theorem atomic_args_last {r : List TokenType} (hr : AtomicArgs r) :
    r.getLast?.getD TOKEN_NAME = TOKEN_NAME := by
  induction hr with
  | done => rfl
  | name _ ih => simpa [List.getLast?_cons] using ih
  | input _ ih => simpa [List.getLast?_cons] using ih
  | output _ ih => simpa [List.getLast?_cons] using ih
  | append _ ih => simpa [List.getLast?_cons] using ih

theorem atomic_last {a : List TokenType} (ha : Atomic a) : a.getLast? = some TOKEN_NAME := by
  cases ha with
  | mk hr => simpa [List.getLast?_cons] using atomic_args_last hr

theorem cmd_group_last {g : List TokenType} (hg : CmdGroup g) :
    g.getLast? = some TOKEN_NAME := by
  induction hg with
  | one ha => exact atomic_last ha
  | pipe _ _ ih => simp [List.getLast?_cons, ih]

theorem shell_tail_last {r : List TokenType} (hr : ShellTail r) :
    r = [] ∨ r.getLast? = some TOKEN_NAME ∨ r.getLast? = some TOKEN_AMPERSAND := by
  induction hr with
  | done => exact Or.inl rfl
  | amp => exact Or.inr (Or.inr rfl)
  | semi_group hg _ ih =>
    right
    rcases ih with rfl | h | h
    · left; simp [List.getLast?_cons, cmd_group_last hg]
    · left; simp [List.getLast?_cons, h]
    · right; simp [List.getLast?_cons, h]
  | amp_group hg _ ih =>
    right
    rcases ih with rfl | h | h
    · left; simp [List.getLast?_cons, cmd_group_last hg]
    · left; simp [List.getLast?_cons, h]
    · right; simp [List.getLast?_cons, h]

theorem shell_cmd_last {ts : List TokenType} (h : ShellCmd ts) :
    ts.getLast? = some TOKEN_NAME ∨ ts.getLast? = some TOKEN_AMPERSAND := by
  cases h with
  | mk hg hr =>
    rcases shell_tail_last hr with rfl | h | h
    · left; simp [cmd_group_last hg]
    · left; simp [h]
    · right; simp [h]

/-! ## Parser: the claims -/

/-- C1 (evaluation at the failing input): the lexer turns the line `cat <`
into a non-empty token sequence on which `parse` returns 1, and which is not
a sentence of the grammar `shell_cmd`: `parse_input` consumes the `<`, finds
no name and returns 0, and `parse_atomic` reads that 0 as "no more
arguments" and still succeeds. -/
theorem parse_accepts_outside_grammar :
    tokenise "cat <".toList = some line_cat_in ∧ line_cat_in ≠ [] ∧
      parse line_cat_in = some 1 ∧ ¬ ShellCmd (kinds line_cat_in) := by
  refine ⟨by decide, by decide, by decide, ?_⟩
  intro h
  rcases shell_cmd_last h with h1 | h1 <;> revert h1 <;> decide

/-- C2: every token sequence whose kinds form a sentence of
`shell_cmd := cmd_group ((';' | '&') cmd_group)* ('&')?` is accepted:
`parse` returns 1 (and does return). -/
theorem parse_accepts_sentence (tokens : List Token) (h : ShellCmd (kinds tokens)) :
    parse tokens = some 1 :=
  parse_of_shell_cmd h

/-- C2 at `sleep 5 &`, a sentence that ends with a trailing `&`. -/
theorem parse_accepts_sentence_witness :
    ShellCmd (kinds line_sleep_amp) ∧ parse line_sleep_amp = some 1 :=
  have h : ShellCmd (kinds line_sleep_amp) :=
    ShellCmd.mk (CmdGroup.one (Atomic.mk (AtomicArgs.name AtomicArgs.done))) ShellTail.amp
  ⟨h, parse_accepts_sentence line_sleep_amp h⟩

/-- C3 (evaluation at the failing input): the lexer turns the line
`cat < | wc` into a token sequence on which `parse` returns 1, although its
`<` is followed by `|` and not by a name. -/
theorem parse_accepts_redirection_without_name :
    tokenise "cat < | wc".toList = some line_cat_in_pipe_wc ∧
      parse line_cat_in_pipe_wc = some 1 ∧
      redirections_followed_by_name (kinds line_cat_in_pipe_wc) = false := by
  decide

/-- C4 (evaluation at the failing input): the lexer turns the line `a & b |`
into a token sequence on which `parse` returns 1, although its pipe is
followed by the end of the line: after the group `b |` has failed at the end
of the buffer, the separator loop takes the `&` before it for a trailing
`&`. -/
theorem parse_accepts_pipe_without_operand :
    tokenise "a & b |".toList = some line_a_amp_b_pipe ∧
      pipe_without_operand (kinds line_a_amp_b_pipe) = true ∧
      parse line_a_amp_b_pipe = some 1 := by
  decide

/-! ## Parser: the fuel given to the loops is always enough -/

theorem match_token_lt {tokens : List Token} {st : ParserState} {type : TokenType}
    (h : match_token tokens st type = true) (hne : type ≠ TOKEN_END) :
    st.current_token_index < tokens.length := by
  by_contra hc
  simp [match_token, current_token, hc, end_token] at h
  exact hne h.symm

theorem consume_token_left (tokens : List Token) (st : ParserState) :
    tokens_left tokens (consume_token tokens st) ≤ tokens_left tokens st ∧
    (st.current_token_index < tokens.length →
      tokens_left tokens (consume_token tokens st) < tokens_left tokens st) := by
  unfold consume_token tokens_left
  split <;> simp <;> omega

theorem parse_name_left (tokens : List Token) (st : ParserState) :
    tokens_left tokens (parse_name tokens st).2 ≤ tokens_left tokens st ∧
    ((parse_name tokens st).1 ≠ 0 →
      tokens_left tokens (parse_name tokens st).2 < tokens_left tokens st) := by
  unfold parse_name
  split
  · rename_i h
    exact ⟨(consume_token_left tokens st).1,
      fun _ => (consume_token_left tokens st).2 (match_token_lt h (by decide))⟩
  · exact ⟨le_refl _, fun h => absurd rfl h⟩

theorem parse_input_left (tokens : List Token) (st : ParserState) :
    tokens_left tokens (parse_input tokens st).2 ≤ tokens_left tokens st ∧
    ((parse_input tokens st).1 ≠ 0 →
      tokens_left tokens (parse_input tokens st).2 < tokens_left tokens st) := by
  unfold parse_input
  by_cases hm : match_token tokens st TOKEN_INPUT = true
  · rw [if_pos hm]
    have h1 := (consume_token_left tokens st).2 (match_token_lt hm (by decide))
    have h2 := (parse_name_left tokens (consume_token tokens st)).1
    have key : tokens_left tokens (parse_name tokens (consume_token tokens st)).2 <
        tokens_left tokens st := by omega
    simp only []
    split
    · exact ⟨Nat.le_of_lt key, fun _ => key⟩
    · exact ⟨Nat.le_of_lt key, fun h => absurd rfl h⟩
  · rw [if_neg hm]
    exact ⟨le_refl _, fun h => absurd rfl h⟩

theorem parse_output_left (tokens : List Token) (st : ParserState) :
    tokens_left tokens (parse_output tokens st).2 ≤ tokens_left tokens st ∧
    ((parse_output tokens st).1 ≠ 0 →
      tokens_left tokens (parse_output tokens st).2 < tokens_left tokens st) := by
  unfold parse_output
  by_cases hm : (match_token tokens st TOKEN_OUTPUT ||
      match_token tokens st TOKEN_DOUBLE_OUTPUT) = true
  · rw [if_pos hm]
    have hlt : st.current_token_index < tokens.length := by
      rcases Bool.or_eq_true_iff.1 hm with h | h
      · exact match_token_lt h (by decide)
      · exact match_token_lt h (by decide)
    have h1 := (consume_token_left tokens st).2 hlt
    have h2 := (parse_name_left tokens (consume_token tokens st)).1
    have key : tokens_left tokens (parse_name tokens (consume_token tokens st)).2 <
        tokens_left tokens st := by omega
    simp only []
    split
    · exact ⟨Nat.le_of_lt key, fun _ => key⟩
    · exact ⟨Nat.le_of_lt key, fun h => absurd rfl h⟩
  · rw [if_neg hm]
    exact ⟨le_refl _, fun h => absurd rfl h⟩

theorem parse_atomic_loop_total (tokens : List Token) :
    ∀ (fuel : Nat) (st : ParserState), tokens_left tokens st < fuel →
      ∃ st1, parse_atomic_loop tokens fuel st = some st1 ∧
        tokens_left tokens st1 ≤ tokens_left tokens st := by
  intro fuel
  induction fuel with
  | zero => intro st h; omega
  | succ f ih =>
    intro st h
    rw [parse_atomic_loop]
    simp only []
    have n1 := parse_name_left tokens st
    have n2 := parse_input_left tokens (parse_name tokens st).2
    have n3 := parse_output_left tokens (parse_input tokens (parse_name tokens st).2).2
    by_cases hr1 : (parse_name tokens st).1 ≠ 0
    · rw [if_pos hr1]
      have k1 := n1.2 hr1
      obtain ⟨s, e, l⟩ := ih (parse_name tokens st).2 (by omega)
      exact ⟨s, e, by omega⟩
    · rw [if_neg hr1]
      by_cases hr2 : (parse_input tokens (parse_name tokens st).2).1 ≠ 0
      · rw [if_pos hr2]
        have k1 := n1.1
        have k2 := n2.2 hr2
        obtain ⟨s, e, l⟩ := ih (parse_input tokens (parse_name tokens st).2).2 (by omega)
        exact ⟨s, e, by omega⟩
      · rw [if_neg hr2]
        have k1 := n1.1
        have k2 := n2.1
        by_cases hr3 : (parse_output tokens (parse_input tokens (parse_name tokens st).2).2).1 ≠ 0
        · rw [if_pos hr3]
          have k3 := n3.2 hr3
          obtain ⟨s, e, l⟩ := ih (parse_output tokens
            (parse_input tokens (parse_name tokens st).2).2).2 (by omega)
          exact ⟨s, e, by omega⟩
        · rw [if_neg hr3]
          have k3 := n3.1
          exact ⟨_, rfl, by omega⟩

theorem tokens_left_lt_fuel (tokens : List Token) (st : ParserState) :
    tokens_left tokens st < tokens.length + 1 := by
  unfold tokens_left; omega

theorem parse_atomic_total (tokens : List Token) (st : ParserState) :
    ∃ r st1, parse_atomic tokens st = some (r, st1) ∧
      tokens_left tokens st1 ≤ tokens_left tokens st := by
  unfold parse_atomic
  simp only []
  split
  · exact ⟨_, _, rfl, (parse_name_left tokens st).1⟩
  · obtain ⟨s, e, l⟩ := parse_atomic_loop_total tokens (tokens.length + 1)
      (parse_name tokens st).2 (tokens_left_lt_fuel _ _)
    rw [e]
    exact ⟨_, _, rfl, by have := (parse_name_left tokens st).1; omega⟩

theorem parse_cmd_group_loop_total (tokens : List Token) :
    ∀ (fuel : Nat) (st : ParserState), tokens_left tokens st < fuel →
      ∃ r st1, parse_cmd_group_loop tokens fuel st = some (r, st1) ∧
        tokens_left tokens st1 ≤ tokens_left tokens st := by
  intro fuel
  induction fuel with
  | zero => intro st h; omega
  | succ f ih =>
    intro st h
    rw [parse_cmd_group_loop]
    split
    · rename_i hm
      have c := (consume_token_left tokens st).2 (match_token_lt hm (by decide))
      obtain ⟨r, s, e, l⟩ := parse_atomic_total tokens (consume_token tokens st)
      simp only [e]
      split
      · exact ⟨_, _, rfl, by omega⟩
      · obtain ⟨r2, s2, e2, l2⟩ := ih s (by omega)
        exact ⟨r2, s2, e2, by omega⟩
    · exact ⟨_, _, rfl, le_refl _⟩

theorem parse_cmd_group_total (tokens : List Token) (st : ParserState) :
    ∃ r st1, parse_cmd_group tokens st = some (r, st1) ∧
      tokens_left tokens st1 ≤ tokens_left tokens st := by
  unfold parse_cmd_group
  obtain ⟨r, s, e, l⟩ := parse_atomic_total tokens st
  simp only [e]
  split
  · exact ⟨_, _, rfl, l⟩
  · obtain ⟨r2, s2, e2, l2⟩ := parse_cmd_group_loop_total tokens (tokens.length + 1) s
      (tokens_left_lt_fuel _ _)
    exact ⟨r2, s2, e2, by omega⟩

theorem parse_shell_cmd_loop_total (tokens : List Token) :
    ∀ (fuel : Nat) (st : ParserState), tokens_left tokens st < fuel →
      ∃ x, parse_shell_cmd_loop tokens fuel st = some x := by
  intro fuel
  induction fuel with
  | zero => intro st h; omega
  | succ f ih =>
    intro st h
    rw [parse_shell_cmd_loop]
    split
    · rename_i hm
      have hlt : st.current_token_index < tokens.length := by
        rcases Bool.or_eq_true_iff.1 hm with h1 | h1
        · exact match_token_lt h1 (by decide)
        · exact match_token_lt h1 (by decide)
      have c := (consume_token_left tokens st).2 hlt
      simp only []
      split
      · obtain ⟨r, s, e, l⟩ := parse_cmd_group_total tokens (consume_token tokens st)
        simp only [e]
        split
        · split
          · exact ⟨_, rfl⟩
          · exact ⟨_, rfl⟩
        · exact ih s (by omega)
      · exact ⟨_, rfl⟩
    · exact ⟨_, rfl⟩

theorem parse_remaining_loop_total (tokens : List Token) :
    ∀ (fuel : Nat) (st : ParserState), tokens_left tokens st < fuel →
      ∃ st1, parse_remaining_loop tokens fuel st = some st1 := by
  intro fuel
  induction fuel with
  | zero => intro st h; omega
  | succ f ih =>
    intro st h
    rw [parse_remaining_loop]
    split
    · rename_i hm
      have hlt : st.current_token_index < tokens.length := by
        by_contra hc
        simp [match_token, current_token, hc, end_token] at hm
      have c := (consume_token_left tokens st).2 hlt
      exact ih (consume_token tokens st) (by omega)
    · exact ⟨_, rfl⟩

/-- Function `parse` always returns: no loop of the parser runs out of fuel. -/
theorem parse_total (tokens : List Token) : ∃ r, parse tokens = some r := by
  unfold parse
  simp only []
  split
  · exact ⟨_, rfl⟩
  · have hsc : ∃ x, parse_shell_cmd tokens init_parser_state = some x := by
      unfold parse_shell_cmd
      obtain ⟨r, s, e, _⟩ := parse_cmd_group_total tokens init_parser_state
      simp only [e]
      split
      · exact ⟨_, rfl⟩
      · obtain ⟨x, ex⟩ := parse_shell_cmd_loop_total tokens (tokens.length + 1) s
          (tokens_left_lt_fuel _ _)
        rw [ex]
        cases x with
        | returned v st2 => exact ⟨_, rfl⟩
        | left st2 =>
          simp only []
          split <;> exact ⟨_, rfl⟩
    obtain ⟨⟨result, st1⟩, ex⟩ := hsc
    simp only [ex]
    split
    · obtain ⟨s, es⟩ := parse_remaining_loop_total tokens (tokens.length + 1) st1
        (tokens_left_lt_fuel _ _)
      rw [es]
      exact ⟨_, rfl⟩
    · exact ⟨_, rfl⟩

/-! ## Tokeniser: the loop computes the reference tokenisation -/

theorem name_char_iff {c : Char} (hc : c ≠ NUL) :
    (c ≠ NUL ∧ (!isspace c) = true ∧ (!strchr ['<', '|', '>', '&', ';'] c) = true) ↔
      is_name_char c = true := by
  simp [hc, strchr, is_name_char, is_operator_char]
  tauto

theorem name_loop_eq (p : List Char) (h : ∀ c ∈ p, c ≠ NUL) :
    name_loop p = (p.takeWhile is_name_char, p.dropWhile is_name_char) := by
  induction p with
  | nil => rfl
  | cons c rest ih =>
    have hc : c ≠ NUL := h c (List.mem_cons_self _ _)
    have ih2 := ih (fun d hd => h d (List.mem_cons_of_mem _ hd))
    by_cases hn : is_name_char c = true
    · have := (name_char_iff hc).2 hn
      rw [name_loop, if_pos this, ih2]
      simp [List.takeWhile_cons, List.dropWhile_cons, hn]
    · have : ¬ (c ≠ NUL ∧ (!isspace c) = true ∧ (!strchr ['<', '|', '>', '&', ';'] c) = true) :=
        fun hh => hn ((name_char_iff hc).1 hh)
      rw [name_loop, if_neg this]
      simp [List.takeWhile_cons, List.dropWhile_cons, hn]

theorem take_limit_cons (t : Token) (ts : List Token) {count : Nat} (h : count < 1023) :
    t :: ts.take (1023 - (count + 1)) = (t :: ts).take (1023 - count) := by
  have : 1023 - count = (1023 - (count + 1)) + 1 := by omega
  rw [this, List.take_succ_cons]

theorem deref_eq_gt (rest : List Char) : deref rest = '>' ↔ rest.head? = some '>' := by
  cases rest with
  | nil => simp [deref, NUL]
  | cons d r => simp [deref]

theorem tokenise_loop_eq : ∀ (n : Nat) (p : List Char) (fuel count : Nat), p.length ≤ n →
    (∀ c ∈ p, c ≠ NUL) → p.length < fuel →
    tokenise_loop fuel p count = some ((reference_tokens p).take (1023 - count)) := by
  intro n
  induction n with
  | zero =>
    intro p fuel count hlen _ hf
    obtain ⟨f, rfl⟩ : ∃ f, fuel = f + 1 := ⟨fuel - 1, by omega⟩
    have hp : p = [] := List.length_eq_zero.1 (by omega)
    subst hp
    simp [tokenise_loop, deref, reference_tokens]
  | succ n ih =>
    intro p fuel count hlen hnul hf
    obtain ⟨f, rfl⟩ : ∃ f, fuel = f + 1 := ⟨fuel - 1, by omega⟩
    cases p with
    | nil => simp [tokenise_loop, deref, reference_tokens]
    | cons c rest =>
      have hc : c ≠ NUL := hnul c (List.mem_cons_self _ _)
      have hrest : ∀ d ∈ rest, d ≠ NUL := fun d hd => hnul d (List.mem_cons_of_mem _ hd)
      simp only [List.length_cons] at hlen hf
      by_cases hcount : count < 1023
      swap
      · have h0 : 1023 - count = 0 := by omega
        simp [tokenise_loop, hcount, h0]
      have hcond : deref (c :: rest) ≠ NUL ∧ count < 1023 := ⟨by simpa [deref] using hc, hcount⟩
      rw [tokenise_loop, if_pos hcond, reference_tokens]
      simp only [deref, List.headD_cons, List.tail_cons]
      by_cases hs : isspace c = true
      · rw [if_pos hs, if_pos hs]
        exact ih rest f count (by omega) hrest (by omega)
      rw [if_neg hs, if_neg hs]
      by_cases h1 : c = '|'
      · subst h1
        rw [if_pos rfl, if_pos rfl, ih rest f (count + 1) (by omega) hrest (by omega)]
        exact congrArg some (take_limit_cons _ _ hcount)
      rw [if_neg h1, if_neg h1]
      by_cases h2 : c = '<'
      · subst h2
        rw [if_pos rfl, if_pos rfl, ih rest f (count + 1) (by omega) hrest (by omega)]
        exact congrArg some (take_limit_cons _ _ hcount)
      rw [if_neg h2, if_neg h2]
      by_cases h3 : c = '>'
      · subst h3
        rw [if_pos rfl, if_neg (show ¬ '>' = '&' by decide), if_neg (show ¬ '>' = ';' by decide),
          if_pos rfl]
        by_cases h4 : rest.head? = some '>'
        · have h4b : rest.headD NUL = '>' := (deref_eq_gt rest).2 h4
          rw [if_pos h4b, if_pos h4]
          cases rest with
          | nil => simp at h4
          | cons d rest2 =>
            simp at h4; subst h4
            simp only [List.tail_cons, List.drop_succ_cons, List.drop_zero]
            rw [ih rest2 f (count + 1) (by simp at hlen; omega)
              (fun e he => hrest e (List.mem_cons_of_mem _ he)) (by simp at hf; omega)]
            exact congrArg some (take_limit_cons _ _ hcount)
        · have h4b : ¬ rest.headD NUL = '>' := fun hh => h4 ((deref_eq_gt rest).1 hh)
          rw [if_neg h4b, if_neg h4, ih rest f (count + 1) (by omega) hrest (by omega)]
          exact congrArg some (take_limit_cons _ _ hcount)
      rw [if_neg h3]
      by_cases h5 : c = '&'
      · subst h5
        rw [if_pos rfl, if_pos rfl, ih rest f (count + 1) (by omega) hrest (by omega)]
        exact congrArg some (take_limit_cons _ _ hcount)
      rw [if_neg h5, if_neg h5]
      by_cases h6 : c = ';'
      · subst h6
        rw [if_pos rfl, if_pos rfl, ih rest f (count + 1) (by omega) hrest (by omega)]
        exact congrArg some (take_limit_cons _ _ hcount)
      rw [if_neg h6, if_neg h6, if_neg h3]
      have hname : is_name_char c = true := by
        simp [is_name_char, is_operator_char, hs, h1, h2, h3, h5, h6]
      have hnl := name_loop_eq (c :: rest) hnul
      simp only [List.takeWhile_cons, List.dropWhile_cons, hname, if_true] at hnl
      have hdl : (rest.dropWhile is_name_char).length ≤ rest.length :=
        List.Sublist.length_le (List.dropWhile_sublist _)
      simp only [hnl]
      rw [ih (rest.dropWhile is_name_char) f (count + 1) (by omega)
        (fun e he => hrest e ((List.dropWhile_subset _) he)) (by omega)]
      exact congrArg some (take_limit_cons _ _ hcount)

theorem tokenise_eq_take (line : List Char) (h : ∀ c ∈ line, c ≠ NUL) :
    tokenise line = some ((reference_tokens line).take 1023) :=
  tokenise_loop_eq line.length line (line.length + 1) 0 (Nat.le_refl _) h (Nat.lt_succ_self _)

/-! ## Tokeniser: what the reference tokenisation emits -/

theorem reference_tokens_lexemes : ∀ (n : Nat) (p : List Char), p.length ≤ n →
    ∀ t ∈ reference_tokens p, is_lexeme t ∧ ∀ c ∈ t.value, c ∈ p := by
  intro n
  induction n with
  | zero =>
    intro p hlen t ht
    have hp : p = [] := List.length_eq_zero.1 (by omega)
    subst hp
    simp [reference_tokens] at ht
  | succ n ih =>
    intro p hlen t ht
    cases p with
    | nil => simp [reference_tokens] at ht
    | cons c rest =>
      simp only [List.length_cons] at hlen
      have lift : ∀ q : List Char, q.length ≤ n → (∀ d ∈ q, d ∈ rest) → t ∈ reference_tokens q →
          is_lexeme t ∧ ∀ d ∈ t.value, d ∈ c :: rest := by
        intro q hq hsub hmem
        obtain ⟨h1, h2⟩ := ih q hq t hmem
        exact ⟨h1, fun d hd => List.mem_cons_of_mem _ (hsub d (h2 d hd))⟩
      rw [reference_tokens] at ht
      by_cases hs : isspace c = true
      · rw [if_pos hs] at ht
        exact lift rest (by omega) (fun _ h => h) ht
      rw [if_neg hs] at ht
      by_cases h1 : c = '|'
      · rw [if_pos h1] at ht
        rcases List.mem_cons.1 ht with rfl | ht
        · exact ⟨by simp [is_lexeme], by simp [h1]⟩
        · exact lift rest (by omega) (fun _ h => h) ht
      rw [if_neg h1] at ht
      by_cases h2 : c = '<'
      · rw [if_pos h2] at ht
        rcases List.mem_cons.1 ht with rfl | ht
        · exact ⟨by simp [is_lexeme], by simp [h2]⟩
        · exact lift rest (by omega) (fun _ h => h) ht
      rw [if_neg h2] at ht
      by_cases h5 : c = '&'
      · rw [if_pos h5] at ht
        rcases List.mem_cons.1 ht with rfl | ht
        · exact ⟨by simp [is_lexeme], by simp [h5]⟩
        · exact lift rest (by omega) (fun _ h => h) ht
      rw [if_neg h5] at ht
      by_cases h6 : c = ';'
      · rw [if_pos h6] at ht
        rcases List.mem_cons.1 ht with rfl | ht
        · exact ⟨by simp [is_lexeme], by simp [h6]⟩
        · exact lift rest (by omega) (fun _ h => h) ht
      rw [if_neg h6] at ht
      by_cases h3 : c = '>'
      · rw [if_pos h3] at ht
        by_cases h4 : rest.head? = some '>'
        · rw [if_pos h4] at ht
          rcases List.mem_cons.1 ht with rfl | ht
          · refine ⟨by simp [is_lexeme], ?_⟩
            intro d hd
            simp at hd
            simp [hd, h3]
          · exact lift (rest.drop 1) (by simp; omega) (fun _ h => List.mem_of_mem_drop h) ht
        · rw [if_neg h4] at ht
          rcases List.mem_cons.1 ht with rfl | ht
          · exact ⟨by simp [is_lexeme], by simp [h3]⟩
          · exact lift rest (by omega) (fun _ h => h) ht
      rw [if_neg h3] at ht
      have hname : is_name_char c = true := by
        simp [is_name_char, is_operator_char, hs, h1, h2, h3, h5, h6]
      rcases List.mem_cons.1 ht with rfl | ht
      · refine ⟨?_, ?_⟩
        · right; right; right; right; right; right
          refine ⟨rfl, by simp, ?_⟩
          intro d hd
          rcases List.mem_cons.1 hd with rfl | hd
          · exact hname
          · exact (List.mem_takeWhile_imp hd)
        · intro d hd
          rcases List.mem_cons.1 hd with rfl | hd
          · exact List.mem_cons_self _ _
          · exact List.mem_cons_of_mem _ ((List.takeWhile_sublist _).subset hd)
      · exact lift (rest.dropWhile is_name_char)
          (le_trans (List.Sublist.length_le (List.dropWhile_sublist _)) (by omega))
          (fun _ h => (List.dropWhile_subset _) h) ht

/-! ## Tokeniser: joining lexemes with spaces and tokenising again -/

theorem name_char_facts {c : Char} (h : is_name_char c = true) :
    ¬ isspace c = true ∧ c ≠ '|' ∧ c ≠ '<' ∧ c ≠ '>' ∧ c ≠ '&' ∧ c ≠ ';' := by
  refine ⟨fun hs => ?_, fun e => ?_, fun e => ?_, fun e => ?_, fun e => ?_, fun e => ?_⟩
  · simp [is_name_char, hs] at h
  all_goals (subst e; revert h; decide)

theorem takeWhile_name_after {w : List Char} (hw : w = [] ∨ ∃ w2, w = ' ' :: w2) :
    w.takeWhile is_name_char = [] ∧ w.dropWhile is_name_char = w := by
  rcases hw with rfl | ⟨w2, rfl⟩
  · simp
  · have : is_name_char ' ' = false := by decide
    simp [List.takeWhile_cons, List.dropWhile_cons, this]

theorem reference_tokens_lexeme_append {t : Token} (ht : is_lexeme t) {w : List Char}
    (hw : w = [] ∨ ∃ w2, w = ' ' :: w2) :
    reference_tokens (t.value ++ w) = t :: reference_tokens w := by
  have hhead : ¬ w.head? = some '>' := by
    rcases hw with rfl | ⟨w2, rfl⟩ <;> simp
  rcases ht with rfl | rfl | rfl | rfl | rfl | rfl | ⟨hty, hne, hall⟩
  · simp only [List.cons_append, List.nil_append]
    rw [reference_tokens]; simp [show isspace '|' = false by decide]
  · simp only [List.cons_append, List.nil_append]
    rw [reference_tokens]; simp [show isspace '<' = false by decide]
  · simp only [List.cons_append, List.nil_append]
    rw [reference_tokens]; simp [hhead, show isspace '>' = false by decide]
  · simp only [List.cons_append, List.nil_append]
    rw [reference_tokens]; simp [show isspace '>' = false by decide]
  · simp only [List.cons_append, List.nil_append]
    rw [reference_tokens]; simp [show isspace '&' = false by decide]
  · simp only [List.cons_append, List.nil_append]
    rw [reference_tokens]; simp [show isspace ';' = false by decide]
  · obtain ⟨ty, v⟩ := t
    simp only at hty hne hall
    subst hty
    cases v with
    | nil => exact absurd rfl hne
    | cons c v =>
      obtain ⟨f1, f2, f3, f4, f5, f6⟩ := name_char_facts (hall c (List.mem_cons_self _ _))
      have hv : ∀ a ∈ v, is_name_char a = true := fun a ha => hall a (List.mem_cons_of_mem _ ha)
      obtain ⟨g1, g2⟩ := takeWhile_name_after hw
      simp only [List.cons_append]
      rw [reference_tokens, if_neg f1, if_neg f2, if_neg f3, if_neg f5, if_neg f6, if_neg f4,
        List.takeWhile_append_of_pos hv, List.dropWhile_append_of_pos hv, g1, g2,
        List.append_nil]

theorem spaced_values_shape (ts : List Token) :
    spaced_values ts = [] ∨ ∃ w2, spaced_values ts = ' ' :: w2 := by
  cases ts with
  | nil => exact Or.inl rfl
  | cons t ts => exact Or.inr ⟨_, rfl⟩

theorem reference_tokens_spaced (ts : List Token) (h : ∀ t ∈ ts, is_lexeme t) :
    reference_tokens (spaced_values ts) = ts := by
  induction ts with
  | nil => simp [spaced_values, reference_tokens]
  | cons t ts ih =>
    have hsp : isspace ' ' = true := by decide
    rw [spaced_values, reference_tokens, if_pos hsp,
      reference_tokens_lexeme_append (h t (List.mem_cons_self _ _)) (spaced_values_shape ts),
      ih (fun u hu => h u (List.mem_cons_of_mem _ hu))]

theorem reference_tokens_joined (ts : List Token) (h : ∀ t ∈ ts, is_lexeme t) :
    reference_tokens (joined_values ts) = ts := by
  cases ts with
  | nil => simp [joined_values, reference_tokens]
  | cons t ts =>
    rw [joined_values,
      reference_tokens_lexeme_append (h t (List.mem_cons_self _ _)) (spaced_values_shape ts),
      reference_tokens_spaced ts (fun u hu => h u (List.mem_cons_of_mem _ hu))]

theorem mem_spaced_values {ts : List Token} {c : Char} (h : c ∈ spaced_values ts) :
    c = ' ' ∨ ∃ t ∈ ts, c ∈ t.value := by
  induction ts with
  | nil => simp [spaced_values] at h
  | cons t ts ih =>
    simp only [spaced_values, List.mem_cons, List.mem_append] at h
    rcases h with h | h | h
    · exact Or.inl h
    · exact Or.inr ⟨t, List.mem_cons_self _ _, h⟩
    · rcases ih h with h2 | ⟨u, hu, hc⟩
      · exact Or.inl h2
      · exact Or.inr ⟨u, List.mem_cons_of_mem _ hu, hc⟩

theorem mem_joined_values {ts : List Token} {c : Char} (h : c ∈ joined_values ts) :
    c = ' ' ∨ ∃ t ∈ ts, c ∈ t.value := by
  cases ts with
  | nil => simp [joined_values] at h
  | cons t ts =>
    simp only [joined_values, List.mem_append] at h
    rcases h with h | h
    · exact Or.inr ⟨t, List.mem_cons_self _ _, h⟩
    · rcases mem_spaced_values h with h2 | ⟨u, hu, hc⟩
      · exact Or.inl h2
      · exact Or.inr ⟨u, List.mem_cons_of_mem _ hu, hc⟩

theorem tokenise_joined (ts : List Token) (hlex : ∀ t ∈ ts, is_lexeme t)
    (hnul : ∀ t ∈ ts, ∀ c ∈ t.value, c ≠ NUL) (hlen : ts.length ≤ 1023) :
    tokenise (joined_values ts) = some ts := by
  have h0 : ∀ c ∈ joined_values ts, c ≠ NUL := by
    intro c hc
    rcases mem_joined_values hc with rfl | ⟨t, ht, hct⟩
    · decide
    · exact hnul t ht c hct
  rw [tokenise_eq_take _ h0, reference_tokens_joined ts hlex, List.take_of_length_le hlen]

/-! ## Rebuilding a command line: the loops join with single spaces -/

theorem reconstruct_loop_spaced (tokens : List Token) (start_index : Nat) :
    ∀ (turns i : Nat) (command : List Char), start_index < i → i + turns ≤ tokens.length →
      reconstruct_loop tokens start_index turns i command =
        command ++ spaced_values ((tokens.drop i).take turns) := by
  intro turns
  induction turns with
  | zero => intro i command _ _; simp [reconstruct_loop, spaced_values]
  | succ k ih =>
    intro i command hi hlen
    have hlt : i < tokens.length := by omega
    rw [reconstruct_loop, if_pos hi, ih (i + 1) _ (by omega) (by omega),
      List.drop_eq_getElem_cons hlt, List.take_succ_cons, spaced_values,
      List.getD_eq_getElem _ _ hlt]
    simp

theorem reconstruct_loop_joined (tokens : List Token) (start_index turns : Nat)
    (hlen : start_index + turns ≤ tokens.length) :
    reconstruct_loop tokens start_index turns start_index [] =
      joined_values ((tokens.drop start_index).take turns) := by
  cases turns with
  | zero => simp [reconstruct_loop, joined_values]
  | succ k =>
    have hlt : start_index < tokens.length := by omega
    rw [reconstruct_loop, if_neg (Nat.lt_irrefl _),
      reconstruct_loop_spaced tokens start_index k (start_index + 1) _ (by omega) (by omega),
      List.drop_eq_getElem_cons hlt, List.take_succ_cons, joined_values,
      List.getD_eq_getElem _ _ hlt]
    simp

/-! ## Tokeniser: the claims -/

/-- C5: for every input line (a C string) that the parser accepts, the
tokeniser returns tokens such that joining their texts with single spaces,
as `reconstruct_command_from_tokens` does for the whole buffer and
`reconstruct_command_from_segment` for any non-empty range of it, gives a
line that `tokenise` turns back into the same kinds and texts. -/
theorem reconstruct_retokenises (line : List Char) (hnul : ∀ c ∈ line, c ≠ NUL) :
    ∃ tokens, tokenise line = some tokens ∧
      (parse tokens = some 1 →
        (tokens ≠ [] → ∃ command, reconstruct_command_from_tokens tokens = some command ∧
          tokenise command = some tokens) ∧
        (∀ start_index end_index, start_index < end_index → end_index ≤ tokens.length →
          ∃ command,
            reconstruct_command_from_segment tokens start_index end_index = some command ∧
            tokenise command = some ((tokens.drop start_index).take (end_index - start_index)))) := by
  refine ⟨(reference_tokens line).take 1023, tokenise_eq_take line hnul, fun _ => ?_⟩
  have hall : ∀ t ∈ (reference_tokens line).take 1023,
      is_lexeme t ∧ ∀ c ∈ t.value, c ≠ NUL := by
    intro t ht
    obtain ⟨h1, h2⟩ := reference_tokens_lexemes line.length line (Nat.le_refl _) t
      (List.mem_of_mem_take ht)
    exact ⟨h1, fun c hc => hnul c (h2 c hc)⟩
  have hlen : ((reference_tokens line).take 1023).length ≤ 1023 := by
    rw [List.length_take]; exact Nat.min_le_left _ _
  generalize (reference_tokens line).take 1023 = tokens at hall hlen
  constructor
  · intro hne
    have hl : tokens.length ≠ 0 := fun h => hne (List.length_eq_zero.1 h)
    refine ⟨joined_values tokens, ?_, ?_⟩
    · have := reconstruct_loop_joined tokens 0 tokens.length (by omega)
      simp only [List.drop_zero, List.take_length] at this
      simp [reconstruct_command_from_tokens, hl, this]
    · exact tokenise_joined tokens (fun t ht => (hall t ht).1) (fun t ht => (hall t ht).2) hlen
  · intro start_index end_index hlt hle
    have hsub : ∀ t ∈ (tokens.drop start_index).take (end_index - start_index), t ∈ tokens :=
      fun t ht => List.mem_of_mem_drop (List.mem_of_mem_take ht)
    refine ⟨joined_values ((tokens.drop start_index).take (end_index - start_index)), ?_, ?_⟩
    · have := reconstruct_loop_joined tokens start_index (end_index - start_index) (by omega)
      simp [reconstruct_command_from_segment, Nat.not_le.2 hlt, this]
    · apply tokenise_joined
      · exact fun t ht => (hall t (hsub t ht)).1
      · exact fun t ht => (hall t (hsub t ht)).2
      · rw [List.length_take]
        exact le_trans (Nat.min_le_left _ _) (by omega)

/-- C5 at the line `ls >>out | wc`: the parser accepts its five tokens, and
the rebuilt line `ls >> out | wc` tokenises to the same five tokens. -/
theorem reconstruct_retokenises_witness :
    (∀ c ∈ line_ls_append, c ≠ NUL) ∧
    ∃ tokens, tokenise line_ls_append = some tokens ∧ parse tokens = some 1 ∧
      ∃ command, reconstruct_command_from_tokens tokens = some command ∧
        tokenise command = some tokens := by
  have hnul : ∀ c ∈ line_ls_append, c ≠ NUL := by decide
  obtain ⟨tokens, h1, h2⟩ := reconstruct_retokenises line_ls_append hnul
  have h3 : tokenise line_ls_append = some [⟨TOKEN_NAME, ['l', 's']⟩,
      ⟨TOKEN_DOUBLE_OUTPUT, ['>', '>']⟩, ⟨TOKEN_NAME, ['o', 'u', 't']⟩, ⟨TOKEN_PIPE, ['|']⟩,
      ⟨TOKEN_NAME, ['w', 'c']⟩] := by decide
  rw [h3] at h1
  injection h1 with h1
  subst h1
  have hp : parse [⟨TOKEN_NAME, ['l', 's']⟩,
      ⟨TOKEN_DOUBLE_OUTPUT, ['>', '>']⟩, ⟨TOKEN_NAME, ['o', 'u', 't']⟩, ⟨TOKEN_PIPE, ['|']⟩,
      ⟨TOKEN_NAME, ['w', 'c']⟩] = some 1 := by decide
  exact ⟨hnul, _, h3, hp, (h2 hp).1 (by simp)⟩

/-- C6: for every input line (a C string) whose reference tokenisation has
fewer than 1023 tokens, `tokenise` returns exactly the reference
tokenisation, and the buffer holds it followed by the `TOKEN_END`
sentinel. -/
theorem tokenise_refines_reference (line : List Char) (hnul : ∀ c ∈ line, c ≠ NUL)
    (hcount : (reference_tokens line).length < 1023) :
    tokenise line = some (reference_tokens line) ∧
      token_buffer line = some (reference_tokens line ++ [end_token]) := by
  have h := tokenise_eq_take line hnul
  rw [List.take_of_length_le (Nat.le_of_lt hcount)] at h
  exact ⟨h, by simp [token_buffer, h]⟩

/-- C6 at the line `ls >>out | wc`. -/
theorem tokenise_refines_reference_witness :
    (∀ c ∈ line_ls_append, c ≠ NUL) ∧ (reference_tokens line_ls_append).length < 1023 ∧
    tokenise line_ls_append = some (reference_tokens line_ls_append) ∧
      token_buffer line_ls_append = some (reference_tokens line_ls_append ++ [end_token]) := by
  have hnul : ∀ c ∈ line_ls_append, c ≠ NUL := by decide
  have href : reference_tokens line_ls_append = [⟨TOKEN_NAME, ['l', 's']⟩,
      ⟨TOKEN_DOUBLE_OUTPUT, ['>', '>']⟩, ⟨TOKEN_NAME, ['o', 'u', 't']⟩, ⟨TOKEN_PIPE, ['|']⟩,
      ⟨TOKEN_NAME, ['w', 'c']⟩] := by
    simp [line_ls_append, reference_tokens, isspace, is_name_char, is_operator_char]
  have hcount : (reference_tokens line_ls_append).length < 1023 := by
    rw [href]; decide
  exact ⟨hnul, hcount, tokenise_refines_reference line_ls_append hnul hcount⟩

/-! ## Argument vectors: the loops collect the command words -/

theorem execute_command_args_loop_eq (tokens : List Token) :
    ∀ (turns i : Nat) (args : List (List Char)),
      args.length + ((List.range' i turns).filter (is_command_word tokens 0)).length < 255 →
      execute_command_args_loop tokens turns i args =
        args ++ ((List.range' i turns).filter (is_command_word tokens 0)).map
            (fun i => (token_at tokens i).value) := by
  intro turns
  induction turns with
  | zero => intro i args _; simp [execute_command_args_loop]
  | succ k ih =>
    intro i args hlen
    rw [List.range'_succ] at hlen ⊢
    rw [execute_command_args_loop]
    by_cases hn : (token_at tokens i).type = TOKEN_NAME
    · by_cases hr : (decide (i > 0) && is_redirection (token_at tokens (i - 1)).type) = true
      · have hw : is_command_word tokens 0 i = false := by
          simp only [is_command_word, hn, decide_True, Bool.true_and]
          simpa using hr
        rw [if_pos hn]
        simp only [hr, Bool.not_true, Bool.false_eq_true, if_false]
        rw [List.filter_cons_of_neg (by simp [hw])] at hlen ⊢
        exact ih (i + 1) args hlen
      · have hw : is_command_word tokens 0 i = true := by
          simp only [is_command_word, hn, decide_True, Bool.true_and]
          simp only [Bool.not_eq_true] at hr
          have hr3 : (decide (0 < i) && is_redirection (token_at tokens (i - 1)).type) = false := hr
          rw [hr3]; rfl
        simp only [Bool.not_eq_true] at hr
        rw [if_pos hn]
        simp only [hr, Bool.not_false, if_true]
        rw [List.filter_cons_of_pos hw] at hlen ⊢
        simp only [List.length_cons] at hlen
        have hl : ¬ (args ++ [(token_at tokens i).value]).length ≥ 255 := by
          simp only [List.length_append, List.length_singleton]; omega
        rw [if_neg hl, ih (i + 1) _ (by simp only [List.length_append, List.length_singleton]; omega)]
        simp
    · have hw : is_command_word tokens 0 i = false := by
        simp [is_command_word, hn]
      rw [if_neg hn, List.filter_cons_of_neg (by simp [hw])] at *
      exact ih (i + 1) args hlen

theorem execute_command_in_pipeline_args_loop_eq (tokens : List Token) (cmd_start : Nat) :
    ∀ (turns i : Nat) (args : List (List Char)),
      execute_command_in_pipeline_args_loop tokens cmd_start turns i args =
        args ++ ((List.range' i turns).filter (is_command_word tokens cmd_start)).map
            (fun i => (token_at tokens i).value) := by
  intro turns
  induction turns with
  | zero => intro i args; simp [execute_command_in_pipeline_args_loop]
  | succ k ih =>
    intro i args
    rw [List.range'_succ, execute_command_in_pipeline_args_loop]
    by_cases hn : (token_at tokens i).type = TOKEN_NAME
    · by_cases hr : i > cmd_start ∧ is_redirection (token_at tokens (i - 1)).type = true
      · have hw : is_command_word tokens cmd_start i = false := by
          simp only [is_command_word, hn, decide_True, Bool.true_and]
          simp [hr.1, hr.2]
        rw [if_pos hn, if_pos hr, List.filter_cons_of_neg (by simp [hw])]
        exact ih (i + 1) args
      · have hw : is_command_word tokens cmd_start i = true := by
          simp only [is_command_word, hn, decide_True, Bool.true_and]
          simp only [not_and, Bool.not_eq_true] at hr
          by_cases hi : cmd_start < i
          · simp [hi, hr hi]
          · simp [hi]
        rw [if_pos hn, if_neg hr, List.filter_cons_of_pos hw, ih (i + 1)]
        simp
    · have hw : is_command_word tokens cmd_start i = false := by
        simp [is_command_word, hn]
      rw [if_neg hn, List.filter_cons_of_neg (by simp [hw])]
      exact ih (i + 1) args

/-! ## Argument vectors: the claim -/

theorem command_words_mem {tokens : List Token} {start_index end_index : Nat}
    {a : List Char} (h : a ∈ command_words tokens start_index end_index) :
    ∃ i, start_index ≤ i ∧ i < end_index ∧ (token_at tokens i).type = TOKEN_NAME ∧
      (start_index < i → is_redirection (token_at tokens (i - 1)).type = false) ∧
      a = (token_at tokens i).value := by
  unfold command_words at h
  obtain ⟨i, hi, rfl⟩ := List.mem_map.1 h
  obtain ⟨hr, hw⟩ := List.mem_filter.1 hi
  rw [List.mem_range'_1] at hr
  unfold is_command_word at hw
  rw [Bool.and_eq_true] at hw
  refine ⟨i, hr.1, by omega, of_decide_eq_true hw.1, ?_, rfl⟩
  intro hlt
  have h2 := hw.2
  simp only [hlt, decide_True, Bool.true_and, Bool.not_eq_true'] at h2
  exact h2

/-- C7: when the command has fewer than 255 words, the argument vector that
`execute_command` builds for `tokens[0 .. cmd_end)`, and the one that
`execute_command_in_pipeline` builds for `tokens[cmd_start .. cmd_end)`, is
exactly the list of the names of the range, in order, that are not
immediately preceded by `<`, `>` or `>>`; so every argument is the text of
a name of the range that does not follow a redirection operator: no
redirection file name and no operator text is in the vector. -/
theorem exec_args_are_command_words (tokens : List Token) :
    ((command_words tokens 0 (command_end tokens)).length < 255 →
      execute_command_args tokens = command_words tokens 0 (command_end tokens)) ∧
    (∀ cmd_start cmd_end : Nat, (command_words tokens cmd_start cmd_end).length < 255 →
      execute_command_in_pipeline_args tokens cmd_start cmd_end =
        command_words tokens cmd_start cmd_end) ∧
    (∀ (start_index end_index : Nat) (a : List Char),
      a ∈ command_words tokens start_index end_index →
      ∃ i, start_index ≤ i ∧ i < end_index ∧ (token_at tokens i).type = TOKEN_NAME ∧
        (start_index < i → is_redirection (token_at tokens (i - 1)).type = false) ∧
        a = (token_at tokens i).value) := by
  refine ⟨?_, ?_, fun _ _ _ h => command_words_mem h⟩
  · intro h
    have := execute_command_args_loop_eq tokens (command_end tokens) 0 []
      (by simpa [command_words] using h)
    simpa [execute_command_args, command_words] using this
  · intro cmd_start cmd_end _
    have := execute_command_in_pipeline_args_loop_eq tokens cmd_start (cmd_end - cmd_start)
      cmd_start []
    simpa [execute_command_in_pipeline_args, command_words] using this

/-- C7 at `sort -r < in > out`: both paths build the vector `sort`, `-r`. -/
theorem exec_args_are_command_words_witness :
    (command_words line_sort 0 (command_end line_sort)).length < 255 ∧
    execute_command_args line_sort = [['s', 'o', 'r', 't'], ['-', 'r']] ∧
    (command_words line_sort 0 6).length < 255 ∧
    execute_command_in_pipeline_args line_sort 0 6 = [['s', 'o', 'r', 't'], ['-', 'r']] := by
  have h1 : (command_words line_sort 0 (command_end line_sort)).length < 255 := by decide
  have h2 : (command_words line_sort 0 6).length < 255 := by decide
  have e1 := (exec_args_are_command_words line_sort).1 h1
  have e2 := (exec_args_are_command_words line_sort).2.1 0 6 h2
  refine ⟨h1, ?_, h2, ?_⟩
  · rw [e1]; decide
  · rw [e2]; decide

/-! ## Redirections: the loops run the script of the targets -/

theorem token_at_of_drop {tokens : List Token} {i : Nat} {t : TokenType} {r : List TokenType}
    (h : (kinds tokens).drop i = t :: r) :
    (token_at tokens i).type = t ∧ (kinds tokens).drop (i + 1) = r :=
  ⟨(kinds_drop_cons h).2.1, (kinds_drop_cons h).2.2⟩

theorem setup_input_redirection_eq_finish (os : OS) (tokens : List Token)
    (start_index end_index : Nat) (trace : List SysCall) :
    setup_input_redirection os tokens start_index end_index trace =
      redirection_finish os STDIN_FILENO
        (setup_input_redirection_loop os tokens end_index (end_index - start_index + 1)
          start_index (-1) trace) := by
  unfold setup_input_redirection redirection_finish
  rfl

theorem setup_output_redirection_eq_finish (os : OS) (tokens : List Token)
    (start_index end_index : Nat) (trace : List SysCall) :
    setup_output_redirection os tokens start_index end_index trace =
      redirection_finish os STDOUT_FILENO
        (setup_output_redirection_loop os tokens end_index (end_index - start_index + 1)
          start_index (-1) trace) := by
  unfold setup_output_redirection redirection_finish
  rfl

theorem input_targets_skip {tokens : List Token} {i e : Nat} (hlt : i < e)
    (h : (token_at tokens i).type ≠ TOKEN_INPUT) :
    input_targets tokens i e = input_targets tokens (i + 1) e := by
  have e1 : e - i = (e - (i + 1)) + 1 := by omega
  simp only [input_targets, e1, List.range'_succ]
  rw [List.filter_cons_of_neg (by simpa using h)]

theorem input_targets_take {tokens : List Token} {i e : Nat} (hlt : i + 1 < e)
    (h : (token_at tokens i).type = TOKEN_INPUT)
    (h1 : (token_at tokens (i + 1)).type = TOKEN_NAME) :
    input_targets tokens i e =
      ((token_at tokens (i + 1)).value, OpenFlags.O_RDONLY) :: input_targets tokens (i + 2) e := by
  have e1 : e - i = (e - (i + 2)) + 1 + 1 := by omega
  simp only [input_targets, e1, List.range'_succ]
  rw [List.filter_cons_of_pos (by simpa using h),
    List.filter_cons_of_neg (by simp [h1])]
  simp

theorem setup_input_loop_of_args (os : OS) {tokens : List Token} {a : List TokenType}
    (ha : AtomicArgs a) :
    ∀ (i e fuel : Nat) (fd : Int) (trace : List SysCall) (post : List TokenType),
      (kinds tokens).drop i = a ++ post → e = i + a.length → a.length < fuel →
      redirection_finish os STDIN_FILENO
          (setup_input_redirection_loop os tokens e fuel i fd trace) =
        some (redirect_script os STDIN_FILENO (input_targets tokens i e) fd trace) := by
  induction ha with
  | done =>
    intro i e fuel fd trace post _ he hf
    obtain ⟨f, rfl⟩ : ∃ f, fuel = f + 1 := ⟨fuel - 1, by simp at hf; omega⟩
    simp only [List.length_nil, Nat.add_zero] at he
    subst he
    simp only [setup_input_redirection_loop, Nat.lt_irrefl, if_false, input_targets,
      Nat.sub_self, List.range'_zero, List.filter_nil, List.map_nil, redirect_script,
      redirection_finish]
    split <;> rfl
  | @name r _ ih =>
    intro i e fuel fd trace post h he hf
    obtain ⟨f, rfl⟩ : ∃ f, fuel = f + 1 := ⟨fuel - 1, by omega⟩
    simp only [List.cons_append] at h
    obtain ⟨ht, h1⟩ := token_at_of_drop h
    simp only [List.length_cons] at he hf
    have hlt : i < e := by omega
    have hne : (token_at tokens i).type ≠ TOKEN_INPUT := by rw [ht]; decide
    rw [setup_input_redirection_loop, if_pos hlt, if_neg hne, input_targets_skip hlt hne]
    exact ih (i + 1) e f fd trace post h1 (by omega) (by omega)
  | @input r _ ih =>
    intro i e fuel fd trace post h he hf
    obtain ⟨f, rfl⟩ : ∃ f, fuel = f + 1 := ⟨fuel - 1, by omega⟩
    simp only [List.cons_append] at h
    obtain ⟨ht, h1⟩ := token_at_of_drop h
    obtain ⟨ht1, h2⟩ := token_at_of_drop h1
    simp only [List.length_cons] at he hf
    have hlt : i < e := by omega
    have hlt1 : i + 1 < e := by omega
    have hcond : i + 1 < e ∧ (token_at tokens (i + 1)).type = TOKEN_NAME := ⟨hlt1, ht1⟩
    rw [setup_input_redirection_loop, if_pos hlt, if_pos ht, if_pos hcond,
      input_targets_take hlt1 ht ht1, redirect_script]
    simp only []
    generalize (if fd ≠ -1 then trace ++ [SysCall.close fd] else trace) = trace1
    by_cases hd : os.open_result trace1 (token_at tokens (i + 1)).value OpenFlags.O_RDONLY = -1
    · rw [if_pos hd, if_pos hd]; rfl
    · rw [if_neg hd, if_neg hd]
      exact ih (i + 2) e f _ _ post h2 (by omega) (by omega)
  | @output r _ ih =>
    intro i e fuel fd trace post h he hf
    obtain ⟨f, rfl⟩ : ∃ f, fuel = f + 1 := ⟨fuel - 1, by omega⟩
    obtain ⟨f2, rfl⟩ : ∃ f2, f = f2 + 1 := ⟨f - 1, by simp at hf; omega⟩
    simp only [List.cons_append] at h
    obtain ⟨ht, h1⟩ := token_at_of_drop h
    obtain ⟨ht1, h2⟩ := token_at_of_drop h1
    simp only [List.length_cons] at he hf
    have hlt : i < e := by omega
    have hlt1 : i + 1 < e := by omega
    have hne : (token_at tokens i).type ≠ TOKEN_INPUT := by rw [ht]; decide
    have hne1 : (token_at tokens (i + 1)).type ≠ TOKEN_INPUT := by rw [ht1]; decide
    rw [setup_input_redirection_loop, if_pos hlt, if_neg hne,
      setup_input_redirection_loop, if_pos hlt1, if_neg hne1,
      input_targets_skip hlt hne, input_targets_skip hlt1 hne1]
    exact ih (i + 2) e f2 fd trace post h2 (by omega) (by omega)
  | @append r _ ih =>
    intro i e fuel fd trace post h he hf
    obtain ⟨f, rfl⟩ : ∃ f, fuel = f + 1 := ⟨fuel - 1, by omega⟩
    obtain ⟨f2, rfl⟩ : ∃ f2, f = f2 + 1 := ⟨f - 1, by simp at hf; omega⟩
    simp only [List.cons_append] at h
    obtain ⟨ht, h1⟩ := token_at_of_drop h
    obtain ⟨ht1, h2⟩ := token_at_of_drop h1
    simp only [List.length_cons] at he hf
    have hlt : i < e := by omega
    have hlt1 : i + 1 < e := by omega
    have hne : (token_at tokens i).type ≠ TOKEN_INPUT := by rw [ht]; decide
    have hne1 : (token_at tokens (i + 1)).type ≠ TOKEN_INPUT := by rw [ht1]; decide
    rw [setup_input_redirection_loop, if_pos hlt, if_neg hne,
      setup_input_redirection_loop, if_pos hlt1, if_neg hne1,
      input_targets_skip hlt hne, input_targets_skip hlt1 hne1]
    exact ih (i + 2) e f2 fd trace post h2 (by omega) (by omega)

theorem output_targets_skip {tokens : List Token} {i e : Nat} (hlt : i < e)
    (h : ¬ ((token_at tokens i).type = TOKEN_OUTPUT ∨
      (token_at tokens i).type = TOKEN_DOUBLE_OUTPUT)) :
    output_targets tokens i e = output_targets tokens (i + 1) e := by
  have e1 : e - i = (e - (i + 1)) + 1 := by omega
  simp only [output_targets, e1, List.range'_succ]
  rw [List.filter_cons_of_neg (by simpa using h)]

theorem output_targets_take {tokens : List Token} {i e : Nat} (hlt : i + 1 < e)
    (h : (token_at tokens i).type = TOKEN_OUTPUT ∨
      (token_at tokens i).type = TOKEN_DOUBLE_OUTPUT)
    (h1 : (token_at tokens (i + 1)).type = TOKEN_NAME) :
    output_targets tokens i e =
      ((token_at tokens (i + 1)).value, output_flags_of (token_at tokens i).type) ::
        output_targets tokens (i + 2) e := by
  have e1 : e - i = (e - (i + 2)) + 1 + 1 := by omega
  simp only [output_targets, e1, List.range'_succ]
  rw [List.filter_cons_of_pos (by simpa using h),
    List.filter_cons_of_neg (by simp [h1])]
  simp

theorem setup_output_loop_of_args (os : OS) {tokens : List Token} {a : List TokenType}
    (ha : AtomicArgs a) :
    ∀ (i e fuel : Nat) (fd : Int) (trace : List SysCall) (post : List TokenType),
      (kinds tokens).drop i = a ++ post → e = i + a.length → a.length < fuel →
      redirection_finish os STDOUT_FILENO
          (setup_output_redirection_loop os tokens e fuel i fd trace) =
        some (redirect_script os STDOUT_FILENO (output_targets tokens i e) fd trace) := by
  induction ha with
  | done =>
    intro i e fuel fd trace post _ he hf
    obtain ⟨f, rfl⟩ : ∃ f, fuel = f + 1 := ⟨fuel - 1, by simp at hf; omega⟩
    simp only [List.length_nil, Nat.add_zero] at he
    subst he
    simp only [setup_output_redirection_loop, Nat.lt_irrefl, if_false, output_targets,
      Nat.sub_self, List.range'_zero, List.filter_nil, List.map_nil, redirect_script,
      redirection_finish]
    split <;> rfl
  | @name r _ ih =>
    intro i e fuel fd trace post h he hf
    obtain ⟨f, rfl⟩ : ∃ f, fuel = f + 1 := ⟨fuel - 1, by omega⟩
    simp only [List.cons_append] at h
    obtain ⟨ht, h1⟩ := token_at_of_drop h
    simp only [List.length_cons] at he hf
    have hlt : i < e := by omega
    have hne : ¬ ((token_at tokens i).type = TOKEN_OUTPUT ∨
        (token_at tokens i).type = TOKEN_DOUBLE_OUTPUT) := by rw [ht]; decide
    rw [setup_output_redirection_loop, if_pos hlt, if_neg hne, output_targets_skip hlt hne]
    exact ih (i + 1) e f fd trace post h1 (by omega) (by omega)
  | @input r _ ih =>
    intro i e fuel fd trace post h he hf
    obtain ⟨f, rfl⟩ : ∃ f, fuel = f + 1 := ⟨fuel - 1, by omega⟩
    obtain ⟨f2, rfl⟩ : ∃ f2, f = f2 + 1 := ⟨f - 1, by simp at hf; omega⟩
    simp only [List.cons_append] at h
    obtain ⟨ht, h1⟩ := token_at_of_drop h
    obtain ⟨ht1, h2⟩ := token_at_of_drop h1
    simp only [List.length_cons] at he hf
    have hlt : i < e := by omega
    have hlt1 : i + 1 < e := by omega
    have hne : ¬ ((token_at tokens i).type = TOKEN_OUTPUT ∨
        (token_at tokens i).type = TOKEN_DOUBLE_OUTPUT) := by rw [ht]; decide
    have hne1 : ¬ ((token_at tokens (i + 1)).type = TOKEN_OUTPUT ∨
        (token_at tokens (i + 1)).type = TOKEN_DOUBLE_OUTPUT) := by rw [ht1]; decide
    rw [setup_output_redirection_loop, if_pos hlt, if_neg hne,
      setup_output_redirection_loop, if_pos hlt1, if_neg hne1,
      output_targets_skip hlt hne, output_targets_skip hlt1 hne1]
    exact ih (i + 2) e f2 fd trace post h2 (by omega) (by omega)
  | @output r _ ih =>
    intro i e fuel fd trace post h he hf
    obtain ⟨f, rfl⟩ : ∃ f, fuel = f + 1 := ⟨fuel - 1, by omega⟩
    simp only [List.cons_append] at h
    obtain ⟨ht, h1⟩ := token_at_of_drop h
    obtain ⟨ht1, h2⟩ := token_at_of_drop h1
    simp only [List.length_cons] at he hf
    have hlt : i < e := by omega
    have hlt1 : i + 1 < e := by omega
    have hop : (token_at tokens i).type = TOKEN_OUTPUT ∨
        (token_at tokens i).type = TOKEN_DOUBLE_OUTPUT := Or.inl ht
    have hcond : i + 1 < e ∧ (token_at tokens (i + 1)).type = TOKEN_NAME := ⟨hlt1, ht1⟩
    rw [setup_output_redirection_loop, if_pos hlt, if_pos hop, if_pos hcond,
      output_targets_take hlt1 hop ht1, redirect_script]
    simp only [output_flags_of]
    generalize (if fd ≠ -1 then trace ++ [SysCall.close fd] else trace) = trace1
    generalize (if (token_at tokens i).type = TOKEN_OUTPUT then
      OpenFlags.O_WRONLY_O_CREAT_O_TRUNC else OpenFlags.O_WRONLY_O_CREAT_O_APPEND) = flags
    by_cases hd : os.open_result trace1 (token_at tokens (i + 1)).value flags = -1
    · rw [if_pos hd, if_pos hd]; rfl
    · rw [if_neg hd, if_neg hd]
      exact ih (i + 2) e f _ _ post h2 (by omega) (by omega)
  | @append r _ ih =>
    intro i e fuel fd trace post h he hf
    obtain ⟨f, rfl⟩ : ∃ f, fuel = f + 1 := ⟨fuel - 1, by omega⟩
    simp only [List.cons_append] at h
    obtain ⟨ht, h1⟩ := token_at_of_drop h
    obtain ⟨ht1, h2⟩ := token_at_of_drop h1
    simp only [List.length_cons] at he hf
    have hlt : i < e := by omega
    have hlt1 : i + 1 < e := by omega
    have hop : (token_at tokens i).type = TOKEN_OUTPUT ∨
        (token_at tokens i).type = TOKEN_DOUBLE_OUTPUT := Or.inr ht
    have hcond : i + 1 < e ∧ (token_at tokens (i + 1)).type = TOKEN_NAME := ⟨hlt1, ht1⟩
    rw [setup_output_redirection_loop, if_pos hlt, if_pos hop, if_pos hcond,
      output_targets_take hlt1 hop ht1, redirect_script]
    simp only [output_flags_of]
    generalize (if fd ≠ -1 then trace ++ [SysCall.close fd] else trace) = trace1
    generalize (if (token_at tokens i).type = TOKEN_OUTPUT then
      OpenFlags.O_WRONLY_O_CREAT_O_TRUNC else OpenFlags.O_WRONLY_O_CREAT_O_APPEND) = flags
    by_cases hd : os.open_result trace1 (token_at tokens (i + 1)).value flags = -1
    · rw [if_pos hd, if_pos hd]; rfl
    · rw [if_neg hd, if_neg hd]
      exact ih (i + 2) e f _ _ post h2 (by omega) (by omega)

theorem segment_kinds_split {tokens : List Token} {start_index end_index : Nat}
    {a : List TokenType} (ha : segment_kinds tokens start_index end_index = a)
    (hne : a ≠ []) (hle : end_index ≤ tokens.length) :
    (kinds tokens).drop start_index = a ++ (kinds tokens).drop end_index ∧
      end_index = start_index + a.length := by
  have hlt : start_index < end_index := by
    by_contra hc
    have h0 : end_index - start_index = 0 := by omega
    rw [segment_kinds, h0, List.take_zero] at ha
    exact hne ha.symm
  have hlen : a.length = end_index - start_index := by
    rw [← ha, segment_kinds, List.length_take, List.length_drop]
    simp only [kinds, List.length_map]
    omega
  refine ⟨?_, by omega⟩
  have e1 : start_index + (end_index - start_index) = end_index := by omega
  conv_lhs => rw [← List.take_append_drop (end_index - start_index)
    ((kinds tokens).drop start_index)]
  rw [List.drop_drop, e1]
  rw [← ha, segment_kinds]

theorem setup_input_redirection_of_atomic (os : OS) {tokens : List Token}
    {start_index end_index : Nat} (ha : Atomic (segment_kinds tokens start_index end_index))
    (hle : end_index ≤ tokens.length) (trace : List SysCall) :
    setup_input_redirection os tokens start_index end_index trace =
      some (redirect_script os STDIN_FILENO (input_targets tokens start_index end_index)
        (-1) trace) := by
  generalize hk : segment_kinds tokens start_index end_index = a at ha
  cases ha with
  | @mk r hr =>
    obtain ⟨hd, he⟩ := segment_kinds_split hk (by simp) hle
    simp only [List.cons_append] at hd
    obtain ⟨ht, h1⟩ := token_at_of_drop hd
    simp only [List.length_cons] at he
    have hlt : start_index < end_index := by omega
    have hne : (token_at tokens start_index).type ≠ TOKEN_INPUT := by rw [ht]; decide
    have hf : end_index - start_index + 1 = (r.length + 1) + 1 := by omega
    rw [setup_input_redirection_eq_finish, hf, setup_input_redirection_loop, if_pos hlt,
      if_neg hne, input_targets_skip hlt hne]
    exact setup_input_loop_of_args os hr (start_index + 1) end_index (r.length + 1) (-1) trace
      _ h1 (by omega) (by omega)

theorem setup_output_redirection_of_atomic (os : OS) {tokens : List Token}
    {start_index end_index : Nat} (ha : Atomic (segment_kinds tokens start_index end_index))
    (hle : end_index ≤ tokens.length) (trace : List SysCall) :
    setup_output_redirection os tokens start_index end_index trace =
      some (redirect_script os STDOUT_FILENO (output_targets tokens start_index end_index)
        (-1) trace) := by
  generalize hk : segment_kinds tokens start_index end_index = a at ha
  cases ha with
  | @mk r hr =>
    obtain ⟨hd, he⟩ := segment_kinds_split hk (by simp) hle
    simp only [List.cons_append] at hd
    obtain ⟨ht, h1⟩ := token_at_of_drop hd
    simp only [List.length_cons] at he
    have hlt : start_index < end_index := by omega
    have hne : ¬ ((token_at tokens start_index).type = TOKEN_OUTPUT ∨
        (token_at tokens start_index).type = TOKEN_DOUBLE_OUTPUT) := by rw [ht]; decide
    have hf : end_index - start_index + 1 = (r.length + 1) + 1 := by omega
    rw [setup_output_redirection_eq_finish, hf, setup_output_redirection_loop, if_pos hlt,
      if_neg hne, output_targets_skip hlt hne]
    exact setup_output_loop_of_args os hr (start_index + 1) end_index (r.length + 1) (-1) trace
      _ h1 (by omega) (by omega)

/-! ## Redirections: the script when every target opens -/

theorem open_chain_cons_cons (t : List Char × OpenFlags) (d : Int)
    (p : (List Char × OpenFlags) × Int) (rest : List ((List Char × OpenFlags) × Int)) :
    open_chain ((t, d) :: p :: rest) =
      SysCall.open_call t.1 t.2 d :: SysCall.close d :: open_chain (p :: rest) := by
  rfl

theorem redirect_script_success (os : OS) (std_fd : Int) :
    ∀ (targets : List (List Char × OpenFlags)) (fd : Int) (trace : List SysCall),
      targets ≠ [] → (∀ tr, ∀ t ∈ targets, os.open_result tr t.1 t.2 ≠ -1) →
      ∃ (fds : List Int) (last r : Int), fds.length + 1 = targets.length ∧
        (∀ d ∈ fds ++ [last], d ≠ -1) ∧
        redirect_script os std_fd targets fd trace =
          (if r = -1 then -1 else 0,
            (if fd ≠ -1 then trace ++ [SysCall.close fd] else trace) ++
              open_chain (targets.zip (fds ++ [last])) ++
              [SysCall.dup2 last std_fd r, SysCall.close last]) := by
  intro targets
  induction targets with
  | nil => intro fd trace h; exact absurd rfl h
  | cons t rest ih =>
    intro fd trace _ hopen
    obtain ⟨pathname, flags⟩ := t
    generalize htr : (if fd ≠ -1 then trace ++ [SysCall.close fd] else trace) = trace1
    have hd : os.open_result trace1 pathname flags ≠ -1 :=
      hopen trace1 (pathname, flags) (List.mem_cons_self _ _)
    generalize hdv : os.open_result trace1 pathname flags = d at hd
    cases rest with
    | nil =>
      refine ⟨[], d, os.dup2_result (trace1 ++ [SysCall.open_call pathname flags d]) d std_fd,
        rfl, by simpa using hd, ?_⟩
      rw [redirect_script]
      simp only [htr, hdv, if_neg hd, redirect_script, ne_eq, not_false_eq_true, if_true,
        List.nil_append, List.zip_cons_cons, List.zip_nil_right, open_chain, List.append_assoc]
      rw [if_pos hd]
    | cons t2 rest2 =>
      obtain ⟨fds, last, r, hlen, hall, hscript⟩ :=
        ih d (trace1 ++ [SysCall.open_call pathname flags d]) (by simp)
          (fun tr t ht => hopen tr t (List.mem_cons_of_mem _ ht))
      refine ⟨d :: fds, last, r, by simp only [List.length_cons] at hlen ⊢; omega, ?_, ?_⟩
      · intro x hx
        rcases List.mem_cons.1 hx with rfl | hx
        · exact hd
        · exact hall x hx
      · rw [redirect_script]
        simp only [htr, hdv, if_neg hd, hscript, ne_eq, not_false_eq_true, if_true]
        have hz : ∃ p zs, (t2 :: rest2).zip (fds ++ [last]) = p :: zs := by
          cases fds with
          | nil => exact ⟨_, _, rfl⟩
          | cons d2 fds2 => exact ⟨_, _, rfl⟩
        obtain ⟨p, zs, hz⟩ := hz
        simp only [List.cons_append, List.zip_cons_cons, hz, open_chain_cons_cons,
          List.append_assoc, List.singleton_append]
        rw [if_pos hd]
        simp

/-! ## Redirections: the claim -/

/-- C8: for every atomic command `tokens[start_index .. end_index)` with at
least one redirection of a kind, all of whose targets open,
`setup_input_redirection` (resp. `setup_output_redirection`) makes exactly
these calls: `open` of each target once, left to right, the descriptor of
each target but the last closed before the next `open`, then `dup2` of the
last descriptor onto standard input (resp. output) and its `close`.  Each
output target is opened with the flags of its own operator (`output_targets`
pairs a target with `output_flags_of` of the operator before it). -/
theorem redirections_open_in_order (os : OS) (tokens : List Token)
    (start_index end_index : Nat) (trace : List SysCall)
    (ha : Atomic (segment_kinds tokens start_index end_index))
    (hle : end_index ≤ tokens.length) :
    (input_targets tokens start_index end_index ≠ [] →
      (∀ tr, ∀ t ∈ input_targets tokens start_index end_index,
        os.open_result tr t.1 t.2 ≠ -1) →
      ∃ (fds : List Int) (last r : Int),
        fds.length + 1 = (input_targets tokens start_index end_index).length ∧
        (∀ d ∈ fds ++ [last], d ≠ -1) ∧
        setup_input_redirection os tokens start_index end_index trace =
          some (if r = -1 then -1 else 0,
            trace ++ open_chain ((input_targets tokens start_index end_index).zip
                (fds ++ [last])) ++
              [SysCall.dup2 last STDIN_FILENO r, SysCall.close last])) ∧
    (output_targets tokens start_index end_index ≠ [] →
      (∀ tr, ∀ t ∈ output_targets tokens start_index end_index,
        os.open_result tr t.1 t.2 ≠ -1) →
      ∃ (fds : List Int) (last r : Int),
        fds.length + 1 = (output_targets tokens start_index end_index).length ∧
        (∀ d ∈ fds ++ [last], d ≠ -1) ∧
        setup_output_redirection os tokens start_index end_index trace =
          some (if r = -1 then -1 else 0,
            trace ++ open_chain ((output_targets tokens start_index end_index).zip
                (fds ++ [last])) ++
              [SysCall.dup2 last STDOUT_FILENO r, SysCall.close last])) := by
  constructor
  · intro hne hopen
    obtain ⟨fds, last, r, h1, h2, h3⟩ :=
      redirect_script_success os STDIN_FILENO _ (-1) trace hne hopen
    refine ⟨fds, last, r, h1, h2, ?_⟩
    rw [setup_input_redirection_of_atomic os ha hle trace, h3]
    simp
  · intro hne hopen
    obtain ⟨fds, last, r, h1, h2, h3⟩ :=
      redirect_script_success os STDOUT_FILENO _ (-1) trace hne hopen
    refine ⟨fds, last, r, h1, h2, ?_⟩
    rw [setup_output_redirection_of_atomic os ha hle trace, h3]
    simp

/-- C8 at `cat < a < b > c >> d` with every `open` returning descriptor 3:
the two runs have the shape the theorem gives, with `a` opened and closed
and `b` installed on standard input, `c` opened with truncation and closed
and `d` opened for appending and installed on standard output. -/
theorem redirections_open_in_order_witness :
    Atomic (segment_kinds line_two_each 0 9) ∧ 9 ≤ line_two_each.length ∧
    input_targets line_two_each 0 9 = [(['a'], OpenFlags.O_RDONLY), (['b'], OpenFlags.O_RDONLY)] ∧
    output_targets line_two_each 0 9 = [(['c'], OpenFlags.O_WRONLY_O_CREAT_O_TRUNC),
      (['d'], OpenFlags.O_WRONLY_O_CREAT_O_APPEND)] ∧
    (∃ (fds : List Int) (last r : Int),
      fds.length + 1 = (input_targets line_two_each 0 9).length ∧
      (∀ d ∈ fds ++ [last], d ≠ -1) ∧
      setup_input_redirection os_all_succeed line_two_each 0 9 [] =
        some (if r = -1 then -1 else 0,
          [] ++ open_chain ((input_targets line_two_each 0 9).zip (fds ++ [last])) ++
            [SysCall.dup2 last STDIN_FILENO r, SysCall.close last])) ∧
    (∃ (fds : List Int) (last r : Int),
      fds.length + 1 = (output_targets line_two_each 0 9).length ∧
      (∀ d ∈ fds ++ [last], d ≠ -1) ∧
      setup_output_redirection os_all_succeed line_two_each 0 9 [] =
        some (if r = -1 then -1 else 0,
          [] ++ open_chain ((output_targets line_two_each 0 9).zip (fds ++ [last])) ++
            [SysCall.dup2 last STDOUT_FILENO r, SysCall.close last])) := by
  have ha : Atomic (segment_kinds line_two_each 0 9) :=
    Atomic.mk (AtomicArgs.input (AtomicArgs.input (AtomicArgs.output
      (AtomicArgs.append AtomicArgs.done))))
  have hle : 9 ≤ line_two_each.length := by decide
  have h1 : input_targets line_two_each 0 9 ≠ [] := by decide
  have h2 : output_targets line_two_each 0 9 ≠ [] := by decide
  have hok : ∀ (ts : List (List Char × OpenFlags)) (tr : List SysCall), ∀ t ∈ ts,
      os_all_succeed.open_result tr t.1 t.2 ≠ -1 := by
    intro ts tr t _
    show (3 : Int) ≠ -1
    decide
  have key := redirections_open_in_order os_all_succeed line_two_each 0 9 [] ha hle
  exact ⟨ha, hle, by decide, by decide, key.1 h1 (hok _), key.2 h2 (hok _)⟩

/-! ## Redirections: the order of the opens in a child -/

theorem opened_paths_append (a b : List SysCall) :
    opened_paths (a ++ b) = opened_paths a ++ opened_paths b := by
  simp [opened_paths, List.filterMap_append]

theorem redirect_script_paths (os : OS) (std_fd : Int) :
    ∀ (targets : List (List Char × OpenFlags)) (fd : Int) (trace : List SysCall),
      ∃ l, opened_paths (redirect_script os std_fd targets fd trace).2 =
          opened_paths trace ++ l ∧ l <+: target_paths targets ∧
        ((redirect_script os std_fd targets fd trace).1 ≠ -1 → l = target_paths targets) := by
  intro targets
  induction targets with
  | nil =>
    intro fd trace
    refine ⟨[], ?_, List.prefix_refl _, fun _ => rfl⟩
    rw [redirect_script]
    split
    · show opened_paths (trace ++ [_, _]) = _
      rw [opened_paths_append]
      rfl
    · exact (List.append_nil _).symm
  | cons t rest ih =>
    intro fd trace
    obtain ⟨pathname, flags⟩ := t
    rw [redirect_script]
    have htr : opened_paths (if fd ≠ -1 then trace ++ [SysCall.close fd] else trace) =
        opened_paths trace := by
      split
      · simp [opened_paths_append, opened_paths]
      · rfl
    generalize (if fd ≠ -1 then trace ++ [SysCall.close fd] else trace) = trace1 at htr ⊢
    by_cases hd : os.open_result trace1 pathname flags = -1
    · rw [if_pos hd]
      refine ⟨[pathname], ?_, ?_, fun h => absurd rfl h⟩
      · show opened_paths (trace1 ++ [_]) = _
        rw [opened_paths_append, htr]
        rfl
      · simp [target_paths]
    · rw [if_neg hd]
      obtain ⟨l, h1, h2, h3⟩ := ih (os.open_result trace1 pathname flags)
        (trace1 ++ [SysCall.open_call pathname flags (os.open_result trace1 pathname flags)])
      refine ⟨pathname :: l, ?_, ?_, ?_⟩
      · rw [h1, opened_paths_append, htr, List.append_assoc]
        rfl
      · simpa [target_paths] using h2
      · intro h
        rw [h3 h]
        simp [target_paths]

theorem run_two_scripts_paths (os : OS) (std_a : Int) (targets_a : List (List Char × OpenFlags))
    (std_b : Int) (targets_b : List (List Char × OpenFlags)) (trace : List SysCall)
    (final : ChildStep) :
    ∃ l, opened_paths (run_two_scripts os std_a targets_a std_b targets_b trace final).2 =
        opened_paths trace ++ l ∧
      l <+: target_paths targets_a ++ target_paths targets_b ∧
      ((run_two_scripts os std_a targets_a std_b targets_b trace final).1 ≠ ChildStep.exits 1 →
        l = target_paths targets_a ++ target_paths targets_b) := by
  obtain ⟨la, a1, a2, a3⟩ := redirect_script_paths os std_a targets_a (-1) trace
  unfold run_two_scripts
  simp only []
  by_cases ha : (redirect_script os std_a targets_a (-1) trace).1 = -1
  · rw [if_pos ha]
    exact ⟨la, a1, List.IsPrefix.trans a2 (List.prefix_append _ _), fun h => absurd rfl h⟩
  · rw [if_neg ha]
    obtain ⟨lb, b1, b2, b3⟩ := redirect_script_paths os std_b targets_b (-1)
      (redirect_script os std_a targets_a (-1) trace).2
    have hla := a3 ha
    subst hla
    by_cases hb : (redirect_script os std_b targets_b (-1)
        (redirect_script os std_a targets_a (-1) trace).2).1 = -1
    · rw [if_pos hb]
      refine ⟨target_paths targets_a ++ lb, ?_, ?_, fun h => absurd rfl h⟩
      · rw [b1, a1, List.append_assoc]
      · exact (List.prefix_append_right_inj _).2 b2
    · rw [if_neg hb]
      refine ⟨target_paths targets_a ++ lb, ?_, ?_, fun _ => ?_⟩
      · rw [b1, a1, List.append_assoc]
      · exact (List.prefix_append_right_inj _).2 b2
      · rw [b3 hb]

theorem command_end_loop_le (tokens : List Token) :
    ∀ (turns i : Nat), i + turns = tokens.length →
      command_end_loop tokens turns i ≤ tokens.length := by
  intro turns
  induction turns with
  | zero => intro i _; simp [command_end_loop]
  | succ k ih =>
    intro i h
    rw [command_end_loop]
    split
    · omega
    · exact ih (i + 1) (by omega)

theorem command_end_le (tokens : List Token) : command_end tokens ≤ tokens.length :=
  command_end_loop_le tokens tokens.length 0 (by omega)

theorem execute_command_child_eq (os : OS) {tokens : List Token}
    (ha : Atomic (segment_kinds tokens 0 (command_end tokens))) (trace : List SysCall) :
    execute_command_child os tokens trace =
      some (run_two_scripts os STDIN_FILENO (input_targets tokens 0 (command_end tokens))
        STDOUT_FILENO (output_targets tokens 0 (command_end tokens))
        (trace ++ [SysCall.setpgid 0 0]) (ChildStep.execvp (execute_command_args tokens))) := by
  unfold execute_command_child run_two_scripts
  simp only [setup_input_redirection_of_atomic os ha (command_end_le tokens),
    setup_output_redirection_of_atomic os ha (command_end_le tokens)]
  split <;> [rfl; (split <;> rfl)]

theorem opened_paths_stdin_from_dev_null (os : OS) (trace : List SysCall) :
    opened_paths (stdin_from_dev_null os trace) = opened_paths trace ++ [dev_null] := by
  unfold stdin_from_dev_null
  simp only []
  split <;> simp [opened_paths_append, opened_paths]

theorem execute_background_command_child_eq (os : OS) {tokens : List Token}
    {start_index end_index : Nat} (ha : Atomic (segment_kinds tokens start_index end_index))
    (hle : end_index ≤ tokens.length) (trace : List SysCall) :
    execute_background_command_child os tokens start_index end_index trace =
      some (run_two_scripts os STDOUT_FILENO (output_targets tokens start_index end_index)
        STDIN_FILENO (input_targets tokens start_index end_index)
        (stdin_from_dev_null os trace)
        (ChildStep.execvp (execute_background_command_args tokens start_index end_index))) := by
  unfold execute_background_command_child run_two_scripts
  simp only [setup_input_redirection_of_atomic os ha hle,
    setup_output_redirection_of_atomic os ha hle]
  split <;> [rfl; (split <;> rfl)]

theorem execute_command_in_pipeline_paths (os : OS) {tokens : List Token}
    {cmd_start cmd_end : Nat} (ha : Atomic (segment_kinds tokens cmd_start cmd_end))
    (hle : cmd_end ≤ tokens.length) (pipe_in pipe_out : Int) :
    ∃ step trace,
      execute_command_in_pipeline os tokens cmd_start cmd_end pipe_in pipe_out [] =
        some (step, trace) ∧
      opened_paths trace <+: pipeline_dev_null tokens cmd_start cmd_end pipe_in ++
        (target_paths (input_targets tokens cmd_start cmd_end) ++
          target_paths (output_targets tokens cmd_start cmd_end)) ∧
      (step ≠ ChildStep.exits 1 →
        opened_paths trace = pipeline_dev_null tokens cmd_start cmd_end pipe_in ++
          (target_paths (input_targets tokens cmd_start cmd_end) ++
            target_paths (output_targets tokens cmd_start cmd_end))) := by
  unfold execute_command_in_pipeline
  simp only []
  by_cases hargs : (execute_command_in_pipeline_args tokens cmd_start cmd_end).length = 0
  · rw [if_pos hargs]
    exact ⟨_, _, rfl, List.nil_prefix, fun h => absurd rfl h⟩
  rw [if_neg hargs]
  by_cases hin : pipe_in ≠ -1 ∧ os.dup2_result [] pipe_in STDIN_FILENO = -1
  · rw [if_pos hin]
    exact ⟨_, _, rfl, List.nil_prefix, fun h => absurd rfl h⟩
  rw [if_neg hin]
  generalize htr1 : (if pipe_in ≠ -1 then
      ([] : List SysCall) ++ [SysCall.dup2 pipe_in STDIN_FILENO
        (os.dup2_result [] pipe_in STDIN_FILENO), SysCall.close pipe_in]
    else if expects_input (execute_command_in_pipeline_args tokens cmd_start cmd_end) = true then
      stdin_from_dev_null os []
    else []) = trace1
  have h1 : opened_paths trace1 = pipeline_dev_null tokens cmd_start cmd_end pipe_in := by
    rw [← htr1]
    unfold pipeline_dev_null
    by_cases hp : pipe_in ≠ -1
    · rw [if_pos hp, if_neg (fun h => hp h.1)]
      rfl
    · rw [if_neg hp]
      have hp2 : pipe_in = -1 := not_not.1 hp
      by_cases he : expects_input
          (execute_command_in_pipeline_args tokens cmd_start cmd_end) = true
      · rw [if_pos he, if_pos ⟨hp2, he⟩, opened_paths_stdin_from_dev_null]
        rfl
      · rw [if_neg he, if_neg (fun h => he h.2)]
        rfl
  by_cases hout : pipe_out ≠ -1 ∧ os.dup2_result trace1 pipe_out STDOUT_FILENO = -1
  · rw [if_pos hout]
    refine ⟨_, _, rfl, ?_, fun h => absurd rfl h⟩
    rw [opened_paths_append, h1]
    show _ ++ [] <+: _
    rw [List.append_nil]
    exact List.prefix_append _ _
  rw [if_neg hout]
  generalize htr2 : (if pipe_out ≠ -1 then
      trace1 ++ [SysCall.dup2 pipe_out STDOUT_FILENO
        (os.dup2_result trace1 pipe_out STDOUT_FILENO), SysCall.close pipe_out]
    else trace1) = trace2
  have h2 : opened_paths trace2 = pipeline_dev_null tokens cmd_start cmd_end pipe_in := by
    rw [← htr2]
    split
    · rw [opened_paths_append, h1]
      exact List.append_nil _
    · exact h1
  obtain ⟨l, p1, p2, p3⟩ := run_two_scripts_paths os STDIN_FILENO
    (input_targets tokens cmd_start cmd_end) STDOUT_FILENO
    (output_targets tokens cmd_start cmd_end) trace2
    (pipeline_final (execute_command_in_pipeline_args tokens cmd_start cmd_end))
  refine ⟨(run_two_scripts os STDIN_FILENO (input_targets tokens cmd_start cmd_end)
      STDOUT_FILENO (output_targets tokens cmd_start cmd_end) trace2
      (pipeline_final (execute_command_in_pipeline_args tokens cmd_start cmd_end))).1,
    (run_two_scripts os STDIN_FILENO (input_targets tokens cmd_start cmd_end)
      STDOUT_FILENO (output_targets tokens cmd_start cmd_end) trace2
      (pipeline_final (execute_command_in_pipeline_args tokens cmd_start cmd_end))).2, ?_, ?_, ?_⟩
  · show _ = some (run_two_scripts os STDIN_FILENO (input_targets tokens cmd_start cmd_end)
      STDOUT_FILENO (output_targets tokens cmd_start cmd_end) trace2
      (pipeline_final (execute_command_in_pipeline_args tokens cmd_start cmd_end)))
    unfold run_two_scripts
    simp only [setup_input_redirection_of_atomic os ha hle,
      setup_output_redirection_of_atomic os ha hle]
    split <;> [rfl; (split <;> rfl)]
  · rw [p1, h2]
    exact (List.prefix_append_right_inj _).2 p2
  · intro h
    rw [p1, h2, p3 h]

/-! ## Redirections: the order claim -/

/-- C9 (counterexample): for `cmd > out < in`, with every `open`
succeeding, the foreground child opens `in` first and `out` second, which is
not the left-to-right order `out`, `in` of the operators. -/
theorem foreground_opens_inputs_first :
    (execute_command_child os_all_succeed line_out_then_in []).map
        (fun r => opened_paths r.2) = some [['i', 'n'], ['o', 'u', 't']] ∧
    redirection_paths line_out_then_in 0 (command_end line_out_then_in) =
      [['o', 'u', 't'], ['i', 'n']] ∧
    ¬ ((execute_command_child os_all_succeed line_out_then_in []).map
        (fun r => opened_paths r.2) =
      some (redirection_paths line_out_then_in 0 (command_end line_out_then_in))) := by
  decide

/-- C9 (amended): for every atomic command `tokens[start_index ..
end_index)` the children attempt the redirection targets kind by kind.  The
foreground child (`execute_command`, for a buffer whose command is that
range) and the pipeline-stage child (`execute_command_in_pipeline`) open
the input targets left to right and then the output targets left to right;
the background child (`execute_background_command`) opens `/dev/null`, then
the output targets left to right, then the input targets left to right.
The opens made are always an initial part of that sequence, and all of it
unless the child ends with `exit(1)`. -/
theorem redirections_open_by_kind (os : OS) (tokens : List Token)
    (start_index end_index : Nat) (ha : Atomic (segment_kinds tokens start_index end_index))
    (hle : end_index ≤ tokens.length) :
    (start_index = 0 → end_index = command_end tokens →
      ∃ step trace, execute_command_child os tokens [] = some (step, trace) ∧
        opened_paths trace <+: target_paths (input_targets tokens start_index end_index) ++
          target_paths (output_targets tokens start_index end_index) ∧
        (step ≠ ChildStep.exits 1 →
          opened_paths trace = target_paths (input_targets tokens start_index end_index) ++
            target_paths (output_targets tokens start_index end_index))) ∧
    (∀ pipe_in pipe_out : Int,
      ∃ step trace,
        execute_command_in_pipeline os tokens start_index end_index pipe_in pipe_out [] =
          some (step, trace) ∧
        opened_paths trace <+: pipeline_dev_null tokens start_index end_index pipe_in ++
          (target_paths (input_targets tokens start_index end_index) ++
            target_paths (output_targets tokens start_index end_index)) ∧
        (step ≠ ChildStep.exits 1 →
          opened_paths trace = pipeline_dev_null tokens start_index end_index pipe_in ++
            (target_paths (input_targets tokens start_index end_index) ++
              target_paths (output_targets tokens start_index end_index)))) ∧
    (∃ step trace,
      execute_background_command_child os tokens start_index end_index [] =
        some (step, trace) ∧
      opened_paths trace <+: [dev_null] ++
        (target_paths (output_targets tokens start_index end_index) ++
          target_paths (input_targets tokens start_index end_index)) ∧
      (step ≠ ChildStep.exits 1 →
        opened_paths trace = [dev_null] ++
          (target_paths (output_targets tokens start_index end_index) ++
            target_paths (input_targets tokens start_index end_index)))) := by
  refine ⟨?_, ?_, ?_⟩
  · intro hs he
    subst hs
    subst he
    obtain ⟨l, p1, p2, p3⟩ := run_two_scripts_paths os STDIN_FILENO
      (input_targets tokens 0 (command_end tokens)) STDOUT_FILENO
      (output_targets tokens 0 (command_end tokens)) ([] ++ [SysCall.setpgid 0 0])
      (ChildStep.execvp (execute_command_args tokens))
    have heq := execute_command_child_eq os ha []
    generalize run_two_scripts os STDIN_FILENO
      (input_targets tokens 0 (command_end tokens)) STDOUT_FILENO
      (output_targets tokens 0 (command_end tokens)) ([] ++ [SysCall.setpgid 0 0])
      (ChildStep.execvp (execute_command_args tokens)) = x at heq p1 p3
    have hp : opened_paths ([] ++ [SysCall.setpgid 0 0]) ++ l = l := rfl
    rw [hp] at p1
    refine ⟨x.1, x.2, heq, ?_, ?_⟩
    · rw [p1]; exact p2
    · intro h; rw [p1, p3 h]
  · intro pipe_in pipe_out
    exact execute_command_in_pipeline_paths os ha hle pipe_in pipe_out
  · obtain ⟨l, p1, p2, p3⟩ := run_two_scripts_paths os STDOUT_FILENO
      (output_targets tokens start_index end_index) STDIN_FILENO
      (input_targets tokens start_index end_index) (stdin_from_dev_null os [])
      (ChildStep.execvp (execute_background_command_args tokens start_index end_index))
    have heq := execute_background_command_child_eq os ha hle []
    generalize run_two_scripts os STDOUT_FILENO
      (output_targets tokens start_index end_index) STDIN_FILENO
      (input_targets tokens start_index end_index) (stdin_from_dev_null os [])
      (ChildStep.execvp (execute_background_command_args tokens start_index end_index)) = x
      at heq p1 p3
    rw [opened_paths_stdin_from_dev_null] at p1
    have hp : opened_paths [] ++ [dev_null] = [dev_null] := rfl
    rw [hp] at p1
    refine ⟨x.1, x.2, heq, ?_, ?_⟩
    · rw [p1]; exact (List.prefix_append_right_inj _).2 p2
    · intro h; rw [p1, p3 h]

/-- C9 (amended) at `cmd > out < in`: the three children of that command
open its targets in the order the theorem gives. -/
theorem redirections_open_by_kind_witness :
    Atomic (segment_kinds line_out_then_in 0 5) ∧ 5 ≤ line_out_then_in.length ∧
    (0 : Nat) = 0 ∧ 5 = command_end line_out_then_in ∧
    target_paths (input_targets line_out_then_in 0 5) = [['i', 'n']] ∧
    target_paths (output_targets line_out_then_in 0 5) = [['o', 'u', 't']] ∧
    (∃ step trace, execute_command_child os_all_succeed line_out_then_in [] = some (step, trace) ∧
      opened_paths trace <+: target_paths (input_targets line_out_then_in 0 5) ++
        target_paths (output_targets line_out_then_in 0 5) ∧
      (step ≠ ChildStep.exits 1 →
        opened_paths trace = target_paths (input_targets line_out_then_in 0 5) ++
          target_paths (output_targets line_out_then_in 0 5))) ∧
    (∃ step trace,
      execute_background_command_child os_all_succeed line_out_then_in 0 5 [] =
        some (step, trace) ∧
      opened_paths trace <+: [dev_null] ++
        (target_paths (output_targets line_out_then_in 0 5) ++
          target_paths (input_targets line_out_then_in 0 5)) ∧
      (step ≠ ChildStep.exits 1 →
        opened_paths trace = [dev_null] ++
          (target_paths (output_targets line_out_then_in 0 5) ++
            target_paths (input_targets line_out_then_in 0 5)))) := by
  have ha : Atomic (segment_kinds line_out_then_in 0 5) :=
    Atomic.mk (AtomicArgs.output (AtomicArgs.input AtomicArgs.done))
  have hle : 5 ≤ line_out_then_in.length := by decide
  have he : 5 = command_end line_out_then_in := by decide
  have key := redirections_open_by_kind os_all_succeed line_out_then_in 0 5 ha hle
  exact ⟨ha, hle, rfl, he, by decide, by decide, key.1 rfl he, key.2.2⟩

/-! ## Job table: the invariant is kept by every operation -/

theorem int32_of_small {x : Int} (h0 : 0 ≤ x) (h1 : x < 2147483648) : int32 x = x := by
  unfold int32
  omega

theorem job_table_inv_mono {t : JobTable} {n m : Int} (h : job_table_inv t n) (hnm : n ≤ m) :
    job_table_inv t m :=
  ⟨h.1, by have := h.2.1; omega, h.2.2.1, h.2.2.2⟩

theorem job_table_inv_cleanup {t : JobTable} {n : Int} (h : job_table_inv t n)
    (job_index : Int) : job_table_inv (cleanup_background_job job_index t) n := by
  unfold cleanup_background_job
  split
  · obtain ⟨h1, h2, h3, h4⟩ := h
    refine ⟨h1, h2, ?_, ?_⟩
    · intro i hi
      simp only [Function.update_apply] at hi ⊢
      by_cases e : i = job_index.toNat
      · simp [e, empty_job] at hi
      · simp only [e, if_false] at hi ⊢
        exact h3 i hi
    · intro i j hij hi hj
      simp only [Function.update_apply] at hi hj ⊢
      by_cases e : i = job_index.toNat
      · simp [e, empty_job] at hi
      · by_cases e2 : j = job_index.toNat
        · simp [e2, empty_job] at hj
        · simp only [e, e2, if_false] at hi hj ⊢
          exact h4 i j hij hi hj
  · exact h

theorem job_table_inv_set_state {t : JobTable} {n : Int} (h : job_table_inv t n)
    (k : Nat) (s : ProcessState) :
    job_table_inv ⟨Function.update t.background_jobs k
      { t.background_jobs k with state := s }, t.next_job_number⟩ n := by
  obtain ⟨h1, h2, h3, h4⟩ := h
  have key : ∀ i, (Function.update t.background_jobs k
      { t.background_jobs k with state := s } i).is_active = (t.background_jobs i).is_active ∧
      (Function.update t.background_jobs k
      { t.background_jobs k with state := s } i).job_number =
        (t.background_jobs i).job_number := by
    intro i
    simp only [Function.update_apply]
    by_cases e : i = k
    · simp [e]
    · simp [e]
  refine ⟨h1, h2, ?_, ?_⟩
  · intro i hi
    simp only [(key i).1, (key i).2] at hi ⊢
    exact h3 i hi
  · intro i j hij hi hj
    simp only [(key i).1, (key i).2, (key j).1, (key j).2] at hi hj ⊢
    exact h4 i j hij hi hj

theorem add_job_loop_spec (pid : Int) (command : List Char) (state : ProcessState)
    {t : JobTable} {n : Int} (h : job_table_inv t n) (hn : n + 1 < 2147483647) :
    ∀ (turns i : Nat),
      job_table_inv (add_job_loop pid command state t turns i).2 (n + 1) ∧
      t.next_job_number ≤ (add_job_loop pid command state t turns i).2.next_job_number ∧
      ((add_job_loop pid command state t turns i).1 ≠ -1 →
        t.next_job_number ≤ (add_job_loop pid command state t turns i).1 ∧
        (add_job_loop pid command state t turns i).1 <
          (add_job_loop pid command state t turns i).2.next_job_number) := by
  intro turns
  induction turns with
  | zero =>
    intro i
    exact ⟨job_table_inv_mono h (by omega), le_refl _, fun hne => absurd rfl hne⟩
  | succ k ih =>
    intro i
    rw [add_job_loop]
    split
    · rename_i hfree
      obtain ⟨h1, h2, h3, h4⟩ := h
      have hw : int32 (t.next_job_number + 1) = t.next_job_number + 1 :=
        int32_of_small (by omega) (by omega)
      simp only [hw]
      refine ⟨⟨by dsimp only; omega, by dsimp only; omega, ?_, ?_⟩, by omega,
        fun _ => ⟨le_refl _, by omega⟩⟩
      · intro j hj
        dsimp only at hj ⊢
        simp only [Function.update_apply] at hj ⊢
        by_cases e : j = i
        · simp only [e, if_true, new_job]
          omega
        · simp only [e, if_false] at hj ⊢
          have := h3 j hj
          omega
      · intro a b hab ha hb
        dsimp only at ha hb ⊢
        simp only [Function.update_apply] at ha hb ⊢
        by_cases ea : a = i
        · by_cases eb : b = i
          · exact absurd (ea.trans eb.symm) hab
          · simp only [ea, eb, if_true, if_false, new_job] at hb ⊢
            have := h3 b hb
            omega
        · by_cases eb : b = i
          · simp only [ea, eb, if_true, if_false, new_job] at ha ⊢
            have := h3 a ha
            omega
          · simp only [ea, eb, if_false] at ha hb ⊢
            exact h4 a b hab ha hb
    · exact ih (i + 1)

theorem check_background_jobs_loop_spec (wait : Nat → WaitStatus) :
    ∀ (turns i : Nat) (t : JobTable) (n : Int), job_table_inv t n →
      job_table_inv (check_background_jobs_loop wait turns i t) n ∧
      (check_background_jobs_loop wait turns i t).next_job_number = t.next_job_number := by
  intro turns
  induction turns with
  | zero => intro i t n h; exact ⟨h, rfl⟩
  | succ k ih =>
    intro i t n h
    rw [check_background_jobs_loop]
    simp only []
    have hstep : ∀ t1 : JobTable, job_table_inv t1 n → t1.next_job_number = t.next_job_number →
        job_table_inv (check_background_jobs_loop wait k (i + 1) t1) n ∧
        (check_background_jobs_loop wait k (i + 1) t1).next_job_number = t.next_job_number := by
      intro t1 h1 e1
      obtain ⟨a, b⟩ := ih (i + 1) t1 n h1
      exact ⟨a, b.trans e1⟩
    have hc : ∀ x : Int, (cleanup_background_job x t).next_job_number = t.next_job_number := by
      intro x; unfold cleanup_background_job; split <;> rfl
    split
    · split
      · exact hstep _ (job_table_inv_set_state h i _) rfl
      · exact hstep _ (job_table_inv_cleanup h _) (hc _)
      · exact hstep _ (job_table_inv_cleanup h _) (hc _)
      · exact hstep _ (job_table_inv_cleanup h _) (hc _)
      · exact hstep _ h rfl
    · exact hstep _ h rfl

theorem op_result_ok_add (pid : Int) (command : List Char) (state : ProcessState)
    {t : JobTable} {n : Int} (h : job_table_inv t n) (hn : n + 1 < 2147483647) :
    op_result_ok t n
      (some (add_job_loop pid command state t MAX_BACKGROUND_JOBS 0).1,
        (add_job_loop pid command state t MAX_BACKGROUND_JOBS 0).2) := by
  obtain ⟨a, b, c⟩ := add_job_loop_spec pid command state h hn MAX_BACKGROUND_JOBS 0
  refine ⟨a, b, ?_⟩
  intro v hv hne
  simp only [Option.some.injEq] at hv
  subst hv
  exact c hne

theorem op_result_ok_none {t t1 : JobTable} {n : Int} (h : job_table_inv t1 n)
    (he : t1.next_job_number = t.next_job_number) : op_result_ok t n (none, t1) :=
  ⟨job_table_inv_mono h (by omega), by rw [he], fun v hv => by simp at hv⟩

theorem op_result_ok_cleanup {t : JobTable} {n : Int} {r : Option Int × JobTable}
    (h : op_result_ok t n r) (job_index : Int) :
    op_result_ok t n (r.1, cleanup_background_job job_index r.2) := by
  have hc : (cleanup_background_job job_index r.2).next_job_number = r.2.next_job_number := by
    unfold cleanup_background_job; split <;> rfl
  refine ⟨job_table_inv_cleanup h.1 _, by rw [hc]; exact h.2.1, ?_⟩
  intro v hv hne
  rw [hc]
  exact h.2.2 v hv hne

theorem op_result_ok_set_state {t : JobTable} {n : Int} {r : Option Int × JobTable}
    (h : op_result_ok t n r) (k : Nat) (s : ProcessState) :
    op_result_ok t n (r.1, ⟨Function.update r.2.background_jobs k
      { r.2.background_jobs k with state := s }, r.2.next_job_number⟩) :=
  ⟨job_table_inv_set_state h.1 k s, h.2.1, h.2.2⟩

theorem op_result_ok_apply (op : JobOp) {t : JobTable} {n : Int} (h : job_table_inv t n)
    (hn : n + 1 < 2147483647) : op_result_ok t n (op.apply t) := by
  have hsame : op_result_ok t n (none, t) := op_result_ok_none h rfl
  cases op with
  | add_background pid command => exact op_result_ok_add pid command _ h hn
  | add_stopped pid command => exact op_result_ok_add pid command _ h hn
  | cleanup job_index =>
    exact op_result_ok_cleanup hsame job_index
  | reap wait =>
    obtain ⟨a, b⟩ := check_background_jobs_loop_spec wait MAX_BACKGROUND_JOBS 0 t n h
    exact op_result_ok_none a b
  | fg tokens kill_result sigtstp wait =>
    show op_result_ok t n (execute_fg tokens kill_result sigtstp wait t)
    unfold execute_fg
    simp only []
    split
    · exact hsame
    · split
      · exact hsame
      · have hh : op_result_ok t n
            (if sigtstp = true then
              sigtstp_handler (t.background_jobs (select_job tokens t).toNat).pid
                ((t.background_jobs (select_job tokens t).toNat).command.take
                  (MAX_PATH_LEN - 1)) t
            else (none, t)) := by
          split
          · unfold sigtstp_handler
            split
            · exact op_result_ok_add _ _ _ h hn
            · exact hsame
          · exact hsame
        split
        · exact hh
        · exact hh
        · exact op_result_ok_cleanup hh _
        · exact op_result_ok_cleanup hh _
        · exact op_result_ok_set_state hh _ _
  | bg tokens kill_result =>
    show op_result_ok t n (none, execute_bg tokens kill_result t)
    unfold execute_bg
    simp only []
    split
    · exact hsame
    · split
      · exact hsame
      · split
        · exact hsame
        · exact op_result_ok_set_state hsame _ _

theorem run_job_ops_spec : ∀ (ops : List JobOp) (t : JobTable) (n : Int),
    job_table_inv t n → n + ops.length < 2147483647 →
    (∀ v ∈ (run_job_ops ops t).1, t.next_job_number ≤ v) ∧
    (run_job_ops ops t).1.Pairwise (fun a b => a < b) ∧
    job_table_inv (run_job_ops ops t).2 (n + ops.length) := by
  intro ops
  induction ops with
  | nil =>
    intro t n h _
    simp only [run_job_ops, List.length_nil, Nat.cast_zero, add_zero]
    exact ⟨fun v hv => by simp at hv, List.Pairwise.nil, h⟩
  | cons op ops ih =>
    intro t n h hn
    simp only [List.length_cons, Nat.cast_add, Nat.cast_one] at hn ⊢
    obtain ⟨a, b, c⟩ := op_result_ok_apply op h (by omega)
    obtain ⟨i1, i2, i3⟩ := ih (op.apply t).2 (n + 1) a (by omega)
    have e : n + 1 + (ops.length : Int) = n + (ops.length + 1) := by omega
    rw [e] at i3
    have hrest : ∀ v ∈ (run_job_ops ops (op.apply t).2).1, t.next_job_number ≤ v :=
      fun v hv => le_trans b (i1 v hv)
    rw [run_job_ops]
    simp only []
    refine ⟨?_, ?_, i3⟩
    · split
      · rename_i v hv
        split
        · exact hrest
        · rename_i hne
          intro w hw
          rcases List.mem_cons.1 hw with rfl | hw
          · exact (c w hv hne).1
          · exact hrest w hw
      · exact hrest
    · split
      · rename_i v hv
        split
        · exact i2
        · rename_i hne
          refine List.Pairwise.cons ?_ i2
          intro w hw
          exact lt_of_lt_of_le (c v hv hne).2 (i1 w hw)
      · exact i2

theorem job_table_inv_init : job_table_inv init_background_jobs 0 := by
  refine ⟨by decide, by decide, ?_, ?_⟩
  · intro i hi
    exact absurd rfl hi
  · intro i j _ hi
    exact absurd rfl hi

/-! ## Job table: the claim -/

/-- C10: over any sequence of job-table operations after
`init_background_jobs` (slot allocation by `add_background_job` and
`add_stopped_job`, `cleanup_background_job`, reap passes, `fg`, `bg`) that
is short enough for the `int` counter not to overflow, the job numbers
returned by the successful allocations are strictly increasing, each greater
than every one returned before it, and no two active slots of the final
table hold the same job number. -/
theorem job_numbers_strictly_increase (ops : List JobOp) (h : ops.length < 2147483647) :
    (run_job_ops ops init_background_jobs).1.Pairwise (fun a b => a < b) ∧
    (∀ i j : Nat, i < MAX_BACKGROUND_JOBS → j < MAX_BACKGROUND_JOBS → i ≠ j →
      ((run_job_ops ops init_background_jobs).2.background_jobs i).is_active ≠ 0 →
      ((run_job_ops ops init_background_jobs).2.background_jobs j).is_active ≠ 0 →
      ((run_job_ops ops init_background_jobs).2.background_jobs i).job_number ≠
        ((run_job_ops ops init_background_jobs).2.background_jobs j).job_number) := by
  obtain ⟨_, h2, h3⟩ := run_job_ops_spec ops init_background_jobs 0 job_table_inv_init
    (by omega)
  exact ⟨h2, fun i j _ _ hij hi hj => h3.2.2.2 i j hij hi hj⟩

set_option maxRecDepth 20000 in
/-- C10 at a session in which slots 0, 1 and 2 are freed and reused: the
numbers handed out are 1, 2, 3, 4, 5, 6. -/
theorem job_numbers_strictly_increase_witness :
    sample_job_ops.length < 2147483647 ∧
    (run_job_ops sample_job_ops init_background_jobs).1 = [1, 2, 3, 4, 5, 6] ∧
    (run_job_ops sample_job_ops init_background_jobs).1.Pairwise (fun a b => a < b) := by
  have h : sample_job_ops.length < 2147483647 := by decide
  exact ⟨h, by decide, (job_numbers_strictly_increase sample_job_ops h).1⟩


/-! ## History store: the invariant of the ring -/

theorem fgets_loop_length (n : Nat) (stream : List Char) :
    (fgets_loop n stream).1.length ≤ n := by
  induction n generalizing stream with
  | zero => simp [fgets_loop]
  | succ n ih =>
    cases stream with
    | nil => simp [fgets_loop]
    | cons c rest =>
      unfold fgets_loop
      by_cases hc : c = '\n'
      · simp [hc]
      · simp only [if_neg hc, List.length_cons]
        have := ih rest
        omega

theorem strip_newline_length (line : List Char) :
    (strip_newline line).length ≤ line.length :=
  (List.takeWhile_sublist _).length_le

theorem load_log_loop_inv (fuel : Nat) : ∀ (stream : List Char) (st st1 : LogState),
    load_log_loop fuel stream st = some st1 → st.log_start = 0 →
    st.log_count ≤ MAX_LOG_ENTRIES →
    (∀ i, (st.command_log i).length ≤ MAX_COMMAND_LEN - 1) → log_inv st1 := by
  induction fuel with
  | zero => intro stream st st1 h; simp [load_log_loop] at h
  | succ fuel ih =>
    intro stream st st1 h hs hc hl
    unfold load_log_loop at h
    cases hf : fgets MAX_COMMAND_LEN stream with
    | none =>
      rw [hf] at h
      simp only [Option.some.injEq] at h
      subst h
      exact ⟨hc, by rw [hs]; decide, fun _ => hs, hl⟩
    | some p =>
      obtain ⟨line, rest⟩ := p
      rw [hf] at h
      simp only at h
      by_cases hlt : st.log_count < MAX_LOG_ENTRIES
      · rw [if_pos hlt] at h
        by_cases hne : (strip_newline line).length > 0
        · rw [if_pos hne] at h
          refine ih _ _ _ h hs (by simpa using hlt) ?_
          intro i
          simp only [Function.update_apply]
          split
          · have h1 := strip_newline_length line
            have h2 : line.length ≤ MAX_COMMAND_LEN - 1 := by
              unfold fgets at hf
              split at hf
              · cases hf
              · simp only [Option.some.injEq] at hf
                have := fgets_loop_length (MAX_COMMAND_LEN - 1) stream
                rw [hf] at this
                exact this
            omega
          · exact hl i
        · rw [if_neg hne] at h
          exact ih _ _ _ h hs hc hl
      · rw [if_neg hlt] at h
        simp only [Option.some.injEq] at h
        subst h
        exact ⟨hc, by rw [hs]; decide, fun _ => hs, hl⟩

theorem log_inv_add {st : LogState} (h : log_inv st) (command : List Char) :
    log_inv (add_command_to_log st command).1 := by
  obtain ⟨h1, h2, h3, h4⟩ := h
  unfold add_command_to_log
  by_cases hs : should_log_command st command = true
  · simp only [hs, Bool.not_true, Bool.false_eq_true, if_false]
    have hlen : ∀ (f : Nat → List Char) (k i : Nat),
        (∀ i, (f i).length ≤ MAX_COMMAND_LEN - 1) →
        (Function.update f k (command.take (MAX_COMMAND_LEN - 1)) i).length
          ≤ MAX_COMMAND_LEN - 1 := by
      intro f k i hf
      simp only [Function.update_apply]
      split
      · simp
      · exact hf i
    by_cases hlt : st.log_count < MAX_LOG_ENTRIES
    · simp only [if_pos hlt]
      refine ⟨hlt, h2, fun _ => h3 hlt, fun i => hlen _ _ _ h4⟩
    · simp only [if_neg hlt]
      refine ⟨h1, Nat.mod_lt _ (by decide), fun x => absurd x hlt, fun i => hlen _ _ _ h4⟩
  · simp only [Bool.not_eq_true] at hs
    simp only [hs, Bool.not_false, if_true]
    exact ⟨h1, h2, h3, h4⟩

theorem log_inv_of_reachable {st : LogState} (h : LogReachable st) : log_inv st := by
  induction h with
  | init => exact ⟨by decide, by decide, fun _ => rfl, fun _ => by simp [empty_log]⟩
  | load st st1 file _ hl ih =>
    cases file with
    | none =>
      simp only [load_log_from_file, Option.some.injEq] at hl
      subst hl
      exact ih
    | some content =>
      simp only [load_log_from_file] at hl
      exact load_log_loop_inv _ _ _ _ hl rfl (Nat.zero_le _) ih.2.2.2
  | add st command _ ih => exact log_inv_add ih command
  | purge st _ ih =>
    exact ⟨Nat.zero_le _, show 0 < MAX_LOG_ENTRIES by decide, fun _ => rfl, ih.2.2.2⟩
theorem history_length (st : LogState) : (history st).length = st.log_count := by
  simp [history]

theorem history_getElem (st : LogState) (i : Nat) (h : i < (history st).length) :
    (history st)[i] = st.command_log ((st.log_start + i) % MAX_LOG_ENTRIES) := by
  simp [history]

theorem history_add_room {st : LogState} (h : log_inv st) (command : List Char)
    (hs : should_log_command st command = true) (hlt : st.log_count < MAX_LOG_ENTRIES) :
    history (add_command_to_log st command).1
      = history st ++ [command.take (MAX_COMMAND_LEN - 1)] := by
  have h0 := h.2.2.1 hlt
  unfold add_command_to_log
  simp only [hs, Bool.not_true, Bool.false_eq_true, if_false, if_pos hlt]
  obtain ⟨cl, cnt, start⟩ := st
  dsimp only at h0 hlt
  subst h0
  unfold history
  dsimp only
  simp only [Nat.zero_add, List.range_succ, List.map_append, List.map_cons, List.map_nil]
  congr 1
  · apply List.map_congr_left
    intro i hi
    rw [List.mem_range] at hi
    have e : (0 + i) % MAX_LOG_ENTRIES = i := by
      simp only [MAX_LOG_ENTRIES] at hlt ⊢
      omega
    have e2 : i % MAX_LOG_ENTRIES = i := by
      simp only [MAX_LOG_ENTRIES] at hlt ⊢
      omega
    rw [e, Function.update_noteq (by omega), e2]
  · have e : (0 + cnt) % MAX_LOG_ENTRIES = cnt := by
      simp only [MAX_LOG_ENTRIES] at hlt ⊢
      omega
    rw [e]
    simp

theorem history_add_full {st : LogState} (h : log_inv st) (command : List Char)
    (hs : should_log_command st command = true) (hfull : st.log_count = MAX_LOG_ENTRIES) :
    history (add_command_to_log st command).1
      = (history st).tail ++ [command.take (MAX_COMMAND_LEN - 1)] := by
  have hstart := h.2.1
  have hnlt : ¬ st.log_count < MAX_LOG_ENTRIES := by omega
  unfold add_command_to_log
  simp only [hs, Bool.not_true, Bool.false_eq_true, if_false, if_neg hnlt]
  apply List.ext_getElem
  · simp [history_length, hfull, MAX_LOG_ENTRIES]
  · intro i h1 h2
    rw [history_getElem]
    simp only [history_length, hfull] at h1
    simp only [MAX_LOG_ENTRIES] at h1 hstart hfull ⊢
    by_cases hi : i < 14
    · rw [List.getElem_append_left (by simp [history_length, hfull]; omega)]
      rw [List.getElem_tail, history_getElem]
      simp only [MAX_LOG_ENTRIES]
      rw [Function.update_noteq (by omega)]
      congr 1
      omega
    · rw [List.getElem_append_right (by simp [history_length, hfull]; omega)]
      have : (st.log_start + 1) % 15 + i = st.log_start + 15 ∨
          (st.log_start + 1) % 15 + i = st.log_start := by omega
      simp only [history_length, hfull, List.length_tail, List.getElem_singleton]
      have e : ((st.log_start + 1) % 15 + i) % 15 = st.log_start := by omega
      rw [e]
      simp

/-! ## History store: reading the file back -/

theorem save_log_loop_eq (st : LogState) (turns : Nat) : ∀ (i : Nat) (file : List Char),
    save_log_loop st turns i file
      = file ++ file_lines ((List.range' i turns).map
          (fun k => st.command_log ((st.log_start + k) % MAX_LOG_ENTRIES))) := by
  induction turns with
  | zero => intro i file; simp [save_log_loop, file_lines]
  | succ turns ih =>
    intro i file
    rw [save_log_loop, ih]
    simp [file_lines, List.range'_succ]

theorem save_log_to_file_eq (st : LogState) :
    save_log_to_file st = file_lines (history st) := by
  unfold save_log_to_file history
  rw [save_log_loop_eq, List.range_eq_range']
  simp

theorem fgets_loop_line (e : List Char) (he : '\n' ∉ e) : ∀ (n : Nat) (rest : List Char),
    e.length < n → fgets_loop n (e ++ '\n' :: rest) = (e ++ ['\n'], rest) := by
  induction e with
  | nil =>
    intro n rest hn
    cases n with
    | zero => omega
    | succ n => simp [fgets_loop]
  | cons c e ih =>
    intro n rest hn
    cases n with
    | zero => omega
    | succ n =>
      have hc : c ≠ '\n' := fun h => he (by simp [h])
      have he1 : '\n' ∉ e := fun h => he (by simp [h])
      have h1 := ih he1 n rest (by simpa using hn)
      rw [List.cons_append, fgets_loop, if_neg hc, h1]
      rfl

theorem fgets_loop_full (e : List Char) (he : '\n' ∉ e) (rest : List Char) :
    fgets_loop e.length (e ++ rest) = (e, rest) := by
  induction e with
  | nil => simp [fgets_loop]
  | cons c e ih =>
    have hc : c ≠ '\n' := fun h => he (by simp [h])
    have he1 : '\n' ∉ e := fun h => he (by simp [h])
    have h1 := ih he1
    rw [List.cons_append, List.length_cons, fgets_loop, if_neg hc, h1]

theorem strip_newline_line (e : List Char) (he : '\n' ∉ e) :
    strip_newline (e ++ ['\n']) = e := by
  induction e with
  | nil => simp [strip_newline]
  | cons c e ih =>
    have hc : c ≠ '\n' := fun h => he (by simp [h])
    have he1 : '\n' ∉ e := fun h => he (by simp [h])
    have := ih he1
    simp only [strip_newline] at this ⊢
    simp [List.takeWhile_cons, hc, this]

theorem strip_newline_self (e : List Char) (he : '\n' ∉ e) :
    strip_newline e = e := by
  induction e with
  | nil => simp [strip_newline]
  | cons c e ih =>
    have hc : c ≠ '\n' := fun h => he (by simp [h])
    have he1 : '\n' ∉ e := fun h => he (by simp [h])
    have := ih he1
    simp only [strip_newline] at this ⊢
    simp [List.takeWhile_cons, hc, this]

theorem file_lines_cons (e : List Char) (es : List (List Char)) :
    file_lines (e :: es) = e ++ '\n' :: file_lines es := by
  simp [file_lines]

theorem fgets_line (e rest : List Char) (he : '\n' ∉ e) (hl : e.length < MAX_COMMAND_LEN - 1) :
    fgets MAX_COMMAND_LEN (e ++ '\n' :: rest) = some (e ++ ['\n'], rest) := by
  unfold fgets
  rw [if_neg (by simp), fgets_loop_line e he _ rest hl]

theorem fgets_full (e rest : List Char) (he : '\n' ∉ e) (hne : e ≠ [])
    (hl : e.length = MAX_COMMAND_LEN - 1) :
    fgets MAX_COMMAND_LEN (e ++ rest) = some (e, rest) := by
  unfold fgets
  rw [if_neg (by simp [hne]), ← hl, fgets_loop_full e he rest]

theorem load_log_loop_lines : ∀ (entries : List (List Char)) (st : LogState) (fuel : Nat),
    (∀ e ∈ entries, e ≠ [] ∧ '\n' ∉ e ∧ e.length ≤ MAX_COMMAND_LEN - 1) →
    st.log_count + entries.length ≤ MAX_LOG_ENTRIES →
    (file_lines entries).length < fuel →
    load_log_loop fuel (file_lines entries) st = some (store_entries st entries) := by
  intro entries
  induction entries with
  | nil =>
    intro st fuel _ _ hf
    cases fuel with
    | zero => omega
    | succ fuel => simp [file_lines, load_log_loop, fgets, store_entries]
  | cons e es ih =>
    intro st fuel hall hcount hf
    obtain ⟨hne, hnl, hlen⟩ := hall e (List.mem_cons_self _ _)
    have hall1 : ∀ e ∈ es, e ≠ [] ∧ '\n' ∉ e ∧ e.length ≤ MAX_COMMAND_LEN - 1 :=
      fun x hx => hall x (List.mem_cons_of_mem _ hx)
    rw [file_lines_cons] at hf ⊢
    simp only [List.length_append, List.length_cons] at hf hcount
    have hlt : st.log_count < MAX_LOG_ENTRIES := by omega
    have hpos : e.length > 0 := List.length_pos.mpr hne
    have hst : store_entries st (e :: es) = store_entries (store_entry st e) es := rfl
    cases fuel with
    | zero => omega
    | succ fuel =>
      by_cases hshort : e.length < MAX_COMMAND_LEN - 1
      · rw [load_log_loop, fgets_line e _ hnl hshort]
        simp only [if_pos hlt, strip_newline_line e hnl, if_pos hpos]
        rw [hst]
        exact ih (store_entry st e) fuel hall1 (by simp only [store_entry]; omega) (by omega)
      · have hfull : e.length = MAX_COMMAND_LEN - 1 := by omega
        rw [load_log_loop, fgets_full e _ hnl hne hfull]
        simp only [if_pos hlt, strip_newline_self e hnl, if_pos hpos]
        rw [hst]
        cases fuel with
        | zero => omega
        | succ fuel =>
          rw [load_log_loop]
          have hnil : fgets MAX_COMMAND_LEN ('\n' :: file_lines es)
              = some (['\n'], file_lines es) :=
            fgets_line [] (file_lines es) (by simp) (by decide)
          rw [hnil]
          by_cases hlt1 : st.log_count + 1 < MAX_LOG_ENTRIES
          · have h0 : ¬ (strip_newline ['\n']).length > 0 := by decide
            simp only [if_pos hlt1, if_neg h0]
            exact ih (store_entry st e) fuel hall1 (by simp only [store_entry]; omega)
              (by omega)
          · simp only [if_neg hlt1]
            have : es = [] := List.length_eq_zero.mp (by omega)
            subst this
            rfl

theorem history_store_entry (st : LogState) (e : List Char) (h0 : st.log_start = 0)
    (hlt : st.log_count < MAX_LOG_ENTRIES) :
    history (store_entry st e) = history st ++ [e] := by
  obtain ⟨cl, cnt, start⟩ := st
  dsimp only at h0 hlt
  subst h0
  unfold history store_entry
  dsimp only
  simp only [Nat.zero_add, List.range_succ, List.map_append, List.map_cons, List.map_nil]
  congr 1
  · apply List.map_congr_left
    intro i hi
    rw [List.mem_range] at hi
    have e1 : (0 + i) % MAX_LOG_ENTRIES = i := by
      simp only [MAX_LOG_ENTRIES] at hlt ⊢
      omega
    have e2 : i % MAX_LOG_ENTRIES = i := by
      simp only [MAX_LOG_ENTRIES] at hlt ⊢
      omega
    rw [e1, Function.update_noteq (by omega), e2]
  · have e1 : (0 + cnt) % MAX_LOG_ENTRIES = cnt := by
      simp only [MAX_LOG_ENTRIES] at hlt ⊢
      omega
    rw [e1, Function.update_same]

theorem history_store_entries : ∀ (entries : List (List Char)) (st : LogState),
    st.log_start = 0 → st.log_count + entries.length ≤ MAX_LOG_ENTRIES →
    history (store_entries st entries) = history st ++ entries ∧
      (store_entries st entries).log_count = st.log_count + entries.length := by
  intro entries
  induction entries with
  | nil => intro st _ _; simp [store_entries]
  | cons e es ih =>
    intro st h0 hc
    simp only [List.length_cons] at hc
    have hst : store_entries st (e :: es) = store_entries (store_entry st e) es := rfl
    have h1 := ih (store_entry st e) h0 (by simp only [store_entry]; omega)
    rw [hst, h1.1, h1.2, history_store_entry st e h0 (by omega)]
    simp only [store_entry, List.append_assoc, List.singleton_append, List.length_cons,
      true_and]
    omega

theorem history_entry_length {st : LogState} (h : log_inv st) :
    ∀ e ∈ history st, e.length ≤ MAX_COMMAND_LEN - 1 := by
  intro e he
  simp only [history, List.mem_map] at he
  obtain ⟨i, _, rfl⟩ := he
  exact h.2.2.2 _

theorem add_commands_reachable (commands : List (List Char)) : ∀ (st : LogState),
    LogReachable st → LogReachable (add_commands st commands) := by
  induction commands with
  | nil => intro st h; exact h
  | cons c l ih => intro st h; exact ih _ (LogReachable.add st c h)

/-! ## History store: the claims -/

set_option maxRecDepth 100000 in
/-- C11 (the code at the failing input): the texts rebuilt from the command
lines `echo>f>...>f>x` and `echo>f>...>f>y` differ, both are accepted by
`should_log_command`, and after the two `add_command_to_log` calls on the
empty history the two stored entries are equal: each is the first 1023
characters of its command, and the two commands differ only after them. -/
theorem long_commands_stored_twice :
    many_outputs_text 'x' ≠ many_outputs_text 'y' ∧
    should_log_command empty_log (many_outputs_text 'x') = true ∧
    should_log_command (add_command_to_log empty_log (many_outputs_text 'x')).1
      (many_outputs_text 'y') = true ∧
    history (add_commands empty_log [many_outputs_text 'x', many_outputs_text 'y'])
      = [(many_outputs_text 'x').take 1023, (many_outputs_text 'x').take 1023] := by
  decide

set_option maxRecDepth 100000 in
/-- C12 (counterexample to the claim as stated): the empty history is
reachable and holds fewer than 15 entries, `should_log_command` accepts the
1032 characters rebuilt from `echo>f>...>f>x`, and after
`add_command_to_log` the sequence is not the previous sequence followed by
that candidate. -/
theorem long_candidate_not_appended :
    should_log_command empty_log (many_outputs_text 'x') = true ∧
    empty_log.log_count < 15 ∧
    history (add_command_to_log empty_log (many_outputs_text 'x')).1
      ≠ history empty_log ++ [many_outputs_text 'x'] := by
  decide

/-- C12 (amended): for every reachable history and every candidate that
`should_log_command` accepts, `add_command_to_log` makes the oldest-to-newest
sequence the previous one followed by the first 1023 characters of the
candidate when fewer than 15 entries were stored, and the previous one
without its oldest entry followed by these characters when 15 were stored;
the number of entries is at most 15 before and after. -/
theorem add_appends_cut_candidate (st : LogState) (command : List Char)
    (hr : LogReachable st) (hs : should_log_command st command = true) :
    (st.log_count < 15 →
      history (add_command_to_log st command).1 = history st ++ [command.take 1023]) ∧
    (st.log_count = 15 →
      history (add_command_to_log st command).1
        = (history st).tail ++ [command.take 1023]) ∧
    (history st).length ≤ 15 ∧ (history (add_command_to_log st command).1).length ≤ 15 := by
  have h := log_inv_of_reachable hr
  have h1 := log_inv_add h command
  refine ⟨fun hlt => history_add_room h command hs hlt,
    fun hfull => history_add_full h command hs hfull, ?_, ?_⟩
  · rw [history_length]; exact h.1
  · rw [history_length]; exact h1.1

set_option maxRecDepth 100000 in
/-- C12 (witness): the sixteenth command offered to a history of fifteen
takes the place of the oldest one. -/
theorem add_appends_cut_candidate_witness :
    LogReachable full_log ∧ should_log_command full_log "pwd".toList = true ∧
    full_log.log_count = 15 ∧
    history (add_command_to_log full_log "pwd".toList).1
      = (history full_log).tail ++ ["pwd".toList.take 1023] := by
  have hr : LogReachable full_log := add_commands_reachable _ _ LogReachable.init
  have hs : should_log_command full_log "pwd".toList = true := by decide
  have hc : full_log.log_count = 15 := by decide
  exact ⟨hr, hs, hc, (add_appends_cut_candidate full_log "pwd".toList hr hs).2.1 hc⟩

/-- The choice made by `log execute` in terms of the `int` that `atoi`
returns for its argument: for every history with `n` entries, wrapped or
not, when that `int` is `i` with `1 ≤ i ≤ n` the command chosen is the
`i`-th most recently stored one (`i = 1` the newest, `i = n` the oldest),
and when `i < 1` or `i > n` no command is chosen. -/
theorem log_execute_selects (st : LogState) (tokens : List Token) (i : Int)
    (h3 : tokens.length = 3) (hex : (token_at tokens 1).value = "execute".toList)
    (hi : atoi (token_at tokens 2).value = i) :
    (1 ≤ i → i ≤ (history st).length →
      ∃ command, (history st).reverse[i.toNat - 1]? = some command ∧
        (execute_log tokens st).1 = LogAction.execute command) ∧
    (i < 1 ∨ i > (history st).length →
      (execute_log tokens st).1 = LogAction.invalid_index i) := by
  have e1 : ¬ tokens.length = 1 := by omega
  have e2 : ¬ (tokens.length = 2 ∧ (token_at tokens 1).value = "purge".toList) := by omega
  unfold execute_log
  rw [if_neg e1, if_neg e2, if_pos ⟨h3, hex⟩]
  simp only [hi, history_length]
  constructor
  · intro h1 hn
    have hno : ¬ (i < 1 ∨ i > (st.log_count : Int)) := by omega
    rw [if_neg hno]
    refine ⟨_, ?_, rfl⟩
    have hlt : i.toNat - 1 < (history st).length := by rw [history_length]; omega
    rw [List.getElem?_reverse hlt, List.getElem?_eq_getElem (by rw [history_length]; omega),
      history_getElem]
    congr 2
    rw [history_length]
    simp only [MAX_LOG_ENTRIES]
    omega
  · intro h
    rw [if_pos h]

set_option maxRecDepth 100000 in
/-- In a ring that has wrapped, `log execute 15` runs the oldest entry,
which is in the slot after the newest one. -/
theorem log_execute_selects_witness :
    (log_execute_tokens "15".toList).length = 3 ∧
    (history wrapped_log).reverse[14]? = some "c1".toList ∧
    (execute_log (log_execute_tokens "15".toList) wrapped_log).1
      = LogAction.execute "c1".toList := by
  obtain ⟨command, hc, he⟩ :=
    (log_execute_selects wrapped_log (log_execute_tokens "15".toList) 15 rfl rfl
      (by decide)).1 (by decide) (by decide)
  have h2 : (history wrapped_log).reverse[14]? = some "c1".toList := by decide
  have h3 : command = "c1".toList := by
    have : (history wrapped_log).reverse[(15 : Int).toNat - 1]? = some "c1".toList := h2
    rw [this] at hc
    exact (Option.some.inj hc).symm
  exact ⟨rfl, h2, by rw [he, h3]⟩

set_option maxRecDepth 100000 in
/-- C13 (the code at the failing input): the history holds 15 entries, the
newest being `c15`, and `4294967297` is the decimal numeral of an index
above 15; `atoi` returns 1 for it, the test `index < 1 || index >
log_count` passes, and `log execute 4294967297` chooses the newest entry
instead of reporting an invalid index. -/
theorem log_execute_huge_index_runs_newest :
    Nat.toDigits 10 4294967297 = "4294967297".toList ∧
    (history wrapped_log).length = 15 ∧
    (history wrapped_log).getLast? = some "c15".toList ∧
    atoi "4294967297".toList = 1 ∧
    (execute_log (log_execute_tokens "4294967297".toList) wrapped_log).1
      = LogAction.execute "c15".toList ∧
    (execute_log (log_execute_tokens "16".toList) wrapped_log).1
      = LogAction.invalid_index 16 := by
  decide

/-- C14: for every reachable history whose entries are non-empty and
without newlines, wherever the ring starts, `save_log_to_file` writes one
entry per line, oldest first, at most 15 lines, and `load_log_from_file`
reads from that file a ring with the same entries in the same
oldest-to-newest order. -/
theorem save_then_load_roundtrip (st st0 : LogState) (hr : LogReachable st)
    (hne : ∀ e ∈ history st, e ≠ [] ∧ '\n' ∉ e) :
    save_log_to_file st = file_lines (history st) ∧ (history st).length ≤ 15 ∧
    ∃ st1, load_log_from_file st0 (some (save_log_to_file st)) = some st1 ∧
      history st1 = history st := by
  have h := log_inv_of_reachable hr
  have hlen : (history st).length ≤ 15 := by rw [history_length]; exact h.1
  refine ⟨save_log_to_file_eq st, hlen,
    store_entries { st0 with log_count := 0, log_start := 0 } (history st), ?_, ?_⟩
  · rw [load_log_from_file, save_log_to_file_eq]
    exact load_log_loop_lines (history st) _ _
      (fun e he => ⟨(hne e he).1, (hne e he).2, history_entry_length h e he⟩)
      (by simpa [MAX_LOG_ENTRIES] using hlen) (Nat.lt_succ_self _)
  · have := (history_store_entries (history st)
      { st0 with log_count := 0, log_start := 0 } rfl
      (by simpa [MAX_LOG_ENTRIES] using hlen)).1
    rw [this]
    simp [history]

set_option maxRecDepth 100000 in
/-- C14 (witness): a ring that has wrapped is written as fifteen lines and
read back from them. -/
theorem save_then_load_roundtrip_witness :
    LogReachable wrapped_log ∧ wrapped_log.log_start = 1 ∧
    (∀ e ∈ history wrapped_log, e ≠ [] ∧ '\n' ∉ e) ∧
    ∃ st1, load_log_from_file empty_log (some (save_log_to_file wrapped_log)) = some st1 ∧
      history st1 = history wrapped_log := by
  have hr : LogReachable wrapped_log := add_commands_reachable _ _ LogReachable.init
  have hne : ∀ e ∈ history wrapped_log, e ≠ [] ∧ '\n' ∉ e := by decide
  exact ⟨hr, by decide, hne, (save_then_load_roundtrip wrapped_log empty_log hr hne).2.2⟩

/-! ## Built-ins: hop -/

theorem execute_hop_one (fs : FileSystem) (home arg : List Char) (st : HopState) :
    execute_hop fs home (hop_tokens arg) st = execute_hop_arg fs home arg st := by
  simp [execute_hop, hop_tokens, execute_hop_loop, token_at]

theorem execute_hop_arg_path (fs : FileSystem) (home arg dir : List Char) (st : HopState)
    (h1 : arg ≠ "~".toList) (h2 : arg ≠ ".".toList) (h3 : arg ≠ "..".toList)
    (h4 : arg ≠ "-".toList) (hl : st.cwd.length < MAX_PATH_LEN)
    (hc : fs.chdir st.cwd arg = some dir) :
    execute_hop_arg fs home arg st = { st with previous_cwd := st.cwd, cwd := dir } := by
  unfold execute_hop_arg
  simp only [getcwd, if_pos hl, if_neg h1, if_neg h2, if_neg h3, if_neg h4, hc]

theorem execute_hop_arg_dash (fs : FileSystem) (home dir : List Char) (st : HopState)
    (hp : 0 < st.previous_cwd.length) (hl : st.cwd.length < MAX_PATH_LEN)
    (hc : fs.chdir st.cwd st.previous_cwd = some dir) :
    execute_hop_arg fs home "-".toList st = { st with previous_cwd := st.cwd, cwd := dir } := by
  have hp1 : ¬ st.previous_cwd.length = 0 := by omega
  have e1 : ¬ "-".toList = "~".toList := by decide
  have e2 : ¬ "-".toList = ".".toList := by decide
  have e3 : ¬ "-".toList = "..".toList := by decide
  unfold execute_hop_arg
  simp only [getcwd, if_pos hl, if_neg e1, if_neg e2, if_neg e3, if_true, if_neg hp1, hc]

/-- C15 (counterexample to the claim as stated): in a file system where
every `chdir` succeeds, `hop /tmp`, `hop -`, `hop -` started in `/home/u`
prints nothing and leaves the working directory at `/tmp`, not at
`/home/u`. -/
theorem hop_back_twice_ends_at_target :
    hop_there_back_back absolute_fs "/home/u".toList "/tmp".toList
        ⟨"/home/u".toList, [], []⟩
      = ⟨"/tmp".toList, "/home/u".toList, []⟩ ∧
    "/tmp".toList ≠ "/home/u".toList := by
  decide

theorem output_grew (out : List Char) : out ++ no_such_directory ≠ out := by
  intro h
  have := congrArg List.length h
  simp [no_such_directory] at this

theorem execute_hop_arg_first (fs : FileSystem) (home S X p0 out : List Char)
    (hX : X ≠ ".".toList) (hS : S.length < MAX_PATH_LEN)
    (hok : (execute_hop_arg fs home X ⟨S, p0, out⟩).output = out) :
    execute_hop_arg fs home X ⟨S, p0, out⟩
        = ⟨(execute_hop_arg fs home X ⟨S, p0, out⟩).cwd, S, out⟩ ∨
      (p0 = [] ∧ execute_hop_arg fs home X ⟨S, p0, out⟩ = ⟨S, [], out⟩) := by
  unfold execute_hop_arg at hok ⊢
  simp only [getcwd, if_pos hS, if_neg hX] at hok ⊢
  by_cases h1 : X = "~".toList
  · simp only [if_pos h1] at hok ⊢
    cases hc : fs.chdir S home with
    | none => rw [hc] at hok; exact absurd hok (output_grew out)
    | some dir => left; rfl
  · simp only [if_neg h1] at hok ⊢
    by_cases h3 : X = "..".toList
    · simp only [if_pos h3] at hok ⊢
      cases hc : fs.chdir S "..".toList with
      | none => rw [hc] at hok; exact absurd hok (output_grew out)
      | some dir => left; rfl
    · simp only [if_neg h3] at hok ⊢
      by_cases h4 : X = "-".toList
      · simp only [if_pos h4] at hok ⊢
        by_cases hp : p0.length = 0
        · right
          have : p0 = [] := List.length_eq_zero.mp hp
          subst this
          exact ⟨rfl, by simp⟩
        · simp only [if_neg hp] at hok ⊢
          cases hc : fs.chdir S p0 with
          | none => rw [hc] at hok; exact absurd hok (output_grew out)
          | some dir => left; rfl
      · simp only [if_neg h4] at hok ⊢
        cases hc : fs.chdir S X with
        | none => rw [hc] at hok; exact absurd hok (output_grew out)
        | some dir => left; rfl

/-- C15 (amended): for every starting directory `S` and every argument `X`
of `hop` other than `.`, all `chdir` calls succeeding, `hop X` then `hop -`
leaves the working directory equal to `S`, and one more `hop -` leaves it
equal to the directory that `hop X` reached. The argument may be a path
name, `~`, `..` or `-`; `hop X` succeeds when it prints nothing. -/
theorem hop_back_toggles (fs : FileSystem) (home S X p0 out : List Char)
    (hX : X ≠ ".".toList) (hS : 0 < S.length ∧ S.length < MAX_PATH_LEN)
    (hok : (execute_hop fs home (hop_tokens X) ⟨S, p0, out⟩).output = out)
    (hX1 : 0 < (execute_hop fs home (hop_tokens X) ⟨S, p0, out⟩).cwd.length ∧
      (execute_hop fs home (hop_tokens X) ⟨S, p0, out⟩).cwd.length < MAX_PATH_LEN)
    (h2 : fs.chdir (execute_hop fs home (hop_tokens X) ⟨S, p0, out⟩).cwd S = some S)
    (h3 : fs.chdir S (execute_hop fs home (hop_tokens X) ⟨S, p0, out⟩).cwd
      = some (execute_hop fs home (hop_tokens X) ⟨S, p0, out⟩).cwd) :
    (execute_hop fs home (hop_tokens "-".toList)
      (execute_hop fs home (hop_tokens X) ⟨S, p0, out⟩)).cwd = S ∧
    (hop_there_back_back fs home X ⟨S, p0, out⟩).cwd
      = (execute_hop fs home (hop_tokens X) ⟨S, p0, out⟩).cwd := by
  unfold hop_there_back_back
  simp only [execute_hop_one] at hok hX1 h2 h3 ⊢
  rcases execute_hop_arg_first fs home S X p0 out hX hS.2 hok with h1 | ⟨_, h1⟩
  · generalize (execute_hop_arg fs home X ⟨S, p0, out⟩).cwd = X1 at h1 hX1 h2 h3
    have s2 : execute_hop_arg fs home "-".toList ⟨X1, S, out⟩ = ⟨S, X1, out⟩ :=
      execute_hop_arg_dash fs home S _ hS.1 hX1.2 h2
    have s3 : execute_hop_arg fs home "-".toList ⟨S, X1, out⟩ = ⟨X1, S, out⟩ :=
      execute_hop_arg_dash fs home X1 _ hX1.1 hS.2 h3
    rw [h1, s2, s3]
    exact ⟨rfl, rfl⟩
  · have s2 : execute_hop_arg fs home "-".toList ⟨S, [], out⟩ = ⟨S, [], out⟩ := by
      unfold execute_hop_arg
      simp [getcwd, hS.2]
    rw [h1, s2, s2]
    exact ⟨rfl, rfl⟩

/-- C15 (witness): from `/home/u` to `/tmp`, back, and to `/tmp` again; and
the same with `..` and with `~` for the first step. -/
theorem hop_back_toggles_witness :
    ((execute_hop absolute_fs "/srv".toList (hop_tokens "/tmp".toList)
        ⟨"/home/u".toList, [], []⟩).cwd = "/tmp".toList ∧
      (execute_hop absolute_fs "/srv".toList (hop_tokens "-".toList)
        (execute_hop absolute_fs "/srv".toList (hop_tokens "/tmp".toList)
          ⟨"/home/u".toList, [], []⟩)).cwd = "/home/u".toList ∧
      (hop_there_back_back absolute_fs "/srv".toList "/tmp".toList
        ⟨"/home/u".toList, [], []⟩).cwd = "/tmp".toList) ∧
    ((execute_hop absolute_fs "/srv".toList (hop_tokens "~".toList)
        ⟨"/home/u".toList, [], []⟩).cwd = "/srv".toList ∧
      (hop_there_back_back absolute_fs "/srv".toList "~".toList
        ⟨"/home/u".toList, [], []⟩).cwd = "/srv".toList) :=
  ⟨⟨rfl, hop_back_toggles absolute_fs "/srv".toList "/home/u".toList "/tmp".toList [] []
      (by decide) (by decide) rfl (by decide) rfl rfl⟩,
    ⟨rfl, (hop_back_toggles absolute_fs "/srv".toList "/home/u".toList "~".toList [] []
      (by decide) (by decide) rfl (by decide) rfl rfl).2⟩⟩

/-! ## Built-ins: ping -/

/-- C16 (the code at the failing input): both arguments of `ping 1234 -5`
are accepted as integers, and whatever `kill` answers the signal number
passed to it is -5, the remainder of C's `%`, which is not in the range
0..31 and is not `-5 mod 32 = 27`; on a system that delivers the signals 0
to 31 to process 1234 the call fails and no success message is printed. -/
theorem ping_negative_signum :
    is_valid_number "1234".toList = true ∧ is_valid_number "-5".toList = true ∧
    (∀ kill_result : Int → Int → Int,
      (execute_ping (ping_tokens "1234".toList "-5".toList) kill_result).kill_call
        = some (1234, -5)) ∧
    ¬ (0 ≤ (-5 : Int)) ∧ (-5 : Int) % 32 = 27 ∧
    (execute_ping (ping_tokens "1234".toList "-5".toList) kill_1234).output
      = "No such process found\n".toList := by
  refine ⟨by decide, by decide, ?_, by decide, by decide, by decide⟩
  intro kill_result
  have e : (execute_ping (ping_tokens "1234".toList "-5".toList) kill_result)
      = if kill_result 1234 (-5) = -1 then
          ⟨some (1234, -5), "No such process found\n".toList⟩
        else ⟨some (1234, -5), "Sent signal ".toList ++ format_int (-5)
          ++ " to process with pid ".toList ++ format_int 1234 ++ "\n".toList⟩ := by
    rfl
  rw [e]
  split <;> rfl

/-! ## Job control: what is printed -/

theorem cleanup_other (t : JobTable) (i j : Nat) (h : j ≠ i) :
    (cleanup_background_job (i : Int) t).background_jobs j = t.background_jobs j := by
  unfold cleanup_background_job
  split
  · simp only [Int.toNat_ofNat]
    exact Function.update_noteq h _ _
  · rfl

theorem report_loop_table (wait : Nat → WaitStatus) (turns : Nat) :
    ∀ (k : Nat) (t : JobTable) (lines : List (List Char)),
    (check_background_jobs_report_loop wait turns k t lines).1
      = check_background_jobs_loop wait turns k t := by
  induction turns with
  | zero => intro k t lines; rfl
  | succ turns ih =>
    intro k t lines
    rw [check_background_jobs_report_loop, check_background_jobs_loop, ih]
    congr 1
    split
    · split <;> rfl
    · rfl

theorem report_loop_quiet (wait : Nat → WaitStatus) (turns : Nat) :
    ∀ (k : Nat) (t : JobTable) (lines : List (List Char)),
    (∀ j, k ≤ j → (t.background_jobs j).is_active ≠ 0 → wait j = WaitStatus.no_change) →
    check_background_jobs_report_loop wait turns k t lines = (t, lines) := by
  induction turns with
  | zero => intro k t lines _; rfl
  | succ turns ih =>
    intro k t lines h
    rw [check_background_jobs_report_loop]
    by_cases ha : (t.background_jobs k).is_active ≠ 0
    · simp only [if_pos ha, h k (le_refl _) ha]
      exact ih (k + 1) t lines (fun j hj => h j (by omega))
    · simp only [if_neg ha]
      exact ih (k + 1) t lines (fun j hj => h j (by omega))

theorem report_loop_one (i : Nat) (turns : Nat) :
    ∀ (k : Nat) (t : JobTable) (lines : List (List Char)),
    k ≤ i → i < k + turns → (t.background_jobs i).is_active ≠ 0 →
    (check_background_jobs_report_loop (only_exited i) turns k t lines).2
      = lines ++ [exit_line (t.background_jobs i) true] := by
  induction turns with
  | zero => intro k t lines h1 h2; omega
  | succ turns ih =>
    intro k t lines h1 h2 ha
    rw [check_background_jobs_report_loop]
    by_cases hk : k = i
    · subst hk
      have hw : only_exited k k = WaitStatus.exited 0 := by simp [only_exited]
      simp only [if_pos ha, hw]
      rw [report_loop_quiet]
      · simp
      · intro j hj _
        have : j ≠ k := by omega
        simp [only_exited, this]
    · have hw : only_exited i k = WaitStatus.no_change := by simp [only_exited, hk]
      have hr : (if (t.background_jobs k).is_active ≠ 0 then
            match only_exited i k with
            | WaitStatus.stopped =>
              ((⟨Function.update t.background_jobs k
                { t.background_jobs k with state := ProcessState.PROCESS_STOPPED },
                t.next_job_number⟩ : JobTable), lines)
            | WaitStatus.exited status =>
              (cleanup_background_job k t,
                lines ++ [exit_line (t.background_jobs k) (decide (status = 0))])
            | WaitStatus.signaled _ =>
              (cleanup_background_job k t, lines ++ [exit_line (t.background_jobs k) false])
            | WaitStatus.error => (cleanup_background_job k t, lines)
            | WaitStatus.no_change => (t, lines)
          else (t, lines)) = (t, lines) := by
        rw [hw]
        split <;> rfl
      rw [hr]
      exact ih (k + 1) t lines (by omega) (by omega) ha

theorem add_job_loop_slot (pid : Int) (command : List Char) (state : ProcessState)
    (t : JobTable) (turns : Nat) : ∀ (i : Nat),
    (∃ k, i ≤ k ∧ k < i + turns ∧ (t.background_jobs k).is_active = 0) →
    ∃ k, i ≤ k ∧ k < i + turns ∧
      (add_job_loop pid command state t turns i).2.background_jobs
        = Function.update t.background_jobs k
            (new_job pid t.next_job_number command state) := by
  induction turns with
  | zero => intro i ⟨k, h1, h2, _⟩; omega
  | succ turns ih =>
    intro i ⟨k, h1, h2, h3⟩
    rw [add_job_loop]
    by_cases hf : (t.background_jobs i).is_active = 0
    · rw [if_pos hf]
      exact ⟨i, le_refl _, by omega, rfl⟩
    · rw [if_neg hf]
      have hk : k ≠ i := fun e => hf (e ▸ h3)
      obtain ⟨k1, a, b, c⟩ := ih (i + 1) ⟨k, by omega, by omega, h3⟩
      exact ⟨k1, by omega, by omega, c⟩

set_option maxRecDepth 100000 in
/-- C17 (the code at the failing input): `4294967297` is a string of digits
and the decimal numeral of 4294967297, no slot of the table holds that job
number (its only job has number 1), and yet `fg 4294967297` prints the
command of job 1 instead of `No such job` and, once the job has exited,
frees its slot, and `bg 4294967297` prints `Job already running`: `atoi`
reads the numeral as 1. -/
theorem fg_huge_numeral_selects_job :
    is_valid_job_number "4294967297".toList = true ∧
    Nat.toDigits 10 4294967297 = "4294967297".toList ∧
    (∀ i, i < MAX_BACKGROUND_JOBS →
      (one_job_table.background_jobs i).job_number ≠ 4294967297) ∧
    atoi "4294967297".toList = 1 ∧
    execute_fg_output (job_command_tokens "fg".toList "4294967297".toList) 0 false
      (WaitStatus.exited 0) one_job_table = "sleep 50\n".toList ∧
    (one_job_table.background_jobs 0).is_active = 1 ∧
    ((execute_fg (job_command_tokens "fg".toList "4294967297".toList) 0 false
      (WaitStatus.exited 0) one_job_table).2.background_jobs 0).is_active = 0 ∧
    execute_bg_output (job_command_tokens "bg".toList "4294967297".toList) 0 one_job_table
      = "Job already running\n".toList := by
  decide

set_option maxRecDepth 100000 in
/-- C19 (counterexample to the claim as stated): the job started from the
segment `sleep 50` with pid 500 exits with status 0, and the reap pass
prints the whole text of the segment before ` & with pid`, not its first
word. -/
theorem reap_prints_whole_command :
    (one_job_table.background_jobs 0).command = "sleep 50".toList ∧
    check_background_jobs_report (only_exited 0) one_job_table
      = ["sleep 50 & with pid 500 exited normally\n".toList] ∧
    check_background_jobs_report (only_exited 0) one_job_table
      ≠ ["sleep & with pid 500 exited normally\n".toList] := by
  decide

/-- C19 (amended): for every job table with a free slot and every
background job entered in it with pid `pid` from a segment with text `c`,
a reap pass in which that job has exited with status 0 and no other job has
changed prints exactly the line `<c> & with pid <pid> exited normally`,
where `<c>` is the text of the segment (its first 1023 characters). -/
theorem reap_prints_segment_text (t : JobTable) (pid : Int) (c : List Char)
    (hfree : ∃ k, k < MAX_BACKGROUND_JOBS ∧ (t.background_jobs k).is_active = 0) :
    ∃ i, i < MAX_BACKGROUND_JOBS ∧
      ((add_background_job pid c t).2.background_jobs i).pid = pid ∧
      ((add_background_job pid c t).2.background_jobs i).command = c.take (MAX_PATH_LEN - 1) ∧
      check_background_jobs_report (only_exited i) (add_background_job pid c t).2
        = [c.take (MAX_PATH_LEN - 1) ++ " & with pid ".toList ++ format_int pid
            ++ " exited normally\n".toList] := by
  obtain ⟨k0, hk0, hf0⟩ := hfree
  obtain ⟨k, _, hk, hup⟩ :=
    add_job_loop_slot pid c ProcessState.PROCESS_RUNNING t MAX_BACKGROUND_JOBS 0
      ⟨k0, Nat.zero_le _, by omega, hf0⟩
  have hslot : (add_background_job pid c t).2.background_jobs k
      = new_job pid t.next_job_number c ProcessState.PROCESS_RUNNING := by
    unfold add_background_job
    rw [hup, Function.update_same]
  refine ⟨k, by omega, by rw [hslot]; rfl, by rw [hslot]; rfl, ?_⟩
  unfold check_background_jobs_report
  rw [report_loop_one k MAX_BACKGROUND_JOBS 0 _ [] (Nat.zero_le _) (by omega)
    (by rw [hslot]; simp [new_job])]
  rw [hslot]
  rfl

/-- C19 (witness): `sleep 50` entered in the empty table. -/
theorem reap_prints_segment_text_witness :
    (init_background_jobs.background_jobs 0).is_active = 0 ∧
    ∃ i, i < MAX_BACKGROUND_JOBS ∧
      ((add_background_job 500 "sleep 50".toList init_background_jobs).2.background_jobs
        i).pid = 500 ∧
      ((add_background_job 500 "sleep 50".toList init_background_jobs).2.background_jobs
        i).command = "sleep 50".toList.take (MAX_PATH_LEN - 1) ∧
      check_background_jobs_report (only_exited i)
          (add_background_job 500 "sleep 50".toList init_background_jobs).2
        = ["sleep 50".toList.take (MAX_PATH_LEN - 1) ++ " & with pid ".toList
            ++ format_int 500 ++ " exited normally\n".toList] :=
  ⟨rfl, reap_prints_segment_text init_background_jobs 500 "sleep 50".toList
    ⟨0, by decide, rfl⟩⟩

set_option maxRecDepth 100000 in
/-- C20 (the code at the failing input): for the lines `fg &` and `bg &`
`execute_background_command` calls `fork`, returns 0, enters the child (pid
700) in slot 0 of the job table and moves the job counter from 1 to 2; for
`hop &` it does none of this. -/
theorem background_fg_bg_are_forked :
    (execute_background_command (background_word "fg".toList) 0 1 "fg".toList 700
      init_background_jobs).forked = true ∧
    (execute_background_command (background_word "fg".toList) 0 1 "fg".toList 700
      init_background_jobs).result = 0 ∧
    ((execute_background_command (background_word "fg".toList) 0 1 "fg".toList 700
      init_background_jobs).table.background_jobs 0).is_active = 1 ∧
    ((execute_background_command (background_word "fg".toList) 0 1 "fg".toList 700
      init_background_jobs).table.background_jobs 0).pid = 700 ∧
    init_background_jobs.next_job_number = 1 ∧
    (execute_background_command (background_word "fg".toList) 0 1 "fg".toList 700
      init_background_jobs).table.next_job_number = 2 ∧
    (execute_background_command (background_word "bg".toList) 0 1 "bg".toList 700
      init_background_jobs).forked = true ∧
    (execute_background_command (background_word "bg".toList) 0 1 "bg".toList 700
      init_background_jobs).table.next_job_number = 2 ∧
    (execute_background_command (background_word "hop".toList) 0 1 "hop".toList 700
      init_background_jobs).forked = false ∧
    (execute_background_command (background_word "hop".toList) 0 1 "hop".toList 700
      init_background_jobs).table.next_job_number = 1 := by
  decide

/-! ## Built-ins: activities -/

set_option maxRecDepth 100000 in
/-- The output of `activities` for three running jobs: `cat` first, then the
two `sleep` jobs in slot order. -/
theorem activities_three_jobs :
    active_slots three_jobs_table = [0, 1, 2] ∧
    (activity_of three_jobs_table 0).pid = 100 ∧
    (activity_of three_jobs_table 1).pid = 101 ∧
    execute_activities qsort three_jobs_table
      = ["[102] : cat - Running\n".toList, "[100] : sleep - Running\n".toList,
          "[101] : sleep - Running\n".toList] := by
  decide

/-! ## Foreground marker -/

set_option maxRecDepth 100000 in
/-- C21 (the code at the failing input): `sleep 100` runs in the
foreground as process 500 and is stopped by a signal sent to it directly,
so that the stop handler of the shell does not run; `waitpid` reports the
stop, `execute_command` returns 0 with the marker empty, and no slot of the
job table is active. -/
theorem stopped_child_not_in_table :
    (execute_command line_sleep 500 false WaitStatus.stopped no_foreground
      init_background_jobs).result = 0 ∧
    (execute_command line_sleep 500 false WaitStatus.stopped no_foreground
      init_background_jobs).marker = no_foreground ∧
    (∀ i, i < MAX_BACKGROUND_JOBS →
      ((execute_command line_sleep 500 false WaitStatus.stopped no_foreground
        init_background_jobs).table.background_jobs i).is_active = 0) := by
  decide

/-- C22: `execute_command` and `execute_fg` return with the marker empty on
every path on which they set it, whatever the wait reports and whether or
not the stop handler ran meanwhile, and leave it as it was on the paths on
which they do not set it (for `execute_command` the paths that set it are
those that make the `setpgid` call on the child); so a marker that is empty
before either of them, or before a stop handler that runs outside their
waits, is empty after it. -/
theorem marker_empty_on_return (tokens : List Token) (fork_result kill_result : Int)
    (sigtstp : Bool) (wait : WaitStatus) (fg : Foreground) (t : JobTable) :
    ((execute_command tokens fork_result sigtstp wait fg t).marker = no_foreground ∨
      (execute_command tokens fork_result sigtstp wait fg t).marker = fg) ∧
    ((execute_command tokens fork_result sigtstp wait fg t).calls ≠ [] →
      (execute_command tokens fork_result sigtstp wait fg t).marker = no_foreground) ∧
    (execute_fg_marker tokens kill_result sigtstp wait t fg = no_foreground ∨
      execute_fg_marker tokens kill_result sigtstp wait t fg = fg) ∧
    (fg = no_foreground →
      (execute_command tokens fork_result sigtstp wait fg t).marker = no_foreground ∧
      execute_fg_marker tokens kill_result sigtstp wait t fg = no_foreground ∧
      (sigtstp_handler_marker fg t).1 = no_foreground) := by
  have hc : (execute_command tokens fork_result sigtstp wait fg t).marker = no_foreground ∨
      ((execute_command tokens fork_result sigtstp wait fg t).marker = fg ∧
        (execute_command tokens fork_result sigtstp wait fg t).calls = []) := by
    unfold execute_command
    split
    · exact Or.inr ⟨rfl, rfl⟩
    · dsimp only
      split
      · exact Or.inr ⟨rfl, rfl⟩
      · split
        · exact Or.inr ⟨rfl, rfl⟩
        · split
          · left
            cases wait <;> rfl
          · exact Or.inr ⟨rfl, rfl⟩
  have hf : execute_fg_marker tokens kill_result sigtstp wait t fg = no_foreground ∨
      execute_fg_marker tokens kill_result sigtstp wait t fg = fg := by
    unfold execute_fg_marker
    dsimp only
    split
    · exact Or.inr rfl
    · split
      · exact Or.inr rfl
      · left
        cases wait <;> rfl
  refine ⟨hc.imp id And.left, ?_, hf, ?_⟩
  · intro hne
    rcases hc with h | ⟨_, h⟩
    · exact h
    · exact absurd h hne
  · intro he
    refine ⟨?_, ?_, ?_⟩
    · rcases hc with h | ⟨h, _⟩
      · exact h
      · rw [h, he]
    · rcases hf with h | h
      · exact h
      · rw [h, he]
    · subst he
      rfl

set_option maxRecDepth 100000 in
/-- C22 (witness): `sleep 100` stopped from the keyboard, then `fg`
stopped again: the marker is empty after each. -/
theorem marker_empty_on_return_witness :
    (execute_command line_sleep 500 true WaitStatus.stopped no_foreground
      init_background_jobs).calls ≠ [] ∧
    (execute_command line_sleep 500 true WaitStatus.stopped no_foreground
      init_background_jobs).marker = no_foreground ∧
    execute_fg_marker (job_command_tokens "fg".toList "1".toList) 0 true WaitStatus.stopped
      one_job_table no_foreground = no_foreground := by
  have h := marker_empty_on_return line_sleep 500 0 true WaitStatus.stopped no_foreground
    init_background_jobs
  have hne : (execute_command line_sleep 500 true WaitStatus.stopped no_foreground
      init_background_jobs).calls ≠ [] := by decide
  exact ⟨hne, h.2.1 hne,
    ((marker_empty_on_return (job_command_tokens "fg".toList "1".toList) 500 0 true
      WaitStatus.stopped no_foreground one_job_table).2.2.2 rfl).2.1⟩

/-! ## Process groups, pipes and argument vectors -/

set_option maxRecDepth 100000 in
/-- C23 (the code at the failing input): the child forked for the
background line `sleep 100 &` reaches `execvp` after the calls `open`,
`dup2` and `close` on `/dev/null`, and the children of both stages of
`ls | wc` reach `execvp` after `close` and `dup2` calls on the pipe; none of
them calls `setpgid`, and the parent of the pipeline makes no `setpgid` call
either. The child of the foreground command `sleep 100` does call
`setpgid(0, 0)`, and its parent `setpgid(pid, pid)`. -/
theorem background_and_pipeline_children_keep_group :
    (∃ trace, execute_background_command_child os_all_succeed line_sleep_background 0 2 []
        = some (ChildStep.execvp ["sleep".toList, "100".toList], trace) ∧
      trace.all (fun c => !is_setpgid c) = true) ∧
    (∃ trace, execute_pipeline_child os_all_succeed line_ls_wc [(3, 4)] 0
        = some (ChildStep.execvp ["ls".toList], trace) ∧
      trace.all (fun c => !is_setpgid c) = true) ∧
    (∃ trace, execute_pipeline_child os_all_succeed line_ls_wc [(3, 4)] 1
        = some (ChildStep.execvp ["wc".toList], trace) ∧
      trace.all (fun c => !is_setpgid c) = true) ∧
    (execute_pipeline line_ls_wc pipes_succeed (fun i => 100 + (i : Int)) (fun _ => some 0)
      0).calls.all (fun c => !is_setpgid c) = true ∧
    execute_command_child os_all_succeed line_sleep []
      = some (ChildStep.execvp ["sleep".toList, "100".toList], [SysCall.setpgid 0 0]) ∧
    (execute_command line_sleep 500 false (WaitStatus.exited 0) no_foreground
      init_background_jobs).calls = [SysCall.setpgid 500 500] := by
  refine ⟨⟨_, rfl, by decide⟩, ⟨_, rfl, by decide⟩, ⟨_, rfl, by decide⟩, by decide,
    by decide, by decide⟩

set_option maxRecDepth 100000 in
/-- C27 (the code at the failing input): for the line `a | b | c` the first
`pipe` call creates the descriptors 3 and 4 and the second call fails;
`execute_pipeline` returns -1 without a single `close`, so both descriptors
of the first pipe stay open in the parent. When both calls succeed, all
four descriptors are closed. -/
theorem pipe_failure_leaks_descriptors :
    (execute_pipeline line_three_stages one_pipe_only (fun i => 100 + (i : Int))
      (fun _ => some 0) 0).result = -1 ∧
    (execute_pipeline line_three_stages one_pipe_only (fun i => 100 + (i : Int))
      (fun _ => some 0) 0).created = [3, 4] ∧
    closed_descriptors (execute_pipeline line_three_stages one_pipe_only
      (fun i => 100 + (i : Int)) (fun _ => some 0) 0).calls = [] ∧
    (execute_pipeline line_three_stages pipes_succeed (fun i => 100 + (i : Int))
      (fun _ => some 0) 0).created = [3, 4, 5, 6] ∧
    closed_descriptors (execute_pipeline line_three_stages pipes_succeed
      (fun i => 100 + (i : Int)) (fun _ => some 0) 0).calls = [3, 4, 5, 6] := by
  decide

set_option maxRecDepth 100000 in
/-- C28 (the code at the failing input): the line `echo x x ... x | wc`
with 300 times `x` has 303 tokens, its first stage is the range `[0, 301)`,
and the argument vector that `execute_command_in_pipeline` builds for it
has 301 entries, more than the 255 that fit the array `args[256]` with its
terminator: the loop of this path has no bound on `arg_count`. -/
theorem pipeline_stage_args_exceed_array :
    line_many_words.length = 303 ∧
    (find_pipe_segments line_many_words).getD 0 (0, 0) = (0, 301) ∧
    (execute_command_in_pipeline_args line_many_words 0 301).length = 301 ∧
    ¬ (execute_command_in_pipeline_args line_many_words 0 301).length ≤ 255 := by
  decide

set_option maxRecDepth 100000 in
/-- C29 (the code at the failing input): `sleep 50 &` is started as process
500, `fg` brings it to the foreground, and the stop signal arrives while
`fg` waits. The handler enters process 500 in a second slot although slot 0
still holds it: after `fg` returns, slots 0 and 1 are both active with pid
500. -/
theorem fg_stop_duplicates_pid :
    ((run_job_ops [JobOp.add_background 500 "sleep 50".toList,
        JobOp.fg [⟨TokenType.TOKEN_NAME, "fg".toList⟩] 0 true WaitStatus.stopped]
      init_background_jobs).2.background_jobs 0).is_active = 1 ∧
    ((run_job_ops [JobOp.add_background 500 "sleep 50".toList,
        JobOp.fg [⟨TokenType.TOKEN_NAME, "fg".toList⟩] 0 true WaitStatus.stopped]
      init_background_jobs).2.background_jobs 0).pid = 500 ∧
    ((run_job_ops [JobOp.add_background 500 "sleep 50".toList,
        JobOp.fg [⟨TokenType.TOKEN_NAME, "fg".toList⟩] 0 true WaitStatus.stopped]
      init_background_jobs).2.background_jobs 1).is_active = 1 ∧
    ((run_job_ops [JobOp.add_background 500 "sleep 50".toList,
        JobOp.fg [⟨TokenType.TOKEN_NAME, "fg".toList⟩] 0 true WaitStatus.stopped]
      init_background_jobs).2.background_jobs 1).pid = 500 := by
  decide

set_option maxRecDepth 100000 in
/-- C30 (the code at the failing input): the parser accepts `cat f | wc &`,
the background segment is the range `[0, 4)`, and the argument vector that
`execute_background_command` builds for it, and that its child passes to
`execvp`, is `cat f wc`: the word `wc` after the `|` is an argument of
`cat`. -/
theorem background_args_cross_pipe :
    parse line_cat_wc_background = some 1 ∧
    (token_at line_cat_wc_background 2).type = TokenType.TOKEN_PIPE ∧
    (token_at line_cat_wc_background 3).value = "wc".toList ∧
    execute_background_command_args line_cat_wc_background 0 4
      = ["cat".toList, "f".toList, "wc".toList] ∧
    (execute_background_command line_cat_wc_background 0 4 "cat f | wc".toList 700
      init_background_jobs).forked = true ∧
    (∃ trace, execute_background_command_child os_all_succeed line_cat_wc_background 0 4 []
      = some (ChildStep.execvp ["cat".toList, "f".toList, "wc".toList], trace)) := by
  refine ⟨by decide, by decide, by decide, by decide, by decide, ⟨_, rfl⟩⟩

/-! ## Sequential split -/

theorem token_at_drop (tokens : List Token) (i : Nat) (h : i < tokens.length) :
    tokens.drop i = token_at tokens i :: tokens.drop (i + 1) := by
  rw [List.drop_eq_getElem_cons h]
  congr 1
  simp [token_at, List.getD, h]

theorem token_at_length (tokens : List Token) :
    token_at tokens tokens.length = end_token := by
  simp [token_at, List.getD]

theorem is_separator_iff (t : TokenType) :
    is_separator t = true ↔
      (t = TokenType.TOKEN_SEMICOLON ∨ t = TokenType.TOKEN_AMPERSAND) := by
  cases t <;> simp [is_separator]

theorem count_segments_loop_eq (tokens : List Token) (turns : Nat) :
    ∀ (i num : Nat), i + turns = tokens.length →
    count_segments_loop tokens turns i num
      = num + ((tokens.drop i).filter (fun t => is_separator t.type)).length := by
  induction turns with
  | zero =>
    intro i num h
    have : i = tokens.length := by omega
    subst this
    simp [count_segments_loop]
  | succ turns ih =>
    intro i num h
    rw [count_segments_loop, ih (i + 1) _ (by omega), token_at_drop tokens i (by omega),
      List.filter_cons]
    by_cases hs : is_separator (token_at tokens i).type = true
    · rw [if_pos ((is_separator_iff _).mp hs), if_pos hs, List.length_cons]
      omega
    · rw [if_neg (fun h => hs ((is_separator_iff _).mpr h)), if_neg hs]

theorem tiles_cons (start : Nat) (s : Segment) (rest : List Segment) (n : Nat)
    (hrest : rest ≠ []) (hs : s.start_index = start)
    (h : tiles (s.end_index + 1) rest n = true) : tiles start (s :: rest) n = true := by
  cases rest with
  | nil => exact absurd rfl hrest
  | cons s2 rest => simp [tiles, hs, h]

theorem find_segments_loop_spec (tokens : List Token) (turns : Nat) :
    ∀ (i current_start : Nat) (acc : List Segment),
    i + turns = tokens.length + 1 → 1 ≤ turns → current_start ≤ i →
    (∀ j, current_start ≤ j → j < i → is_separator (token_at tokens j).type = false) →
    ∃ tail, find_command_segments_loop tokens turns i current_start acc = acc ++ tail ∧
      tiles current_start tail tokens.length = true ∧
      tail.length = ((tokens.drop i).filter (fun t => is_separator t.type)).length + 1 ∧
      ∀ s ∈ tail, segment_ok tokens s := by
  induction turns with
  | zero => intro i cs acc _ h; omega
  | succ turns ih =>
    intro i cs acc hsum _ hcs hclean
    rw [find_command_segments_loop]
    by_cases hend : i = tokens.length
    · have ht : turns = 0 := by omega
      subst ht
      subst hend
      rw [if_pos (Or.inl rfl), if_neg (Nat.lt_irrefl _)]
      refine ⟨[⟨cs, tokens.length, TokenType.TOKEN_END⟩], rfl, by simp [tiles], by simp, ?_⟩
      intro s hs
      rw [List.mem_singleton] at hs
      subst hs
      exact ⟨hcs, le_refl _, hclean, by rw [token_at_length]; rfl, fun _ => rfl⟩
    · have hlt : i < tokens.length := by omega
      rw [token_at_drop tokens i hlt, List.filter_cons]
      by_cases hs : is_separator (token_at tokens i).type = true
      · rw [if_pos (Or.inr ((is_separator_iff _).mp hs)), if_pos hlt, if_pos hs]
        obtain ⟨tail, e, ht, hl, hok⟩ :=
          ih (i + 1) (i + 1) (acc ++ [⟨cs, i, (token_at tokens i).type⟩]) (by omega)
            (by omega) (le_refl _) (fun j h1 h2 => by omega)
        refine ⟨⟨cs, i, (token_at tokens i).type⟩ :: tail, ?_, ?_, ?_, ?_⟩
        · rw [e, List.append_assoc, List.singleton_append]
        · exact tiles_cons cs _ tail _ (by intro h; rw [h] at hl; simp at hl) rfl ht
        · rw [List.length_cons, List.length_cons, hl]
        · intro s hmem
          rcases List.mem_cons.mp hmem with h | h
          · subst h
            exact ⟨hcs, by dsimp only; omega, hclean, rfl, fun h => by dsimp only at h; omega⟩
          · exact hok s h
      · have hnot : ¬ (i = tokens.length ∨
            (token_at tokens i).type = TokenType.TOKEN_SEMICOLON ∨
            (token_at tokens i).type = TokenType.TOKEN_AMPERSAND) := by
          rintro (h | h)
          · exact hend h
          · exact hs ((is_separator_iff _).mpr h)
        rw [if_neg hnot, if_neg hs]
        exact ih (i + 1) cs acc (by omega) (by omega) (by omega) (fun j h1 h2 => by
          by_cases hj : j = i
          · subst hj
            simpa using hs
          · exact hclean j h1 (by omega))

theorem find_segments_loop_trailing (pre : List Token) (amp : Token)
    (hamp : amp.type = TokenType.TOKEN_AMPERSAND) (turns : Nat) :
    ∀ (i current_start : Nat) (acc : List Segment),
    i + turns = (pre ++ [amp]).length + 1 → i ≤ pre.length →
    ∃ front s, find_command_segments_loop (pre ++ [amp]) turns i current_start acc
      = acc ++ front ++ [⟨s, pre.length, TokenType.TOKEN_AMPERSAND⟩,
          ⟨pre.length + 1, pre.length + 1, TokenType.TOKEN_END⟩] := by
  have hn : (pre ++ [amp]).length = pre.length + 1 := by simp
  have hat : token_at (pre ++ [amp]) pre.length = amp := by
    simp [token_at, List.getD]
  induction turns with
  | zero => intro i cs acc h1 h2; omega
  | succ turns ih =>
    intro i cs acc hsum hi
    rw [find_command_segments_loop]
    by_cases hlast : i = pre.length
    · subst hlast
      have ht : turns = 1 := by omega
      subst ht
      rw [if_pos (Or.inr (Or.inr (by rw [hat]; exact hamp))), if_pos (by omega), hat, hamp,
        find_command_segments_loop, if_pos (Or.inl hn.symm), if_neg (by omega),
        find_command_segments_loop]
      exact ⟨[], cs, by simp⟩
    · split
      · obtain ⟨front, s, e⟩ := ih (i + 1) (i + 1)
          (acc ++ [⟨cs, i, if i < (pre ++ [amp]).length then (token_at (pre ++ [amp]) i).type
            else TokenType.TOKEN_END⟩]) (by omega) (by omega)
        exact ⟨⟨cs, i, if i < (pre ++ [amp]).length then (token_at (pre ++ [amp]) i).type
            else TokenType.TOKEN_END⟩ :: front, s, by rw [e]; simp⟩
      · exact ih (i + 1) cs acc (by omega) (by omega)

theorem execute_sequential_loop_eq (segments : List Segment) (turns : Nat) :
    ∀ (i : Nat) (actions : List SegmentAction), i + turns = segments.length →
    execute_sequential_loop segments turns i actions
      = actions ++ (segments.drop i).map dispatch_segment := by
  induction turns with
  | zero =>
    intro i actions h
    have : i = segments.length := by omega
    subst this
    simp [execute_sequential_loop]
  | succ turns ih =>
    intro i actions h
    have hi : i < segments.length := by omega
    have hg : segments.getD i ⟨0, 0, TokenType.TOKEN_END⟩ = segments[i] := by
      simp [List.getD, hi]
    rw [execute_sequential_loop, ih (i + 1) _ (by omega), List.drop_eq_getElem_cons hi, hg,
      List.map_cons, List.append_assoc, List.singleton_append]

set_option maxRecDepth 100000 in
/-- C25 (counterexample to the claim as stated): the line `a < < ; &` is
accepted by `parse` and ends in `&`, but the `&` closes an empty range: the
last range that is not empty is `[0, 3)`, its terminator is `;`, and
`execute_sequential_commands` runs it in the foreground. -/
theorem trailing_amp_closes_empty_range :
    parse line_amp_after_semicolon = some 1 ∧
    (token_at line_amp_after_semicolon 4).type = TokenType.TOKEN_AMPERSAND ∧
    line_amp_after_semicolon.length = 5 ∧
    (find_command_segments line_amp_after_semicolon).2
      = [⟨0, 3, TokenType.TOKEN_SEMICOLON⟩, ⟨4, 4, TokenType.TOKEN_AMPERSAND⟩,
          ⟨5, 5, TokenType.TOKEN_END⟩] ∧
    execute_sequential_commands line_amp_after_semicolon
      = [SegmentAction.foreground 0 3, SegmentAction.skipped, SegmentAction.skipped] := by
  decide

/-- C25 (amended): for every token sequence, `find_command_segments` writes as many
ranges as it counted, one more than there are `;` and `&` tokens; the
ranges tile the tokens (the first starts at 0, each next one starts one past
the end of the one before, the last ends at `token_count`); no range holds
a `;` or `&`; the terminator of a range is the kind of the token at its end
index, `TOKEN_END` for the last. So when the last token is `&`, the last two
ranges are the one that ends at this `&`, with terminator `&`, and an empty
one; `execute_sequential_commands` runs the former in the background (when
it is not empty) and skips the latter. -/
theorem segments_tile_tokens (tokens : List Token) :
    (find_command_segments tokens).1
      = (tokens.filter (fun t => is_separator t.type)).length + 1 ∧
    (find_command_segments tokens).2.length = (find_command_segments tokens).1 ∧
    tiles 0 (find_command_segments tokens).2 tokens.length = true ∧
    (∀ s ∈ (find_command_segments tokens).2, segment_ok tokens s) ∧
    (∀ (pre : List Token) (amp : Token), tokens = pre ++ [amp] →
      amp.type = TokenType.TOKEN_AMPERSAND →
      ∃ front s,
        (find_command_segments tokens).2
          = front ++ [⟨s, pre.length, TokenType.TOKEN_AMPERSAND⟩,
              ⟨tokens.length, tokens.length, TokenType.TOKEN_END⟩] ∧
        execute_sequential_commands tokens
          = front.map dispatch_segment ++
            [if s < pre.length then SegmentAction.background s pre.length
              else SegmentAction.skipped, SegmentAction.skipped]) := by
  have hcount : (find_command_segments tokens).1
      = (tokens.filter (fun t => is_separator t.type)).length + 1 := by
    unfold find_command_segments
    dsimp only
    rw [count_segments_loop_eq tokens tokens.length 0 1 (by omega), List.drop_zero]
    omega
  obtain ⟨tail, e, ht, hl, hok⟩ :=
    find_segments_loop_spec tokens (tokens.length + 1) 0 0 [] (by omega) (by omega)
      (le_refl _) (fun j _ h => by omega)
  have hsegs : (find_command_segments tokens).2 = tail := by
    unfold find_command_segments
    dsimp only
    rw [e, List.nil_append]
  have hlen : (find_command_segments tokens).2.length = (find_command_segments tokens).1 := by
    rw [hsegs, hl, hcount, List.drop_zero]
  refine ⟨hcount, hlen, by rw [hsegs]; exact ht, by rw [hsegs]; exact hok, ?_⟩
  intro pre amp htok hamp
  obtain ⟨front, s, e2⟩ :=
    find_segments_loop_trailing pre amp hamp ((pre ++ [amp]).length + 1) 0 0 [] (by omega)
      (Nat.zero_le _)
  have hn : tokens.length = pre.length + 1 := by rw [htok]; simp
  have hs2 : (find_command_segments tokens).2
      = front ++ [⟨s, pre.length, TokenType.TOKEN_AMPERSAND⟩,
          ⟨tokens.length, tokens.length, TokenType.TOKEN_END⟩] := by
    rw [hn]
    subst htok
    unfold find_command_segments
    dsimp only
    rw [e2, List.nil_append]
  refine ⟨front, s, hs2, ?_⟩
  unfold execute_sequential_commands
  rw [if_neg (by omega), ← hlen,
    execute_sequential_loop_eq _ _ 0 [] (by omega), List.drop_zero, List.nil_append, hs2,
    List.map_append]
  congr 1
  simp only [List.map_cons, List.map_nil, dispatch_segment]
  by_cases hsm : s < pre.length
  · rw [if_neg (by omega), if_pos hsm]
    simp
  · rw [if_pos (by omega), if_neg hsm]
    simp

set_option maxRecDepth 100000 in
/-- C25 (witness): the line `a ; b | c & d &` is split into four ranges,
the last one empty; `d` is run in the background. -/
theorem segments_tile_tokens_witness :
    (find_command_segments line_mixed_separators).2
      = [⟨0, 1, TokenType.TOKEN_SEMICOLON⟩, ⟨2, 5, TokenType.TOKEN_AMPERSAND⟩,
          ⟨6, 7, TokenType.TOKEN_AMPERSAND⟩, ⟨8, 8, TokenType.TOKEN_END⟩] ∧
    (∃ front s,
      (find_command_segments line_mixed_separators).2
        = front ++ [⟨s, 7, TokenType.TOKEN_AMPERSAND⟩, ⟨8, 8, TokenType.TOKEN_END⟩] ∧
      execute_sequential_commands line_mixed_separators
        = front.map dispatch_segment ++
          [if s < 7 then SegmentAction.background s 7 else SegmentAction.skipped,
            SegmentAction.skipped]) ∧
    execute_sequential_commands line_mixed_separators
      = [SegmentAction.foreground 0 1, SegmentAction.background 2 5,
          SegmentAction.background 6 7, SegmentAction.skipped] :=
  ⟨by decide,
    (segments_tile_tokens line_mixed_separators).2.2.2.2
      (line_mixed_separators.take 7) ⟨TokenType.TOKEN_AMPERSAND, "&".toList⟩ (by decide) rfl,
    by decide⟩

/-! ## Job table: one slot at a time -/

theorem add_job_loop_full (pid : Int) (command : List Char) (state : ProcessState)
    (t : JobTable) (turns : Nat) : ∀ (i : Nat),
    (∀ j, i ≤ j → j < i + turns → (t.background_jobs j).is_active ≠ 0) →
    add_job_loop pid command state t turns i = (-1, t) := by
  induction turns with
  | zero => intro i _; rfl
  | succ turns ih =>
    intro i h
    rw [add_job_loop, if_neg (h i (le_refl _) (by omega))]
    exact ih (i + 1) (fun j h1 h2 => h j (by omega) (by omega))

theorem add_job_loop_free (pid : Int) (command : List Char) (state : ProcessState)
    (t : JobTable) (turns : Nat) : ∀ (i : Nat),
    (∃ k, i ≤ k ∧ k < i + turns ∧ (t.background_jobs k).is_active = 0) →
    ∃ k, i ≤ k ∧ k < i + turns ∧ (t.background_jobs k).is_active = 0 ∧
      add_job_loop pid command state t turns i
        = (t.next_job_number,
            ⟨Function.update t.background_jobs k
              (new_job pid t.next_job_number command state),
              int32 (t.next_job_number + 1)⟩) := by
  induction turns with
  | zero => intro i ⟨k, h1, h2, _⟩; omega
  | succ turns ih =>
    intro i ⟨k, h1, h2, h3⟩
    rw [add_job_loop]
    by_cases hf : (t.background_jobs i).is_active = 0
    · rw [if_pos hf]
      exact ⟨i, le_refl _, by omega, hf, rfl⟩
    · rw [if_neg hf]
      have hk : k ≠ i := fun e => hf (e ▸ h3)
      obtain ⟨k1, a, b, c, d⟩ := ih (i + 1) ⟨k, by omega, by omega, h3⟩
      exact ⟨k1, by omega, by omega, c, d⟩

theorem add_job_loop_allocation (pid : Int) (command : List Char) (state : ProcessState)
    (t : JobTable) (hpos : 0 < t.next_job_number) :
    allocation_ok t pid command state
      (add_job_loop pid command state t MAX_BACKGROUND_JOBS 0) := by
  by_cases hfull : ∀ i, i < MAX_BACKGROUND_JOBS → (t.background_jobs i).is_active ≠ 0
  · have e := add_job_loop_full pid command state t MAX_BACKGROUND_JOBS 0
      (fun j _ h2 => hfull j (by omega))
    rw [e]
    exact ⟨⟨fun _ => hfull, fun _ => rfl⟩, fun _ => rfl, fun h => absurd rfl h⟩
  · have hex : ∃ k, 0 ≤ k ∧ k < 0 + MAX_BACKGROUND_JOBS ∧
        (t.background_jobs k).is_active = 0 := by
      by_contra hn
      apply hfull
      intro i hi hact
      exact hn ⟨i, Nat.zero_le _, by omega, hact⟩
    obtain ⟨k, _, hk, hfree, e⟩ := add_job_loop_free pid command state t _ 0 hex
    rw [e]
    have hne : t.next_job_number ≠ -1 := by omega
    refine ⟨⟨fun h => absurd h hne, fun h => absurd hfree (h k (by omega))⟩,
      fun h => absurd h hne, fun _ => ?_⟩
    exact ⟨k, new_job pid t.next_job_number command state, by omega, hfree, rfl,
      by simp [new_job], rfl, rfl, rfl⟩

set_option maxRecDepth 100000 in
/-- C24 (counterexample to the claim as stated): `add_background_job` called
on the empty table with pid 500 and the 1032 characters rebuilt from the
line `echo>f>...>f>x` succeeds and activates slot 0, but the command of the
slot is not the full text. -/
theorem long_command_cut_in_slot :
    (add_background_job 500 (many_outputs_text 'x') init_background_jobs).1 = 1 ∧
    ((add_background_job 500 (many_outputs_text 'x')
      init_background_jobs).2.background_jobs 0).is_active = 1 ∧
    ((add_background_job 500 (many_outputs_text 'x')
      init_background_jobs).2.background_jobs 0).command ≠ many_outputs_text 'x' := by
  decide

/-- C24 (amended): for every job table with a positive job counter,
`add_background_job` and `add_stopped_job` return -1 if and only if all 100
slots are active; the table and the counter are then unchanged; and when
they succeed exactly one slot that was inactive becomes active with the
given pid, the first 1023 characters of the command text and the requested
state, all other slots unchanged. -/
theorem add_job_fails_iff_full (t : JobTable) (pid : Int) (command : List Char)
    (hpos : 0 < t.next_job_number) :
    allocation_ok t pid command ProcessState.PROCESS_RUNNING
      (add_background_job pid command t) ∧
    allocation_ok t pid command ProcessState.PROCESS_STOPPED
      (add_stopped_job pid command t) :=
  ⟨add_job_loop_allocation pid command _ t hpos, add_job_loop_allocation pid command _ t hpos⟩

set_option maxRecDepth 100000 in
/-- C24 (witness): a job entered in the empty table, and one refused by a
full table. -/
theorem add_job_fails_iff_full_witness :
    (0 < init_background_jobs.next_job_number ∧
      allocation_ok init_background_jobs 500 "sleep 50".toList ProcessState.PROCESS_RUNNING
        (add_background_job 500 "sleep 50".toList init_background_jobs) ∧
      (add_background_job 500 "sleep 50".toList init_background_jobs).1 = 1) ∧
    (0 < full_job_table.next_job_number ∧
      allocation_ok full_job_table 500 "vim".toList ProcessState.PROCESS_STOPPED
        (add_stopped_job 500 "vim".toList full_job_table) ∧
      (add_stopped_job 500 "vim".toList full_job_table).1 = -1) :=
  ⟨⟨by decide, (add_job_fails_iff_full init_background_jobs 500 "sleep 50".toList
      (by decide)).1, by decide⟩,
    ⟨by decide, (add_job_fails_iff_full full_job_table 500 "vim".toList (by decide)).2,
      by decide⟩⟩

theorem cleanup_in_range (t : JobTable) (k : Nat) (hk : k < MAX_BACKGROUND_JOBS) :
    cleanup_background_job (k : Int) t
      = ⟨Function.update t.background_jobs k empty_job, t.next_job_number⟩ := by
  unfold cleanup_background_job
  have h : (k : Int) ≥ 0 ∧ (k : Int) < (MAX_BACKGROUND_JOBS : Int) := by
    constructor
    · omega
    · exact_mod_cast hk
  rw [if_pos h]
  simp

theorem report_step_slot (wait : Nat → WaitStatus) (k : Nat) (t : JobTable)
    (lines : List (List Char)) (hk : k < MAX_BACKGROUND_JOBS) :
    ∃ r : JobTable × List (List Char),
      (if (t.background_jobs k).is_active ≠ 0 then
        match wait k with
        | WaitStatus.stopped =>
          ((⟨Function.update t.background_jobs k
            { t.background_jobs k with state := ProcessState.PROCESS_STOPPED },
            t.next_job_number⟩ : JobTable), lines)
        | WaitStatus.exited status =>
          (cleanup_background_job k t,
            lines ++ [exit_line (t.background_jobs k) (decide (status = 0))])
        | WaitStatus.signaled _ =>
          (cleanup_background_job k t, lines ++ [exit_line (t.background_jobs k) false])
        | WaitStatus.error => (cleanup_background_job k t, lines)
        | WaitStatus.no_change => (t, lines)
      else (t, lines)) = r ∧
      r.1.next_job_number = t.next_job_number ∧
      r.1.background_jobs
        = Function.update t.background_jobs k (reaped_slot (wait k) (t.background_jobs k)) ∧
      r.2 = lines ++ reaped_lines (wait k) (t.background_jobs k) := by
  have hc := cleanup_in_range t k hk
  by_cases ha : (t.background_jobs k).is_active ≠ 0
  · simp only [if_pos ha, reaped_slot, reaped_lines]
    cases hw : wait k with
    | error => exact ⟨_, rfl, by rw [hc], by rw [hc], by simp⟩
    | no_change => exact ⟨_, rfl, rfl, by simp, by simp⟩
    | exited s => exact ⟨_, rfl, by rw [hc], by rw [hc], rfl⟩
    | signaled s => exact ⟨_, rfl, by rw [hc], by rw [hc], rfl⟩
    | stopped => exact ⟨_, rfl, rfl, rfl, by simp⟩
  · simp only [if_neg ha, reaped_slot, reaped_lines]
    exact ⟨_, rfl, rfl, by simp, by simp⟩

theorem report_loop_slots (wait : Nat → WaitStatus) (turns : Nat) :
    ∀ (k : Nat) (t : JobTable) (lines : List (List Char)),
    k + turns ≤ MAX_BACKGROUND_JOBS →
    (check_background_jobs_report_loop wait turns k t lines).1.next_job_number
        = t.next_job_number ∧
    (∀ j, (check_background_jobs_report_loop wait turns k t lines).1.background_jobs j
        = if k ≤ j ∧ j < k + turns then reaped_slot (wait j) (t.background_jobs j)
          else t.background_jobs j) ∧
    (check_background_jobs_report_loop wait turns k t lines).2
        = lines ++ (List.range' k turns).flatMap
            (fun j => reaped_lines (wait j) (t.background_jobs j)) := by
  induction turns with
  | zero =>
    intro k t lines _
    refine ⟨rfl, fun j => ?_, by simp [check_background_jobs_report_loop]⟩
    rw [if_neg (by omega)]
    rfl
  | succ turns ih =>
    intro k t lines hk
    rw [check_background_jobs_report_loop]
    obtain ⟨r, hr, h1, h2, h3⟩ := report_step_slot wait k t lines (by omega)
    dsimp only
    rw [hr]
    obtain ⟨i1, i2, i3⟩ := ih (k + 1) r.1 r.2 (by omega)
    refine ⟨by rw [i1, h1], fun j => ?_, ?_⟩
    · rw [i2 j, h2]
      by_cases hj : j = k
      · subst hj
        rw [if_neg (by omega), if_pos (by omega), Function.update_same]
      · rw [Function.update_noteq hj]
        by_cases hin : k + 1 ≤ j ∧ j < k + 1 + turns
        · rw [if_pos hin, if_pos (by omega)]
        · rw [if_neg hin, if_neg (by omega)]
    · rw [i3, h3, List.range'_succ, List.flatMap_cons, List.append_assoc]
      congr 2
      apply List.flatMap_congr
      intro j hj
      rw [List.mem_range'_1] at hj
      rw [h2, Function.update_noteq (by omega)]

/-- C26: in one pass of `check_background_jobs`, an active slot whose wait
reports the end of the process (by exit or by a signal) or fails becomes
inactive; one whose wait reports a stop is left as it is but for its state,
which becomes `PROCESS_STOPPED`, and no line is printed for it; one whose
process still runs is unchanged; an inactive slot is unchanged; the job
counter is unchanged; and the lines printed are those of the active slots
whose process has ended, in slot order. -/
theorem reap_pass_slot_by_slot (wait : Nat → WaitStatus) (t : JobTable) :
    (∀ i, i < MAX_BACKGROUND_JOBS → (t.background_jobs i).is_active ≠ 0 →
      (((∃ s, wait i = WaitStatus.exited s) ∨ (∃ s, wait i = WaitStatus.signaled s) ∨
          wait i = WaitStatus.error) →
        ((check_background_jobs wait t).background_jobs i).is_active = 0) ∧
      (wait i = WaitStatus.stopped →
        (check_background_jobs wait t).background_jobs i
          = { t.background_jobs i with state := ProcessState.PROCESS_STOPPED } ∧
        reaped_lines (wait i) (t.background_jobs i) = []) ∧
      (wait i = WaitStatus.no_change →
        (check_background_jobs wait t).background_jobs i = t.background_jobs i)) ∧
    (∀ i, (t.background_jobs i).is_active = 0 →
      (check_background_jobs wait t).background_jobs i = t.background_jobs i) ∧
    (check_background_jobs wait t).next_job_number = t.next_job_number ∧
    check_background_jobs_report wait t
      = (List.range MAX_BACKGROUND_JOBS).flatMap
          (fun i => reaped_lines (wait i) (t.background_jobs i)) := by
  obtain ⟨h1, h2, h3⟩ := report_loop_slots wait MAX_BACKGROUND_JOBS 0 t [] (by omega)
  have ht : check_background_jobs wait t
      = (check_background_jobs_report_loop wait MAX_BACKGROUND_JOBS 0 t []).1 :=
    (report_loop_table wait MAX_BACKGROUND_JOBS 0 t []).symm
  rw [ht]
  refine ⟨fun i hi ha => ?_, fun i h0 => ?_, h1, ?_⟩
  · rw [h2 i, if_pos ⟨Nat.zero_le _, by omega⟩]
    refine ⟨?_, ?_, ?_⟩
    · rintro (⟨s, hs⟩ | ⟨s, hs⟩ | hs) <;> simp [reaped_slot, ha, hs, empty_job]
    · intro hs
      simp [reaped_slot, reaped_lines, ha, hs]
    · intro hs
      simp [reaped_slot, ha, hs]
  · rw [h2 i]
    split
    · simp [reaped_slot, h0]
    · rfl
  · unfold check_background_jobs_report
    rw [h3, List.range_eq_range']
    simp

set_option maxRecDepth 100000 in
/-- C26 (witness): a pass over three running jobs in which the first has
exited, the second was stopped and the wait for the third failed. -/
theorem reap_pass_slot_by_slot_witness :
    (three_jobs_table.background_jobs 1).is_active ≠ 0 ∧
    mixed_waits 1 = WaitStatus.stopped ∧
    (check_background_jobs mixed_waits three_jobs_table).background_jobs 1
      = { three_jobs_table.background_jobs 1 with state := ProcessState.PROCESS_STOPPED } ∧
    check_background_jobs_report mixed_waits three_jobs_table
      = ["sleep 5 & with pid 100 exited normally\n".toList] := by
  have h := reap_pass_slot_by_slot mixed_waits three_jobs_table
  have ha : (three_jobs_table.background_jobs 1).is_active ≠ 0 := by decide
  have hw : mixed_waits 1 = WaitStatus.stopped := rfl
  exact ⟨ha, hw, ((h.1 1 (by decide) ha).2.1 hw).1, by decide⟩
end Shell
